import Mathlib

/-!
# Verification of the merge-tab-groups engine

Shallow embedding of the merge/dedupe logic of the `merge-tab-groups`
browser extension (service-worker file `background.js`, latest iteration:
the version that defines `shouldAvoidDiscard` and
`findDuplicateTargetGroup`).

Modelling conventions:
* JS strings are modelled as `List Char` (`Str`); `String.prototype.trim`
  is `trimStr` (drop whitespace on both ends) and `toLowerCase` is a
  character-wise `Char.toLower` map.
* The browser state visible to the engine is a `World`: the list of tab
  groups and the list of tabs.  Host API calls that mutate state
  (`chrome.tabs.group`, `chrome.tabGroups.update`) are modelled as pure
  state transformers; every request issued to the host is also recorded
  in a trace of `Req` values (`discard`, `move`, `update`).
* `chrome.tabs.group` can be rejected by the host; the oracle
  `moveOk : Nat → Bool` says, per source group, whether the host accepts
  the batched move.  The code swallows the failure either way, so on
  rejection the state is unchanged but the request is still in the trace.
* `Array.prototype.sort` with a numeric comparator is a stable sort
  (ES2019); for a comparator that is a total preorder the stable sorted
  permutation is unique, so it is modelled by `List.insertionSort`
  (Mathlib's insertion sort, which is stable) with the ordering relation
  induced by the comparator.
* JS `Map` iteration follows key-insertion order; `groupByKey` below
  reproduces that.
-/

namespace MTG

/-- JS strings, modelled as lists of characters. -/
abbrev Str := List Char

/-- `String.prototype.trim`: drop whitespace from both ends. -/
def trimStr (s : Str) : Str :=
  ((s.dropWhile Char.isWhitespace).reverse.dropWhile Char.isWhitespace).reverse

/-- `String.prototype.toLowerCase`, character-wise. -/
def toLowerStr (s : Str) : Str := s.map Char.toLower

/-- `normalizeTitle(title, caseSensitive)` from `background.js`:
`(title ?? "").trim()` and, unless `caseSensitive`, lower-cased.
An absent title is modelled as the empty string. -/
def normalizeTitle (title : Str) (caseSensitive : Bool) : Str :=
  let t := trimStr title
  if caseSensitive then t else toLowerStr t

/-- A tab group as reported by `chrome.tabGroups`. -/
structure Group where
  id : Nat
  title : Str
  windowId : Nat
  collapsed : Bool
deriving DecidableEq

/-- A tab as reported by `chrome.tabs`.  `groupId` is the owning group's
id; `url` is the committed URL (empty when none is committed yet) and
`pendingUrl` is the pending navigation URL (empty when absent). -/
structure Tab where
  id : Nat
  groupId : Nat
  windowId : Nat
  active : Bool
  url : Str
  pendingUrl : Str
deriving DecidableEq

/-- Browser state visible to the engine. -/
structure World where
  groups : List Group
  tabs : List Tab
deriving DecidableEq

/-- A request issued to the host browser API. -/
inductive Req where
  | discard (tabId : Nat)
  | move (tabIds : List Nat) (groupId : Nat)
  | update (groupId : Nat) (title : Str) (collapsed : Bool)
deriving DecidableEq

/-- Whether a request is a tab-move request (`chrome.tabs.group`). -/
def Req.isMove : Req → Bool
  | .move _ _ => true
  | _ => false

/-- `chrome.tabs.query({groupId})`: the tabs of one group. -/
def tabsInGroup (w : World) (gid : Nat) : List Tab :=
  w.tabs.filter (fun t => t.groupId == gid)

/-- Effect of an accepted `chrome.tabs.group({tabIds, groupId})` call:
the listed tabs change owning group. -/
def moveTabs (w : World) (tabIds : List Nat) (gid : Nat) : World :=
  { w with tabs := w.tabs.map (fun t =>
      if tabIds.contains t.id then { t with groupId := gid } else t) }

/-- Effect of `chrome.tabGroups.update(gid, {title, collapsed})`. -/
def updateGroup (w : World) (gid : Nat) (title : Str) (collapsed : Bool) : World :=
  { w with groups := w.groups.map (fun g =>
      if g.id == gid then { g with title := title, collapsed := collapsed } else g) }

/-- `shouldAvoidDiscard(tab)` from `background.js`: a tab must not be
discarded when it is active, or its trimmed URL is empty or
`about:blank`, or it has a pending navigation URL. -/
def shouldAvoidDiscard (t : Tab) : Bool :=
  t.active || trimStr t.url == [] || trimStr t.url == "about:blank".toList
    || !(t.pendingUrl == [])

/-- `safeDiscardFromTabs(tabs)`: best-effort discard of every tab that
passes the eligibility check; modelled as the issued discard requests. -/
def safeDiscardFromTabs (tabs : List Tab) : List Req :=
  (tabs.filter (fun t => !shouldAvoidDiscard t)).map (fun t => Req.discard t.id)

/-- `discardNonActiveTabsInGroup(groupId)`: list the group's tabs and
run the eligibility-filtered discard over them. -/
def discardNonActiveTabsInGroup (w : World) (gid : Nat) : List Req :=
  safeDiscardFromTabs (tabsInGroup w gid)

/-- `chrome.tabGroups.get(id)`: resolve a group id (None models the
promise rejecting for an unknown id). -/
def getGroup (w : World) (gid : Nat) : Option Group :=
  w.groups.find? (fun g => g.id == gid)

/-! ## Trim idempotence -/

theorem dropWhile_dropWhile (p : Char → Bool) (l : Str) :
    (l.dropWhile p).dropWhile p = l.dropWhile p := by
  induction l with
  | nil => rfl
  | cons x xs ih =>
    by_cases h : p x
    · simp [List.dropWhile_cons, h, ih]
    · simp [List.dropWhile_cons, h]

theorem dropWhile_append_singleton (p : Char → Bool) (x : Char) (hx : p x = false)
    (l : Str) : (l ++ [x]).dropWhile p = l.dropWhile p ++ [x] := by
  induction l with
  | nil => simp [List.dropWhile_cons, hx]
  | cons y ys ih =>
    by_cases h : p y
    · simp [List.dropWhile_cons, h, ih]
    · simp [List.dropWhile_cons, h]

theorem dropWhile_fix_head (p : Char → Bool) (x : Char) (xs : Str)
    (h : (x :: xs).dropWhile p = x :: xs) : p x = false := by
  by_cases hx : p x
  · exfalso
    rw [List.dropWhile_cons, if_pos hx] at h
    have hlen : (xs.dropWhile p).length ≤ xs.length := (List.dropWhile_sublist _).length_le
    rw [h] at hlen
    simp at hlen
  · exact (Bool.not_eq_true _).mp hx

/-- Left-trimming commutes out of right-trimming a left-trimmed list. -/
theorem dropWhile_reverse_dropWhile_reverse (p : Char → Bool) (v : Str)
    (hv : v.dropWhile p = v) :
    ((v.reverse.dropWhile p).reverse).dropWhile p = (v.reverse.dropWhile p).reverse := by
  cases v with
  | nil => rfl
  | cons x xs =>
    have hx : p x = false := dropWhile_fix_head p x xs hv
    have h1 : ((x :: xs).reverse).dropWhile p = xs.reverse.dropWhile p ++ [x] := by
      rw [List.reverse_cons]
      exact dropWhile_append_singleton p x hx _
    rw [h1]
    rw [List.reverse_append]
    simp only [List.reverse_cons, List.reverse_nil, List.nil_append, List.singleton_append]
    rw [List.dropWhile_cons, if_neg (by simp [hx])]

/-- `trimStr` is idempotent (JS `trim` removes all leading/trailing
whitespace in one pass). -/
theorem trimStr_idem (s : Str) : trimStr (trimStr s) = trimStr s := by
  unfold trimStr
  set u := s.dropWhile Char.isWhitespace with hu
  have hufix : u.dropWhile Char.isWhitespace = u := by
    rw [hu]; exact dropWhile_dropWhile _ _
  have houter : ((u.reverse.dropWhile Char.isWhitespace).reverse).dropWhile Char.isWhitespace
      = (u.reverse.dropWhile Char.isWhitespace).reverse :=
    dropWhile_reverse_dropWhile_reverse _ u hufix
  rw [houter]
  rw [List.reverse_reverse]
  rw [dropWhile_dropWhile]

/-- Normalizing a trimmed title gives the same key as normalizing the
title itself. -/
theorem normalizeTitle_trimStr (s : Str) (cs : Bool) :
    normalizeTitle (trimStr s) cs = normalizeTitle s cs := by
  unfold normalizeTitle
  rw [trimStr_idem]

/-! ## Grouping by key (JS `Map` built with `if (!m.has(k)) m.set(k, []); m.get(k).push(x)`)

JS `Map` iterates in key-insertion order; the loops in `background.js`
that build `buckets` and `byWindow` maps are modelled by `groupByKey`,
which keeps an association list in key-insertion order and appends each
element to its key's bucket.  A `keyOf` result of `none` models the
`continue` that skips an element (unnamed groups with
`includeUnnamed = false`). -/

/-- Append `x` to the bucket of `k`, creating the bucket at the end when
the key is new (JS `Map.set` of a fresh key appends it in iteration
order). -/
def insertByKey {κ α : Type} [BEq κ] :
    List (κ × List α) → κ → α → List (κ × List α)
  | [], k, x => [(k, [x])]
  | (k', b) :: rest, k, x =>
    if k' == k then (k', b ++ [x]) :: rest
    else (k', b) :: insertByKey rest k x

/-- The loop body fold: group `l` by `keyOf`, skipping `none` keys,
starting from accumulator `acc`. -/
def groupByKeyAux {κ α : Type} [BEq κ] (keyOf : α → Option κ) :
    List α → List (κ × List α) → List (κ × List α)
  | [], acc => acc
  | x :: xs, acc =>
    groupByKeyAux keyOf xs
      (match keyOf x with
       | none => acc
       | some k => insertByKey acc k x)

/-- Group a list by key in key-insertion order (the JS `Map` pattern). -/
def groupByKey {κ α : Type} [BEq κ] (keyOf : α → Option κ) (l : List α) :
    List (κ × List α) :=
  groupByKeyAux keyOf l []

theorem lookup_insertByKey_self {κ α : Type} [BEq κ] [LawfulBEq κ]
    (acc : List (κ × List α)) (k : κ) (x : α) :
    (insertByKey acc k x).lookup k = some (((acc.lookup k).getD []) ++ [x]) := by
  induction acc with
  | nil => simp [insertByKey, List.lookup]
  | cons e rest ih =>
    obtain ⟨k', b⟩ := e
    by_cases h : k' = k
    · subst h
      simp [insertByKey, List.lookup]
    · have hbe : (k' == k) = false := by simp [h]
      have hbe2 : (k == k') = false := by simp [Ne.symm h]
      simp [insertByKey, hbe, List.lookup, hbe2, ih]

theorem lookup_insertByKey_other {κ α : Type} [BEq κ] [LawfulBEq κ]
    (acc : List (κ × List α)) (k k' : κ) (x : α) (h : k' ≠ k) :
    (insertByKey acc k x).lookup k' = acc.lookup k' := by
  induction acc with
  | nil =>
    have hb : (k' == k) = false := by simp [h]
    simp [insertByKey, List.lookup, hb]
  | cons e rest ih =>
    obtain ⟨k0, b⟩ := e
    by_cases h0 : k0 = k
    · subst h0
      have hb : (k' == k0) = false := by simp [h]
      simp [insertByKey, List.lookup, hb]
    · have hbe : (k0 == k) = false := by simp [h0]
      by_cases h1 : k' = k0
      · subst h1
        simp [insertByKey, hbe, List.lookup]
      · have : (k' == k0) = false := by simp [h1]
        simp [insertByKey, hbe, List.lookup, this, ih]

/-- Lookup characterization of `groupByKeyAux`: the bucket of `k` is the
accumulator's bucket followed by the matching elements of the input, and
a key is present iff it was present or some element maps to it. -/
theorem lookup_groupByKeyAux {κ α : Type} [BEq κ] [LawfulBEq κ]
    (keyOf : α → Option κ) (l : List α) :
    ∀ (acc : List (κ × List α)) (k : κ),
      (groupByKeyAux keyOf l acc).lookup k =
        match acc.lookup k, l.filter (fun x => keyOf x == some k) with
        | none, [] => none
        | none, m => some m
        | some b, m => some (b ++ m) := by
  induction l with
  | nil =>
    intro acc k
    simp only [groupByKeyAux, List.filter_nil]
    cases acc.lookup k <;> simp
  | cons x xs ih =>
    intro acc k
    simp only [groupByKeyAux]
    cases hkx : keyOf x with
    | none =>
      have hne : (keyOf x == some k) = false := by simp [hkx]
      simp only [List.filter_cons, hne, Bool.false_eq_true, if_false]
      exact ih acc k
    | some k0 =>
      by_cases hk : k0 = k
      · subst hk
        have heq : (keyOf x == some k0) = true := by simp [hkx]
        simp only [List.filter_cons, heq, if_true]
        rw [ih]
        rw [lookup_insertByKey_self]
        cases h : acc.lookup k0 with
        | none =>
          simp only [h, Option.getD_none, List.nil_append]
          cases hf : xs.filter (fun x => keyOf x == some k0) <;> simp
        | some b =>
          simp only [h, Option.getD_some]
          cases hf : xs.filter (fun x => keyOf x == some k0) <;> simp
      · have hne : (keyOf x == some k) = false := by simp [hkx, hk]
        simp only [List.filter_cons, hne, Bool.false_eq_true, if_false]
        rw [ih]
        rw [lookup_insertByKey_other _ _ _ _ (Ne.symm hk)]

/-- Top-level lookup characterization for `groupByKey`. -/
theorem lookup_groupByKey {κ α : Type} [BEq κ] [LawfulBEq κ]
    (keyOf : α → Option κ) (l : List α) (k : κ) :
    (groupByKey keyOf l).lookup k =
      match l.filter (fun x => keyOf x == some k) with
      | [] => none
      | m => some m := by
  unfold groupByKey
  rw [lookup_groupByKeyAux]
  cases l.filter (fun x => keyOf x == some k) <;> simp [List.lookup]

theorem lookup_groupByKey_eq_some {κ α : Type} [BEq κ] [LawfulBEq κ]
    (keyOf : α → Option κ) (l : List α) (k : κ) (b : List α)
    (h : (groupByKey keyOf l).lookup k = some b) :
    b = l.filter (fun x => keyOf x == some k) ∧ b ≠ [] := by
  rw [lookup_groupByKey] at h
  revert h
  cases hf : l.filter (fun x => keyOf x == some k) with
  | nil => intro h; cases h
  | cons y ys =>
    intro h
    refine ⟨by injection h with h2; exact h2.symm ▸ rfl, ?_⟩
    injection h with h2
    rw [← h2]
    simp

theorem keys_insertByKey {κ α : Type} [BEq κ] [LawfulBEq κ]
    (acc : List (κ × List α)) (k : κ) (x : α) :
    (insertByKey acc k x).map Prod.fst = acc.map Prod.fst
      ∨ (insertByKey acc k x).map Prod.fst = acc.map Prod.fst ++ [k] := by
  induction acc with
  | nil => right; simp [insertByKey]
  | cons e rest ih =>
    obtain ⟨k', b⟩ := e
    by_cases h : k' = k
    · subst h
      left; simp [insertByKey]
    · have hb : (k' == k) = false := by simp [h]
      rcases ih with h1 | h1
      · left; simp [insertByKey, hb, h1]
      · right; simp [insertByKey, hb, h1]

theorem mem_keys_insertByKey {κ α : Type} [BEq κ] [LawfulBEq κ]
    (acc : List (κ × List α)) (k k' : κ) (x : α)
    (h : k' ∈ (insertByKey acc k x).map Prod.fst) :
    k' ∈ acc.map Prod.fst ∨ k' = k := by
  rcases keys_insertByKey acc k x with he | he <;> rw [he] at h
  · exact Or.inl h
  · rcases List.mem_append.mp h with h1 | h1
    · exact Or.inl h1
    · right; simpa using h1

theorem nodup_keys_insertByKey {κ α : Type} [BEq κ] [LawfulBEq κ]
    (acc : List (κ × List α)) (k : κ) (x : α)
    (h : (acc.map Prod.fst).Nodup) :
    ((insertByKey acc k x).map Prod.fst).Nodup := by
  induction acc with
  | nil => simp [insertByKey]
  | cons e rest ih =>
    obtain ⟨k', b⟩ := e
    simp only [List.map_cons, List.nodup_cons] at h
    by_cases hk : k' = k
    · subst hk
      simp only [insertByKey, beq_self_eq_true, if_true, List.map_cons, List.nodup_cons]
      exact h
    · have hb : (k' == k) = false := by simp [hk]
      simp only [insertByKey, hb, Bool.false_eq_true, if_false, List.map_cons,
        List.nodup_cons]
      refine ⟨fun hmem => ?_, ih h.2⟩
      rcases mem_keys_insertByKey rest k k' x hmem with h1 | h1
      · exact h.1 h1
      · exact hk h1

theorem nodup_keys_groupByKeyAux {κ α : Type} [BEq κ] [LawfulBEq κ]
    (keyOf : α → Option κ) (l : List α) :
    ∀ acc : List (κ × List α), (acc.map Prod.fst).Nodup →
      ((groupByKeyAux keyOf l acc).map Prod.fst).Nodup := by
  induction l with
  | nil => intro acc h; exact h
  | cons x xs ih =>
    intro acc h
    simp only [groupByKeyAux]
    cases hkx : keyOf x with
    | none => exact ih acc h
    | some k => exact ih _ (nodup_keys_insertByKey acc k x h)

/-- The keys of a `groupByKey` result are distinct. -/
theorem nodup_keys_groupByKey {κ α : Type} [BEq κ] [LawfulBEq κ]
    (keyOf : α → Option κ) (l : List α) :
    ((groupByKey keyOf l).map Prod.fst).Nodup :=
  nodup_keys_groupByKeyAux keyOf l [] (by simp)

theorem lookup_eq_some_of_mem {κ β : Type} [BEq κ] [LawfulBEq κ]
    (l : List (κ × β)) (k : κ) (b : β)
    (hmem : (k, b) ∈ l) (hnd : (l.map Prod.fst).Nodup) :
    l.lookup k = some b := by
  induction l with
  | nil => cases hmem
  | cons e rest ih =>
    obtain ⟨k0, b0⟩ := e
    simp only [List.map_cons, List.nodup_cons] at hnd
    rcases List.mem_cons.mp hmem with h | h
    · injection h with h1 h2
      subst h1; subst h2
      simp [List.lookup, beq_self_eq_true]
    · have hk : k ≠ k0 := by
        intro he
        subst he
        exact hnd.1 (by exact List.mem_map.mpr ⟨(k, b), h, rfl⟩)
      have hb : (k == k0) = false := by simp [hk]
      simp only [List.lookup, hb]
      exact ih h hnd.2

theorem mem_of_lookup_eq_some {κ β : Type} [BEq κ] [LawfulBEq κ]
    (l : List (κ × β)) (k : κ) (b : β) (h : l.lookup k = some b) :
    (k, b) ∈ l := by
  induction l with
  | nil => cases h
  | cons e rest ih =>
    obtain ⟨k0, b0⟩ := e
    by_cases hk : k = k0
    · subst hk
      simp only [List.lookup, beq_self_eq_true] at h
      injection h with h1
      subst h1
      exact List.mem_cons_self _ _
    · have hb : (k == k0) = false := by simp [hk]
      simp only [List.lookup, hb] at h
      exact List.mem_cons_of_mem _ (ih h)

/-- Every bucket of a `groupByKey` result is the filter of the input at
its key (and is nonempty). -/
theorem mem_groupByKey_eq_filter {κ α : Type} [BEq κ] [LawfulBEq κ]
    (keyOf : α → Option κ) (l : List α) (k : κ) (b : List α)
    (hmem : (k, b) ∈ groupByKey keyOf l) :
    b = l.filter (fun x => keyOf x == some k) ∧ b ≠ [] :=
  lookup_groupByKey_eq_some keyOf l k b
    (lookup_eq_some_of_mem _ k b hmem (nodup_keys_groupByKey keyOf l))

theorem mem_keys_of_keyOf {κ α : Type} [BEq κ] [LawfulBEq κ]
    (keyOf : α → Option κ) (l : List α) (x : α) (k : κ)
    (hx : x ∈ l) (hk : keyOf x = some k) :
    k ∈ (groupByKey keyOf l).map Prod.fst := by
  have hfilter : x ∈ l.filter (fun x => keyOf x == some k) :=
    List.mem_filter.mpr ⟨hx, by simp [hk]⟩
  have hne : l.filter (fun x => keyOf x == some k) ≠ [] :=
    fun he => by rw [he] at hfilter; cases hfilter
  have hlk : (groupByKey keyOf l).lookup k
      = some (l.filter (fun x => keyOf x == some k)) := by
    rw [lookup_groupByKey]
    revert hne
    cases l.filter (fun x => keyOf x == some k) with
    | nil => intro hne; exact absurd rfl hne
    | cons y ys => intro _; rfl
  exact List.mem_map.mpr ⟨(k, l.filter (fun x => keyOf x == some k)),
    mem_of_lookup_eq_some _ _ _ hlk, rfl⟩

/-! ## Heads of stable sorts

`counts.sort((a, b) => b.count - a.count)[0]` (descending, stable) picks
the first element of maximal key; `same.sort((a, b) => a.id - b.id)[0]`
(ascending, stable) picks the first element of minimal key.  `firstMaxBy`
and `firstMinBy` are direct recursions computing the same elements; the
lemmas below identify them with the sorted heads. -/

/-- First element of maximal `f`-value (ties go to the earlier element). -/
def firstMaxBy {α : Type} (f : α → Nat) : List α → Option α
  | [] => none
  | x :: xs =>
    some (match firstMaxBy f xs with
          | none => x
          | some y => if f y ≤ f x then x else y)

/-- First element of minimal `f`-value (ties go to the earlier element). -/
def firstMinBy {α : Type} (f : α → Nat) : List α → Option α
  | [] => none
  | x :: xs =>
    some (match firstMinBy f xs with
          | none => x
          | some y => if f x ≤ f y then x else y)

theorem insertionSort_ne_nil {α : Type} (r : α → α → Prop) [DecidableRel r]
    (l : List α) (h : l ≠ []) : List.insertionSort r l ≠ [] := by
  intro he
  have := List.length_insertionSort r l
  rw [he] at this
  exact h (List.length_eq_zero.mp this.symm)

theorem headD_insertionSort_firstMaxBy {α : Type} (f : α → Nat) (d : α) :
    ∀ l : List α, ∀ m : α, firstMaxBy f l = some m →
      (List.insertionSort (fun a b => f b ≤ f a) l).headD d = m := by
  intro l
  induction l with
  | nil => intro m h; cases h
  | cons x xs ih =>
    intro m h
    simp only [List.insertionSort]
    cases hxs : firstMaxBy f xs with
    | none =>
      have hnil : xs = [] := by
        cases xs with
        | nil => rfl
        | cons y ys => simp [firstMaxBy] at hxs
      subst hnil
      simp only [firstMaxBy] at h
      have h1 := Option.some.inj h
      simp [← h1]
    | some m' =>
      have hne : xs ≠ [] := by
        intro he; subst he; simp [firstMaxBy] at hxs
      have hsne : List.insertionSort (fun a b => f b ≤ f a) xs ≠ [] :=
        insertionSort_ne_nil _ xs hne
      obtain ⟨z, zs, hs⟩ : ∃ z zs,
          List.insertionSort (fun a b => f b ≤ f a) xs = z :: zs := by
        cases hcase : List.insertionSort (fun a b => f b ≤ f a) xs with
        | nil => exact absurd hcase hsne
        | cons z zs => exact ⟨z, zs, rfl⟩
      have hz : z = m' := by
        have h2 := ih m' hxs
        rw [hs] at h2
        simpa using h2
      rw [hs, hz]
      simp only [firstMaxBy, hxs] at h
      have h1 := Option.some.inj h
      by_cases hle : f m' ≤ f x
      · rw [List.orderedInsert, if_pos hle]
        simp [← h1, hle]
      · rw [List.orderedInsert, if_neg hle]
        simp [← h1, hle]

theorem headD_insertionSort_firstMinBy {α : Type} (f : α → Nat) (d : α) :
    ∀ l : List α, ∀ m : α, firstMinBy f l = some m →
      (List.insertionSort (fun a b => f a ≤ f b) l).headD d = m := by
  intro l
  induction l with
  | nil => intro m h; cases h
  | cons x xs ih =>
    intro m h
    simp only [List.insertionSort]
    cases hxs : firstMinBy f xs with
    | none =>
      have hnil : xs = [] := by
        cases xs with
        | nil => rfl
        | cons y ys => simp [firstMinBy] at hxs
      subst hnil
      simp only [firstMinBy] at h
      have h1 := Option.some.inj h
      simp [← h1]
    | some m' =>
      have hne : xs ≠ [] := by
        intro he; subst he; simp [firstMinBy] at hxs
      have hsne : List.insertionSort (fun a b => f a ≤ f b) xs ≠ [] :=
        insertionSort_ne_nil _ xs hne
      obtain ⟨z, zs, hs⟩ : ∃ z zs,
          List.insertionSort (fun a b => f a ≤ f b) xs = z :: zs := by
        cases hcase : List.insertionSort (fun a b => f a ≤ f b) xs with
        | nil => exact absurd hcase hsne
        | cons z zs => exact ⟨z, zs, rfl⟩
      have hz : z = m' := by
        have h2 := ih m' hxs
        rw [hs] at h2
        simpa using h2
      rw [hs, hz]
      simp only [firstMinBy, hxs] at h
      have h1 := Option.some.inj h
      by_cases hle : f x ≤ f m'
      · rw [List.orderedInsert, if_pos hle]
        simp [← h1, hle]
      · rw [List.orderedInsert, if_neg hle]
        simp [← h1, hle]

/-- `firstMaxBy` returns an element whose `f`-value dominates the list,
positioned after strictly smaller values only. -/
theorem firstMaxBy_spec {α : Type} (f : α → Nat) :
    ∀ (l : List α) (m : α), firstMaxBy f l = some m →
      ∃ pre post, l = pre ++ m :: post
        ∧ (∀ y ∈ l, f y ≤ f m) ∧ (∀ y ∈ pre, f y < f m) := by
  intro l
  induction l with
  | nil => intro m h; cases h
  | cons x xs ih =>
    intro m h
    cases hxs : firstMaxBy f xs with
    | none =>
      have hnil : xs = [] := by
        cases xs with
        | nil => rfl
        | cons y ys => simp [firstMaxBy] at hxs
      subst hnil
      simp only [firstMaxBy] at h
      injection h with h1
      subst h1
      exact ⟨[], [], rfl, by simp, by simp⟩
    | some y =>
      obtain ⟨pre, post, heq, hall, hpre⟩ := ih y hxs
      simp only [firstMaxBy, hxs] at h
      injection h with h1
      by_cases hle : f y ≤ f x
      · rw [if_pos hle] at h1
        subst h1
        refine ⟨[], xs, rfl, ?_, by simp⟩
        intro z hz
        rcases List.mem_cons.mp hz with h2 | h2
        · subst h2; exact le_refl _
        · exact le_trans (hall z h2) hle
      · rw [if_neg hle] at h1
        subst h1
        refine ⟨x :: pre, post, by rw [heq]; simp, ?_, ?_⟩
        · intro z hz
          rcases List.mem_cons.mp hz with h2 | h2
          · subst h2; exact le_of_lt (Nat.lt_of_not_le hle)
          · exact hall z h2
        · intro z hz
          rcases List.mem_cons.mp hz with h2 | h2
          · subst h2; exact Nat.lt_of_not_le hle
          · exact hpre z h2

/-- `firstMinBy` returns a member whose `f`-value is minimal. -/
theorem firstMinBy_spec {α : Type} (f : α → Nat) :
    ∀ (l : List α) (m : α), firstMinBy f l = some m →
      m ∈ l ∧ ∀ y ∈ l, f m ≤ f y := by
  intro l
  induction l with
  | nil => intro m h; cases h
  | cons x xs ih =>
    intro m h
    cases hxs : firstMinBy f xs with
    | none =>
      have hnil : xs = [] := by
        cases xs with
        | nil => rfl
        | cons y ys => simp [firstMinBy] at hxs
      subst hnil
      simp only [firstMinBy] at h
      injection h with h1
      subst h1
      exact ⟨List.mem_cons_self _ _, by simp⟩
    | some y =>
      obtain ⟨hymem, hall⟩ := ih y hxs
      simp only [firstMinBy, hxs] at h
      injection h with h1
      by_cases hle : f x ≤ f y
      · rw [if_pos hle] at h1
        subst h1
        refine ⟨List.mem_cons_self _ _, ?_⟩
        intro z hz
        rcases List.mem_cons.mp hz with h2 | h2
        · subst h2; exact le_refl _
        · exact le_trans hle (hall z h2)
      · rw [if_neg hle] at h1
        subst h1
        refine ⟨List.mem_cons_of_mem _ hymem, ?_⟩
        intro z hz
        rcases List.mem_cons.mp hz with h2 | h2
        · subst h2; exact le_of_lt (Nat.lt_of_not_le hle)
        · exact hall z h2

theorem firstMaxBy_isSome {α : Type} (f : α → Nat) (l : List α) (h : l ≠ []) :
    ∃ m, firstMaxBy f l = some m := by
  cases l with
  | nil => exact absurd rfl h
  | cons x xs => exact ⟨_, rfl⟩

theorem firstMinBy_isSome {α : Type} (f : α → Nat) (l : List α) (h : l ≠ []) :
    ∃ m, firstMinBy f l = some m := by
  cases l with
  | nil => exact absurd rfl h
  | cons x xs => exact ⟨_, rfl⟩

/-! ## The merge engine (`background.js`) -/

/-- Placeholder group for `headD`; never observed, since every caller
guards on a nonempty list (`bucket.length >= 2`). -/
def dfltGroup : Group := ⟨0, [], 0, false⟩

/-- The by-size target selection inside `mergeDuplicatesByName` (and
`mergeSelectedGroups`): query the tab count of every group, sort by
`(a, b) => b.count - a.count` (stable, descending), target is `counts[0]`
and the sources are `counts.slice(1)`.  The tab-count queries are a pure
scatter-gather, so reading them sequentially from `w` is equivalent. -/
def selectBySize (w : World) (b : List Group) : Group × List Group :=
  let counts := b.map (fun g => (g, (tabsInGroup w g.id).length))
  let sorted := List.insertionSort (fun x y => y.2 ≤ x.2) counts
  ((sorted.headD (dfltGroup, 0)).1, sorted.tail.map (fun x => x.1))

/-- `bucket.map(g => (g.title ?? "").trim()).filter(Boolean)`: the
nonempty trimmed titles of a bucket. -/
def bucketTitles (b : List Group) : List Str :=
  (b.map (fun g => trimStr g.title)).filter (fun t => !(t == []))

/-- The merged-title computation inside `mergeDuplicatesByName`:
`titles` sorted by `(a, b) => freq(b) - freq(a)` (stable, descending
frequency; the comparator reads frequencies from the array being sorted,
which stays a permutation of the original, so the counts are those of
the original `titles`); the result is `titles[0]`, or the target's title
when every title trims to empty. -/
def mergedTitle (b : List Group) (fallback : Str) : Str :=
  let titles := bucketTitles b
  if titles.isEmpty then fallback
  else (List.insertionSort
    (fun x y => titles.count y ≤ titles.count x) titles).headD fallback

/-- `mergeGroupSet(targetGroupId, otherGroupIds, {fastMerge})`: for each
source group (skipping the target itself), list its tabs, discard the
eligible ones when `fastMerge`, and issue one batched move of all its tab
ids into the target; a host rejection of the move (oracle `moveOk`) is
swallowed. -/
def mergeGroupSet (moveOk : Nat → Bool) (fm : Bool) (target : Nat) :
    List Nat → World → World × List Req
  | [], w => (w, [])
  | gid :: rest, w =>
    if gid == target then mergeGroupSet moveOk fm target rest w
    else
      let tabs := tabsInGroup w gid
      let tabIds := tabs.map (fun t => t.id)
      let dreqs := if fm && !tabs.isEmpty then safeDiscardFromTabs tabs else []
      let step :=
        if !tabIds.isEmpty then
          (if moveOk gid then moveTabs w tabIds target else w,
           [Req.move tabIds target])
        else (w, [])
      let next := mergeGroupSet moveOk fm target rest step.1
      (next.1, dreqs ++ step.2 ++ next.2)

/-- One result entry of `mergeDuplicatesByName`. -/
structure MergeResult where
  windowId : Nat
  title : Str
  mergedInto : Nat
  mergedCount : Nat
deriving DecidableEq

/-- The body of `mergeDuplicatesByName` for one bucket of groups that
share a normalized title (caller guarantees `bucket.length >= 2`):
select the by-size target, pre-discard in the target when `fastMerge`,
drain the other groups via `mergeGroupSet`, then set the most frequent
trimmed title and the `keepCollapsed` flag on the target. -/
def processBucket (moveOk : Nat → Bool) (fm kc : Bool) (wid : Nat)
    (b : List Group) (w : World) : World × List Req × MergeResult :=
  let sel := selectBySize w b
  let target := sel.1
  let others := sel.2
  let preReqs := if fm then discardNonActiveTabsInGroup w target.id else []
  let merged := mergeGroupSet moveOk fm target.id (others.map (fun g => g.id)) w
  let titleToSet := mergedTitle b target.title
  let w2 := updateGroup merged.1 target.id titleToSet kc
  (w2, preReqs ++ merged.2 ++ [Req.update target.id titleToSet kc],
   ⟨wid, titleToSet, target.id, b.length - 1⟩)

/-- The bucket loop of `mergeDuplicatesByName` for one window: buckets
of fewer than two groups are skipped. -/
def processBuckets (moveOk : Nat → Bool) (fm kc : Bool) (wid : Nat) :
    List (Str × List Group) → World → World × List Req × List MergeResult
  | [], w => (w, [], [])
  | (_, b) :: rest, w =>
    if b.length < 2 then processBuckets moveOk fm kc wid rest w
    else
      let done := processBucket moveOk fm kc wid b w
      let next := processBuckets moveOk fm kc wid rest done.1
      (next.1, done.2.1 ++ next.2.1, done.2.2 :: next.2.2)

/-- The bucket key used by `mergeDuplicatesByName` and
`recomputeAndDrainDuplicates`: the normalized title, with `none`
modelling the `continue` that skips unnamed groups when
`includeUnnamed` is false. -/
def bucketKeyOf (cs iu : Bool) (g : Group) : Option Str :=
  let key := normalizeTitle g.title cs
  if !iu && key == [] then none else some key

/-- Build the per-window buckets map (JS `Map` keyed by normalized
title, insertion-ordered). -/
def bucketsOf (cs iu : Bool) (gs : List Group) : List (Str × List Group) :=
  groupByKey (bucketKeyOf cs iu) gs

/-- Partition a group list by window id (the `byWindow` JS `Map`). -/
def partitionByWindow (gs : List Group) : List (Nat × List Group) :=
  groupByKey (fun g => some g.windowId) gs

/-- `listGroups(scope, windowId)` from `background.js`:
`some wid` models both an explicit `windowId` argument and
`scope = "currentWindow"` (with `wid` the current window's id);
`none` models `scope = "allWindows"` (`chrome.tabGroups.query({})`). -/
def listGroupsScope (w : World) (scope : Option Nat) : List Group :=
  match scope with
  | some wid => w.groups.filter (fun g => g.windowId == wid)
  | none => w.groups

/-- The window loop of `mergeDuplicatesByName`. -/
def runWindows (moveOk : Nat → Bool) (cs iu fm kc : Bool) :
    List (Nat × List Group) → World → World × List Req × List MergeResult
  | [], w => (w, [], [])
  | (wid, wgs) :: rest, w =>
    let bs := bucketsOf cs iu wgs
    let done := processBuckets moveOk fm kc wid bs w
    let next := runWindows moveOk cs iu fm kc rest done.1
    (next.1, done.2.1 ++ next.2.1, done.2.2 ++ next.2.2)

/-- `mergeDuplicatesByName({scope, windowId, caseSensitive,
includeUnnamed, fastMerge, keepCollapsed})`: list groups for the scope,
partition by window, bucket each window's groups by normalized title,
and merge every bucket of two or more groups. -/
def mergeDuplicatesByName (moveOk : Nat → Bool) (scope : Option Nat)
    (cs iu fm kc : Bool) (w : World) : World × List Req × List MergeResult :=
  runWindows moveOk cs iu fm kc (partitionByWindow (listGroupsScope w scope)) w

/-- `drainGroupToTarget(targetGroupId, sourceGroupId, {fastMerge})`: a
no-op on self-merge or when the source has no tabs; otherwise discard
the eligible tabs when `fastMerge` and issue one batched move (failure
swallowed, oracle `moveOk`). -/
def drainGroupToTarget (moveOk : Nat → Bool) (fm : Bool)
    (target src : Nat) (w : World) : World × List Req :=
  if target == src then (w, [])
  else
    let tabs := tabsInGroup w src
    if tabs.isEmpty then (w, [])
    else
      let dreqs := if fm then safeDiscardFromTabs tabs else []
      let tabIds := tabs.map (fun t => t.id)
      (if moveOk src then moveTabs w tabIds target else w,
       dreqs ++ [Req.move tabIds target])

/-- One entry of the per-window duplicate index
(`index.set(key, {target, others})`). -/
structure IndexEntry where
  key : Str
  target : Nat
  others : List Nat
deriving DecidableEq

/-- The drain loop of `recomputeAndDrainDuplicates` over the non-target
bucket members. -/
def drainList (moveOk : Nat → Bool) (fm : Bool) (target : Nat) :
    List Nat → World → World × List Req
  | [], w => (w, [])
  | src :: rest, w =>
    let done := drainGroupToTarget moveOk fm target src w
    let next := drainList moveOk fm target rest done.1
    (next.1, done.2 ++ next.2)

/-- The bucket loop of `recomputeAndDrainDuplicates`: for each bucket of
two or more groups, sort the bucket by ascending id, take the smallest-id
group as target, record the index entry, drain the others, and re-apply
the target's own title together with the `keepCollapsed` flag. -/
def recomputeBuckets (moveOk : Nat → Bool) (fm kc : Bool) :
    List (Str × List Group) → World → World × List Req × List IndexEntry
  | [], w => (w, [], [])
  | (k, b) :: rest, w =>
    if b.length < 2 then recomputeBuckets moveOk fm kc rest w
    else
      let sorted := List.insertionSort (fun g h => g.id ≤ h.id) b
      let target := sorted.headD dfltGroup
      let others := sorted.tail
      let drained := drainList moveOk fm target.id (others.map (fun g => g.id)) w
      let w2 := updateGroup drained.1 target.id target.title kc
      let next := recomputeBuckets moveOk fm kc rest w2
      (next.1,
       drained.2 ++ [Req.update target.id target.title kc] ++ next.2.1,
       ⟨k, target.id, others.map (fun g => g.id)⟩ :: next.2.2)

/-- `recomputeAndDrainDuplicates(windowId, settings)`: bucket the
window's groups by normalized title and drain every bucket of two or
more groups into its smallest-id member; returns the rebuilt per-window
duplicate index alongside the world and trace. -/
def recomputeAndDrainDuplicates (moveOk : Nat → Bool) (cs iu fm kc : Bool)
    (wid : Nat) (w : World) : World × List Req × List IndexEntry :=
  recomputeBuckets moveOk fm kc
    (bucketsOf cs iu (listGroupsScope w (some wid))) w

/-- `findDuplicateTargetGroup(windowId, title, {caseSensitive,
includeUnnamed})`: recompute the bucket for the title from a fresh group
listing; `null` when the key is excluded or the bucket has fewer than two
members, else the smallest-id member (`same.sort((a,b) => a.id - b.id)`
then `same[0].id`). -/
def findDuplicateTargetGroup (cs iu : Bool) (wid : Nat) (title : Str)
    (w : World) : Option Nat :=
  let key := normalizeTitle title cs
  if !iu && key == [] then none
  else
    let groups := listGroupsScope w (some wid)
    let same := groups.filter (fun g => normalizeTitle g.title cs == key)
    if same.length < 2 then none
    else some ((List.insertionSort (fun g h => g.id ≤ h.id) same).headD dfltGroup).id

/-- Result of `mergeSelectedGroups`. -/
inductive SelResult where
  /-- `{ok: false, error}`: structured failure with a reason. -/
  | err (msg : String)
  /-- A rejected `chrome.tabGroups.get` promise: the exception escapes
  `mergeSelectedGroups` and is surfaced by the message router. -/
  | exn
  /-- `{ok: true, targetGroupId, finalTitle, mergedCount}`. -/
  | ok (targetGroupId : Nat) (finalTitle : Str) (mergedCount : Nat)
deriving DecidableEq

/-- `Promise.all` over `chrome.tabGroups.get`: all ids must resolve. -/
def allSome {α : Type} : List (Option α) → Option (List α)
  | [] => some []
  | none :: _ => none
  | some x :: rest => (allSome rest).map (fun l => x :: l)

/-- `mergeSelectedGroups({targetTitle, groupIds})`: validate at least two
ids and a single window, pick the by-size target among the selected
groups, set the final title first, then pre-discard in the target and
drain the others.  `targetTitle = none` models an absent `targetTitle`
(`targetTitle ?? target.title`); `kc`/`fm` are the stored settings read
inside the function. -/
def mergeSelectedGroups (moveOk : Nat → Bool) (kc fm : Bool)
    (targetTitle : Option Str) (groupIds : List Nat) (w : World) :
    World × List Req × SelResult :=
  if groupIds.length < 2 then (w, [], .err "Select at least two groups.")
  else
    match allSome (groupIds.map (getGroup w)) with
    | none => (w, [], .exn)
    | some details =>
      let byWin := partitionByWindow details
      if 1 < byWin.length then
        (w, [], .err "For now, merge groups from one window at a time.")
      else
        let windowGroups := (byWin.headD (0, [])).2
        let sel := selectBySize w windowGroups
        let target := sel.1
        let others := sel.2
        let finalTitle := trimStr (targetTitle.getD target.title)
        let w1 := updateGroup w target.id finalTitle kc
        let preReqs := if fm then discardNonActiveTabsInGroup w1 target.id else []
        let merged := mergeGroupSet moveOk fm target.id (others.map (fun g => g.id)) w1
        (merged.1,
         [Req.update target.id finalTitle kc] ++ preReqs ++ merged.2,
         .ok target.id finalTitle others.length)

/-! ## The per-window debouncer (`debounceByWindow`) -/

/-- The `debounceTimers` map: pending timer per window key, recorded as
the absolute time at which the armed timeout fires.  The JS map is keyed
by `String(windowId)`; that conversion is injective, so the key is
modelled by the window id itself. -/
structure DebounceState where
  timers : List (Nat × Nat)
deriving DecidableEq

/-- `debounceByWindow(windowId, fn, delay)` called at absolute time
`now`: `clearTimeout` any pending timer for the window, then arm a fresh
timer firing at `now + delay`. -/
def debounceByWindow (st : DebounceState) (now wid delay : Nat) : DebounceState :=
  ⟨st.timers.filter (fun e => !(e.1 == wid)) ++ [(wid, now + delay)]⟩

/-- Event-loop timer expiry: fire every pending timer due at or before
`now`; returns the new state and the executions (window key, fire time). -/
def fireDue (st : DebounceState) (now : Nat) : DebounceState × List (Nat × Nat) :=
  (⟨st.timers.filter (fun e => decide (now < e.2))⟩,
   st.timers.filter (fun e => decide (e.2 ≤ now)))

/-- A timeline of `debounceByWindow` calls: each entry is
(absolute call time, window id, delay).  Before each call every timer
already due fires; after the last call all remaining timers eventually
fire.  Returns the full execution list. -/
def runScript : List (Nat × Nat × Nat) → DebounceState → List (Nat × Nat)
  | [], st => st.timers
  | (now, wid, delay) :: rest, st =>
    let fired := fireDue st now
    (fired.2) ++ runScript rest (debounceByWindow fired.1 now wid delay)

/-! ## Target-selection and title-selection facts -/

theorem selectBySize_spec (w : World) (b : List Group) (hb : b ≠ []) :
    ∃ pre post, b = pre ++ (selectBySize w b).1 :: post
      ∧ (∀ g ∈ b, (tabsInGroup w g.id).length
          ≤ (tabsInGroup w (selectBySize w b).1.id).length)
      ∧ (∀ g ∈ pre, (tabsInGroup w g.id).length
          < (tabsInGroup w (selectBySize w b).1.id).length) := by
  classical
  set counts := b.map (fun g => (g, (tabsInGroup w g.id).length)) with hcounts
  have hcne : counts ≠ [] := by
    rw [hcounts]
    intro he
    exact hb (List.map_eq_nil_iff.mp he)
  obtain ⟨m, hm⟩ := firstMaxBy_isSome (fun p => p.2) counts hcne
  have hhead : (List.insertionSort (fun x y => y.2 ≤ x.2) counts).headD
      (dfltGroup, 0) = m :=
    headD_insertionSort_firstMaxBy (fun p : Group × Nat => p.2) (dfltGroup, 0)
      counts m hm
  have htarget : (selectBySize w b).1 = m.1 := by
    simp only [selectBySize, ← hcounts, hhead]
  obtain ⟨pre, post, heq, hall, hpre⟩ := firstMaxBy_spec (fun p => p.2) counts m hm
  have hsnd : ∀ p ∈ counts, p.2 = (tabsInGroup w p.1.id).length := by
    intro p hp
    rw [hcounts] at hp
    obtain ⟨g, _, hg⟩ := List.mem_map.mp hp
    rw [← hg]
  have hmmem : m ∈ counts := by
    rw [heq]
    exact List.mem_append.mpr (Or.inr (List.mem_cons_self _ _))
  have hm2 : m.2 = (tabsInGroup w m.1.id).length := hsnd m hmmem
  have hb2 : b = counts.map (fun p => p.1) := by
    rw [hcounts, List.map_map]
    exact (List.map_id b).symm
  refine ⟨pre.map (fun p => p.1), post.map (fun p => p.1), ?_, ?_, ?_⟩
  · rw [htarget, hb2, heq, List.map_append, List.map_cons]
  · intro g hg
    have hgp : (g, (tabsInGroup w g.id).length) ∈ counts := by
      rw [hcounts]
      exact List.mem_map.mpr ⟨g, hg, rfl⟩
    have := hall _ hgp
    rw [htarget, ← hm2]
    exact this
  · intro g hg
    obtain ⟨p, hp, hp1⟩ := List.mem_map.mp hg
    have hpc : p ∈ counts := by
      rw [heq]
      exact List.mem_append.mpr (Or.inl hp)
    have h2 := hpre p hp
    rw [hsnd p hpc, hp1] at h2
    rw [htarget, ← hm2]
    exact h2

theorem mergedTitle_spec (b : List Group) (fallback : Str)
    (h : bucketTitles b ≠ []) :
    ∃ pre post, bucketTitles b = pre ++ mergedTitle b fallback :: post
      ∧ (∀ s ∈ bucketTitles b,
          (bucketTitles b).count s ≤ (bucketTitles b).count (mergedTitle b fallback))
      ∧ (∀ s ∈ pre,
          (bucketTitles b).count s < (bucketTitles b).count (mergedTitle b fallback)) := by
  classical
  obtain ⟨m, hm⟩ := firstMaxBy_isSome (fun s => (bucketTitles b).count s)
    (bucketTitles b) h
  have hhead : (List.insertionSort
      (fun x y => (bucketTitles b).count y ≤ (bucketTitles b).count x)
      (bucketTitles b)).headD fallback = m :=
    headD_insertionSort_firstMaxBy (fun s => (bucketTitles b).count s) fallback
      (bucketTitles b) m hm
  have hne : (bucketTitles b).isEmpty = false := by
    cases hbt : bucketTitles b with
    | nil => exact absurd hbt h
    | cons x xs => simp [List.isEmpty]
  have hmt : mergedTitle b fallback = m := by
    simp only [mergedTitle, hne, Bool.false_eq_true, if_false]
    exact hhead
  rw [hmt]
  exact (firstMaxBy_spec _ (bucketTitles b) m hm).imp (fun pre hpre => hpre)

/-- The one element of `bucketTitles` is the trimmed title of a bucket
member. -/
theorem mergedTitle_mem (b : List Group) (fallback : Str)
    (h : bucketTitles b ≠ []) :
    ∃ g ∈ b, mergedTitle b fallback = trimStr g.title := by
  obtain ⟨pre, post, heq, -, -⟩ := mergedTitle_spec b fallback h
  have hmem : mergedTitle b fallback ∈ bucketTitles b := by
    rw [heq]
    exact List.mem_append.mpr (Or.inr (List.mem_cons_self _ _))
  unfold bucketTitles at hmem
  have hs := (List.mem_filter.mp hmem).1
  obtain ⟨g, hg, hgs⟩ := List.mem_map.mp hs
  exact ⟨g, hg, hgs.symm⟩

/-- When the bucket has no nonempty trimmed title, the merged title is
the fallback (the target's own title). -/
theorem mergedTitle_of_empty (b : List Group) (fallback : Str)
    (h : bucketTitles b = []) : mergedTitle b fallback = fallback := by
  simp [mergedTitle, h]

/-! ## Incremental-path target selection (`recomputeAndDrainDuplicates`,
`findDuplicateTargetGroup`) -/

theorem findDuplicateTargetGroup_eq_some (cs iu : Bool) (wid : Nat)
    (title : Str) (w : World) (tid : Nat)
    (h : findDuplicateTargetGroup cs iu wid title w = some tid) :
    2 ≤ ((listGroupsScope w (some wid)).filter
          (fun g => normalizeTitle g.title cs == normalizeTitle title cs)).length
    ∧ ∃ g ∈ (listGroupsScope w (some wid)).filter
          (fun g => normalizeTitle g.title cs == normalizeTitle title cs),
        g.id = tid
        ∧ ∀ g' ∈ (listGroupsScope w (some wid)).filter
            (fun g => normalizeTitle g.title cs == normalizeTitle title cs),
          g.id ≤ g'.id := by
  classical
  unfold findDuplicateTargetGroup at h
  by_cases hexc : (!iu && normalizeTitle title cs == []) = true
  · rw [if_pos hexc] at h; cases h
  · rw [if_neg hexc] at h
    set same := (listGroupsScope w (some wid)).filter
      (fun g => normalizeTitle g.title cs == normalizeTitle title cs) with hsame
    by_cases hlen : same.length < 2
    · rw [if_pos hlen] at h; cases h
    · rw [if_neg hlen] at h
      refine ⟨Nat.le_of_not_lt hlen, ?_⟩
      have hne : same ≠ [] := by
        intro he
        rw [he] at hlen
        exact hlen (by simp)
      obtain ⟨m, hm⟩ := firstMinBy_isSome (fun g : Group => g.id) same hne
      have hhead : (List.insertionSort (fun g h => g.id ≤ h.id) same).headD
          dfltGroup = m :=
        headD_insertionSort_firstMinBy (fun g : Group => g.id) dfltGroup same m hm
      obtain ⟨hmem, hmin⟩ := firstMinBy_spec (fun g : Group => g.id) same m hm
      refine ⟨m, hmem, ?_, hmin⟩
      rw [hhead] at h
      exact Option.some.inj h

theorem findDuplicateTargetGroup_small (cs iu : Bool) (wid : Nat)
    (title : Str) (w : World)
    (h : ((listGroupsScope w (some wid)).filter
        (fun g => normalizeTitle g.title cs == normalizeTitle title cs)).length < 2) :
    findDuplicateTargetGroup cs iu wid title w = none := by
  unfold findDuplicateTargetGroup
  by_cases hexc : (!iu && normalizeTitle title cs == []) = true
  · rw [if_pos hexc]
  · rw [if_neg hexc]
    rw [if_pos h]

/-- The index produced by the recompute loop: every entry's target is a
minimal-id member of a bucket of two or more groups, and every such
bucket produces an entry. -/
theorem recomputeBuckets_index (moveOk : Nat → Bool) (fm kc : Bool) :
    ∀ (bs : List (Str × List Group)) (w : World),
      (∀ e ∈ (recomputeBuckets moveOk fm kc bs w).2.2,
        ∃ b, (e.key, b) ∈ bs ∧ 2 ≤ b.length
          ∧ ∃ g ∈ b, g.id = e.target ∧ ∀ g' ∈ b, g.id ≤ g'.id)
      ∧ (∀ k b, (k, b) ∈ bs → 2 ≤ b.length →
        ∃ e ∈ (recomputeBuckets moveOk fm kc bs w).2.2, e.key = k
          ∧ ∃ g ∈ b, g.id = e.target ∧ ∀ g' ∈ b, g.id ≤ g'.id) := by
  intro bs
  induction bs with
  | nil =>
    intro w
    constructor
    · intro e he; cases he
    · intro k b hmem; cases hmem
  | cons kb rest ih =>
    intro w
    obtain ⟨k, b⟩ := kb
    by_cases hlen : b.length < 2
    · simp only [recomputeBuckets, if_pos hlen]
      refine ⟨fun e he => ?_, fun k' b' hmem h2 => ?_⟩
      · obtain ⟨b', hb', h2, hmin⟩ := (ih _).1 e he
        exact ⟨b', List.mem_cons_of_mem _ hb', h2, hmin⟩
      · rcases List.mem_cons.mp hmem with hcase | hcase
        · injection hcase with hk hb
          subst hk; subst hb
          exact absurd h2 (by omega)
        · obtain ⟨e, he, hk, hmin⟩ := (ih _).2 k' b' hcase h2
          exact ⟨e, he, hk, hmin⟩
    · have hne : b ≠ [] := by
        intro he; rw [he] at hlen; exact hlen (by simp)
      obtain ⟨m, hm⟩ := firstMinBy_isSome (fun g : Group => g.id) b hne
      have hhead : (List.insertionSort (fun g h => g.id ≤ h.id) b).headD
          dfltGroup = m :=
        headD_insertionSort_firstMinBy (fun g : Group => g.id) dfltGroup b m hm
      obtain ⟨hmem, hmin⟩ := firstMinBy_spec (fun g : Group => g.id) b m hm
      simp only [recomputeBuckets, if_neg hlen, hhead]
      refine ⟨fun e he => ?_, fun k' b' hmem' h2 => ?_⟩
      · rcases List.mem_cons.mp he with hcase | hcase
        · subst hcase
          exact ⟨b, List.mem_cons_self _ _, Nat.le_of_not_lt hlen,
            m, hmem, rfl, hmin⟩
        · obtain ⟨b', hb', h2, hmin'⟩ := (ih _).1 e hcase
          exact ⟨b', List.mem_cons_of_mem _ hb', h2, hmin'⟩
      · rcases List.mem_cons.mp hmem' with hcase | hcase
        · injection hcase with hk hb
          subst hk; subst hb
          exact ⟨⟨k', m.id, ((List.insertionSort (fun g h => g.id ≤ h.id) b').tail.map
              (fun g => g.id))⟩, List.mem_cons_self _ _, rfl, m, hmem, rfl, hmin⟩
        · obtain ⟨e, he, hk, hmin'⟩ := (ih _).2 k' b' hcase h2
          exact ⟨e, List.mem_cons_of_mem _ he, hk, hmin'⟩

/-! ## Debouncer facts -/

/-- After `debounceByWindow` the scheduled window has exactly one pending
timer and every other window's pending count is unchanged. -/
theorem debounceByWindow_slot (st : DebounceState) (now wid delay wid' : Nat) :
    ((debounceByWindow st now wid delay).timers.countP (fun e => e.1 == wid'))
      = if wid' = wid then 1 else st.timers.countP (fun e => e.1 == wid') := by
  unfold debounceByWindow
  by_cases h : wid' = wid
  · subst h
    rw [if_pos rfl]
    rw [List.countP_append]
    have h0 : (st.timers.filter (fun e => !(e.1 == wid'))).countP
        (fun e => e.1 == wid') = 0 := by
      rw [List.countP_eq_zero]
      intro e he
      have h2 := (List.mem_filter.mp he).2
      simp only [Bool.not_eq_true'] at h2
      simp [h2]
    rw [h0]
    simp
  · rw [if_neg h]
    rw [List.countP_append]
    have h1 : List.countP (fun e => e.1 == wid') [(wid, now + delay)] = 0 := by
      simp [List.countP_cons]
      intro hc
      exact absurd hc.symm h
    rw [h1, Nat.add_zero]
    rw [List.countP_filter]
    apply List.countP_congr
    intro e _
    constructor
    · intro hc
      simp only [Bool.and_eq_true] at hc
      exact hc.1
    · intro hc
      have he : e.1 = wid' := by simpa using hc
      simp [he, h]

/-- The chained burst condition: each call arrives strictly before the
previously armed timer would fire, and all calls are for window `wid`. -/
def burstOK (wid : Nat) : Nat → List (Nat × Nat × Nat) → Prop
  | _, [] => True
  | f0, e :: rest => e.2.1 = wid ∧ e.1 < f0 ∧ burstOK wid (e.1 + e.2.2) rest

theorem runScript_burst_aux (wid : Nat) :
    ∀ (events : List (Nat × Nat × Nat)) (f0 : Nat), burstOK wid f0 events →
      runScript events ⟨[(wid, f0)]⟩
        = [(wid, events.foldl (fun _ e => e.1 + e.2.2) f0)] := by
  intro events
  induction events with
  | nil => intro f0 _; rfl
  | cons ev rest ih =>
    intro f0 hb
    obtain ⟨t, wid2, d⟩ := ev
    obtain ⟨hwid, hlt, hrest⟩ := hb
    have hw2 : wid = wid2 := hwid.symm
    subst hw2
    have hfire : fireDue ⟨[(wid, f0)]⟩ t = (⟨[(wid, f0)]⟩, []) := by
      unfold fireDue
      have hp : decide (t < f0) = true := by simpa using hlt
      have hq : decide (f0 ≤ t) = false := by
        simp only [decide_eq_false_iff_not]
        omega
      simp [hp, hq]
    have hdeb : debounceByWindow ⟨[(wid, f0)]⟩ t wid d = ⟨[(wid, t + d)]⟩ := by
      unfold debounceByWindow
      simp
    simp only [runScript, hfire, hdeb, List.nil_append]
    exact ih (t + d) hrest

/-- A burst starting from an empty timer table produces exactly one
execution, at the last call's time plus its delay. -/
theorem runScript_burst (wid t d : Nat) (events : List (Nat × Nat × Nat))
    (h : burstOK wid (t + d) events) :
    runScript ((t, wid, d) :: events) ⟨[]⟩
      = [(wid, events.foldl (fun _ e => e.1 + e.2.2) (t + d))] := by
  have hfire : fireDue ⟨[]⟩ t = (⟨[]⟩, []) := by
    unfold fireDue; simp
  have hdeb : debounceByWindow ⟨[]⟩ t wid d = ⟨[(wid, t + d)]⟩ := by
    unfold debounceByWindow; simp
  simp only [runScript, hfire, hdeb, List.nil_append]
  exact runScript_burst_aux wid events (t + d) h

theorem getLast?_cons_isSome {α : Type} (x : α) :
    ∀ l : List α, ∃ e, (x :: l).getLast? = some e := by
  intro l
  induction l generalizing x with
  | nil => exact ⟨x, rfl⟩
  | cons y ys ih =>
    obtain ⟨e, he⟩ := ih y
    exact ⟨e, by rw [List.getLast?_cons_cons]; exact he⟩

/-- The fold that accumulates the last armed fire time equals the last
event's time plus delay. -/
theorem foldl_last_fire :
    ∀ (events : List (Nat × Nat × Nat)) (a : Nat),
      events.foldl (fun _ e => e.1 + e.2.2) a
        = match events.getLast? with
          | none => a
          | some e => e.1 + e.2.2 := by
  intro events
  induction events with
  | nil => intro a; rfl
  | cons ev rest ih =>
    intro a
    cases rest with
    | nil => simp [List.foldl]
    | cons ev2 rest2 =>
      rw [List.foldl_cons, ih, List.getLast?_cons_cons]
      obtain ⟨e, he⟩ := getLast?_cons_isSome ev2 rest2
      rw [he]

/-! ## `mergeSelectedGroups` facts -/

theorem one_lt_length_of_two_mem {α : Type} {l : List α} {a b : α}
    (ha : a ∈ l) (hb : b ∈ l) (hab : a ≠ b) : 1 < l.length := by
  cases l with
  | nil => cases ha
  | cons x xs =>
    cases xs with
    | nil =>
      have h1 : a = x := by simpa using ha
      have h2 : b = x := by simpa using hb
      exact absurd (h1.trans h2.symm) hab
    | cons y ys => simp

theorem allSome_map_eq_some {α β : Type} (f : α → Option β) :
    ∀ l : List α, (∀ a ∈ l, ∃ x, f a = some x) →
      ∃ ds, allSome (l.map f) = some ds
        ∧ ∀ a ∈ l, ∀ x, f a = some x → x ∈ ds := by
  intro l
  induction l with
  | nil => intro _; exact ⟨[], rfl, by intro a ha; cases ha⟩
  | cons a l ih =>
    intro h
    obtain ⟨x0, hx0⟩ := h a (List.mem_cons_self _ _)
    obtain ⟨ds, hds, hmem⟩ := ih (fun a' ha' => h a' (List.mem_cons_of_mem _ ha'))
    refine ⟨x0 :: ds, ?_, ?_⟩
    · simp only [List.map_cons, hx0, allSome, hds]
      rfl
    · intro a' ha' x hx
      rcases List.mem_cons.mp ha' with hcase | hcase
      · subst hcase
        rw [hx0] at hx
        injection hx with hx
        subst hx
        exact List.mem_cons_self _ _
      · exact List.mem_cons_of_mem _ (hmem a' hcase x hx)

theorem allSome_replicate {α : Type} (x : α) :
    ∀ n : Nat, allSome (List.replicate n (some x)) = some (List.replicate n x) := by
  intro n
  induction n with
  | zero => rfl
  | succ m ih =>
    simp only [List.replicate_succ, allSome, ih]
    rfl

theorem groupByKeyAux_replicate {κ α : Type} [BEq κ] [LawfulBEq κ]
    (keyOf : α → Option κ) (x : α) (k : κ) (h : keyOf x = some k) :
    ∀ (n : Nat) (b : List α),
      groupByKeyAux keyOf (List.replicate n x) [(k, b)]
        = [(k, b ++ List.replicate n x)] := by
  intro n
  induction n with
  | zero => intro b; simp [groupByKeyAux]
  | succ m ih =>
    intro b
    simp only [List.replicate_succ, groupByKeyAux, h]
    have hins : insertByKey [(k, b)] k x = [(k, b ++ [x])] := by
      simp [insertByKey]
    rw [hins, ih (b ++ [x])]
    simp [List.replicate_succ]

theorem groupByKey_replicate {κ α : Type} [BEq κ] [LawfulBEq κ]
    (keyOf : α → Option κ) (x : α) (k : κ) (h : keyOf x = some k)
    (n : Nat) (hn : 1 ≤ n) :
    groupByKey keyOf (List.replicate n x) = [(k, List.replicate n x)] := by
  cases n with
  | zero => omega
  | succ m =>
    unfold groupByKey
    simp only [List.replicate_succ, groupByKeyAux, h]
    have hins : insertByKey ([] : List (κ × List α)) k x = [(k, [x])] := rfl
    rw [hins, groupByKeyAux_replicate keyOf x k h m [x]]
    simp [List.replicate_succ]

theorem insertionSort_replicate {α : Type} (r : α → α → Prop) [DecidableRel r]
    (x : α) (hr : r x x) :
    ∀ n : Nat, List.insertionSort r (List.replicate n x) = List.replicate n x := by
  intro n
  induction n with
  | zero => rfl
  | succ m ih =>
    simp only [List.replicate_succ, List.insertionSort, ih]
    cases m with
    | zero => rfl
    | succ p =>
      simp only [List.replicate_succ, List.orderedInsert, if_pos hr]

theorem mergeGroupSet_all_self (moveOk : Nat → Bool) (fm : Bool) (target : Nat) :
    ∀ (gids : List Nat) (w : World), (∀ i ∈ gids, i = target) →
      mergeGroupSet moveOk fm target gids w = (w, []) := by
  intro gids
  induction gids with
  | nil => intro w _; rfl
  | cons i rest ih =>
    intro w h
    have hi : i = target := h i (List.mem_cons_self _ _)
    have hb : (i == target) = true := by simp [hi]
    simp only [mergeGroupSet, hb, if_true]
    exact ih w (fun j hj => h j (List.mem_cons_of_mem _ hj))

theorem mergeSelectedGroups_invalid (moveOk : Nat → Bool) (kc fm : Bool)
    (tt : Option Str) (groupIds : List Nat) (w : World)
    (h : groupIds.length < 2
      ∨ ((∀ i ∈ groupIds, ∃ g, getGroup w i = some g)
         ∧ ∃ i1 ∈ groupIds, ∃ i2 ∈ groupIds, ∃ g1 g2,
             getGroup w i1 = some g1 ∧ getGroup w i2 = some g2
             ∧ g1.windowId ≠ g2.windowId)) :
    ∃ msg, mergeSelectedGroups moveOk kc fm tt groupIds w = (w, [], .err msg) := by
  by_cases hlen : groupIds.length < 2
  · exact ⟨_, by unfold mergeSelectedGroups; rw [if_pos hlen]⟩
  · rcases h with hlen2 | ⟨hall, i1, hi1, i2, hi2, g1, g2, hg1, hg2, hw⟩
    · exact absurd hlen2 hlen
    · obtain ⟨ds, hds, hmem⟩ := allSome_map_eq_some (getGroup w) groupIds hall
      have hg1m : g1 ∈ ds := hmem i1 hi1 g1 hg1
      have hg2m : g2 ∈ ds := hmem i2 hi2 g2 hg2
      have hk1 := mem_keys_of_keyOf (fun g => some g.windowId) ds g1 g1.windowId hg1m rfl
      have hk2 := mem_keys_of_keyOf (fun g => some g.windowId) ds g2 g2.windowId hg2m rfl
      have hgt : 1 < (partitionByWindow ds).length := by
        have h2 := one_lt_length_of_two_mem hk1 hk2 hw
        simpa using h2
      refine ⟨"For now, merge groups from one window at a time.", ?_⟩
      unfold mergeSelectedGroups
      rw [if_neg hlen, hds]
      simp only [if_pos hgt]
theorem mergeSelectedGroups_dup_ids (moveOk : Nat → Bool) (kc fm : Bool)
    (tt : Option Str) (gid : Nat) (g : Group) (n : Nat) (w : World)
    (hn : 2 ≤ n) (hg : getGroup w gid = some g) :
    (mergeSelectedGroups moveOk kc fm tt (List.replicate n gid) w).2.2
        = SelResult.ok g.id (trimStr (tt.getD g.title)) (n - 1)
      ∧ ∀ req ∈ (mergeSelectedGroups moveOk kc fm tt (List.replicate n gid) w).2.1,
          req.isMove = false := by
  have hlen : ¬ (List.replicate n gid).length < 2 := by
    simp [List.length_replicate]; omega
  have hmap : (List.replicate n gid).map (getGroup w) = List.replicate n (some g) := by
    rw [List.map_replicate, hg]
  have hds : allSome ((List.replicate n gid).map (getGroup w))
      = some (List.replicate n g) := by
    rw [hmap, allSome_replicate]
  have hpart : partitionByWindow (List.replicate n g)
      = [(g.windowId, List.replicate n g)] := by
    unfold partitionByWindow
    exact groupByKey_replicate (fun h : Group => some h.windowId) g g.windowId rfl n
      (by omega)
  have hnot : ¬ (1 < (partitionByWindow (List.replicate n g)).length) := by
    rw [hpart]; simp
  -- selectBySize over the constant bucket
  obtain ⟨m, hm⟩ : ∃ m, n = m + 1 := ⟨n - 1, by omega⟩
  have hcounts : (List.replicate n g).map
      (fun g => (g, (tabsInGroup w g.id).length))
      = List.replicate n (g, (tabsInGroup w g.id).length) := by
    rw [List.map_replicate]
  have hsorted : List.insertionSort (fun x y => y.2 ≤ x.2)
      (List.replicate n (g, (tabsInGroup w g.id).length))
      = List.replicate n (g, (tabsInGroup w g.id).length) :=
    insertionSort_replicate (fun x y : Group × Nat => y.2 ≤ x.2)
      (g, (tabsInGroup w g.id).length) (le_refl _) n
  have hsel : selectBySize w (List.replicate n g)
      = (g, List.replicate (n - 1) g) := by
    simp only [selectBySize]
    rw [hcounts, hsorted, hm]
    simp [List.replicate_succ, List.map_replicate]
  have hmgs : mergeGroupSet moveOk fm g.id
      ((List.replicate (n - 1) g).map (fun g => g.id))
      (updateGroup w g.id (trimStr (tt.getD g.title)) kc)
      = (updateGroup w g.id (trimStr (tt.getD g.title)) kc, []) := by
    apply mergeGroupSet_all_self
    intro i hi
    rw [List.map_replicate] at hi
    exact List.eq_of_mem_replicate hi
  have hnot2 : ¬ (1 < ([(g.windowId, List.replicate n g)] : List (Nat × List Group)).length) := by
    simp
  have hrun : mergeSelectedGroups moveOk kc fm tt (List.replicate n gid) w
      = (updateGroup w g.id (trimStr (tt.getD g.title)) kc,
         [Req.update g.id (trimStr (tt.getD g.title)) kc]
           ++ (if fm then discardNonActiveTabsInGroup
                 (updateGroup w g.id (trimStr (tt.getD g.title)) kc) g.id else [])
           ++ [],
         SelResult.ok g.id (trimStr (tt.getD g.title))
           (List.replicate (n - 1) g).length) := by
    unfold mergeSelectedGroups
    rw [if_neg hlen, hds]
    simp only [hpart]
    rw [if_neg hnot2]
    simp only [List.headD_cons, hsel, hmgs]
  constructor
  · rw [hrun]
    simp [List.length_replicate]
  · intro req hreq
    rw [hrun] at hreq
    simp only [List.append_nil] at hreq
    rcases List.mem_append.mp hreq with hcase | hcase
    · rw [List.mem_singleton.mp hcase]
      rfl
    · by_cases hfm : fm
      · rw [if_pos hfm] at hcase
        unfold discardNonActiveTabsInGroup safeDiscardFromTabs at hcase
        obtain ⟨t, ht, hteq⟩ := List.mem_map.mp hcase
        rw [← hteq]
        rfl
      · rw [if_neg hfm] at hcase
        cases hcase

/-! ## Discard safety

The engine only ever changes a tab's owning group; the fields that the
discard-eligibility check reads (`active`, `url`, `pendingUrl`) and the
tab's id are invariant, so every discard request can be traced back to a
tab of the initial world that passed `shouldAvoidDiscard`. -/

/-- The tab fields that are never mutated by the engine. -/
def tabCore (t : Tab) : Nat × Bool × Str × Str :=
  (t.id, t.active, t.url, t.pendingUrl)

/-- Every discard request in `reqs` names a tab of `tabs0` that is
eligible for discarding. -/
def DiscardSafe (tabs0 : List Tab) (reqs : List Req) : Prop :=
  ∀ tid, Req.discard tid ∈ reqs →
    ∃ t ∈ tabs0, t.id = tid ∧ shouldAvoidDiscard t = false

theorem shouldAvoidDiscard_core {t t' : Tab} (h : tabCore t = tabCore t') :
    shouldAvoidDiscard t = shouldAvoidDiscard t' := by
  unfold tabCore at h
  injection h with h1 h2
  injection h2 with h2 h3
  injection h3 with h3 h4
  unfold shouldAvoidDiscard
  rw [h2, h3, h4]

theorem discardSafe_nil (tabs0 : List Tab) : DiscardSafe tabs0 [] := by
  intro tid h; cases h

theorem discardSafe_append {tabs0 : List Tab} {r1 r2 : List Req}
    (h1 : DiscardSafe tabs0 r1) (h2 : DiscardSafe tabs0 r2) :
    DiscardSafe tabs0 (r1 ++ r2) := by
  intro tid h
  rcases List.mem_append.mp h with hc | hc
  · exact h1 tid hc
  · exact h2 tid hc

theorem discardSafe_transfer {tabs0 tabs1 : List Tab} {reqs : List Req}
    (hcore : tabs1.map tabCore = tabs0.map tabCore)
    (h : DiscardSafe tabs1 reqs) : DiscardSafe tabs0 reqs := by
  intro tid hmem
  obtain ⟨t1, ht1, hid, havoid⟩ := h tid hmem
  have hmem2 : tabCore t1 ∈ tabs0.map tabCore := by
    rw [← hcore]
    exact List.mem_map.mpr ⟨t1, ht1, rfl⟩
  obtain ⟨t0, ht0, hcoreeq⟩ := List.mem_map.mp hmem2
  have hid0 : t0.id = t1.id := by
    unfold tabCore at hcoreeq
    injection hcoreeq
  refine ⟨t0, ht0, hid0.trans hid, ?_⟩
  rw [shouldAvoidDiscard_core hcoreeq.symm] at havoid
  exact havoid

theorem safeDiscardFromTabs_safe (tabs0 : List Tab) (ts : List Tab)
    (hts : ∀ t ∈ ts, t ∈ tabs0) :
    DiscardSafe tabs0 (safeDiscardFromTabs ts) := by
  intro tid hmem
  unfold safeDiscardFromTabs at hmem
  obtain ⟨t, ht, hteq⟩ := List.mem_map.mp hmem
  obtain ⟨htmem, hpass⟩ := List.mem_filter.mp ht
  refine ⟨t, hts t htmem, ?_, by simpa using hpass⟩
  injection hteq

theorem tabsInGroup_subset (w : World) (gid : Nat) :
    ∀ t ∈ tabsInGroup w gid, t ∈ w.tabs := by
  intro t ht
  exact (List.mem_filter.mp ht).1

theorem discardNonActiveTabsInGroup_safe (w : World) (gid : Nat) :
    DiscardSafe w.tabs (discardNonActiveTabsInGroup w gid) :=
  safeDiscardFromTabs_safe w.tabs (tabsInGroup w gid) (tabsInGroup_subset w gid)

theorem moveTabs_core (w : World) (ids : List Nat) (gid : Nat) :
    (moveTabs w ids gid).tabs.map tabCore = w.tabs.map tabCore := by
  unfold moveTabs
  rw [List.map_map]
  apply List.map_congr_left
  intro t _
  simp only [Function.comp_apply]
  split
  · rfl
  · rfl

theorem updateGroup_tabs (w : World) (gid : Nat) (title : Str) (c : Bool) :
    (updateGroup w gid title c).tabs = w.tabs := rfl

theorem mergeGroupSet_core_safe (moveOk : Nat → Bool) (fm : Bool)
    (target : Nat) :
    ∀ (gids : List Nat) (w : World),
      (mergeGroupSet moveOk fm target gids w).1.tabs.map tabCore
          = w.tabs.map tabCore
      ∧ DiscardSafe w.tabs (mergeGroupSet moveOk fm target gids w).2 := by
  intro gids
  induction gids with
  | nil => intro w; exact ⟨rfl, discardSafe_nil _⟩
  | cons gid rest ih =>
    intro w
    by_cases hskip : (gid == target) = true
    · simp only [mergeGroupSet, hskip, if_true]
      exact ih w
    · simp only [mergeGroupSet, hskip, Bool.false_eq_true, if_false]
      set tabs := tabsInGroup w gid with htabs
      set step : World × List Req :=
        if !(tabs.map (fun t => t.id)).isEmpty then
          (if moveOk gid then moveTabs w (tabs.map (fun t => t.id)) target else w,
           [Req.move (tabs.map (fun t => t.id)) target])
        else (w, []) with hstep
      have hstepcore : step.1.tabs.map tabCore = w.tabs.map tabCore := by
        rw [hstep]
        by_cases h1 : !(tabs.map (fun t => t.id)).isEmpty
        · rw [if_pos h1]
          by_cases h2 : moveOk gid
          · simp only [h2, if_true]
            exact moveTabs_core w _ target
          · simp only [h2, Bool.false_eq_true, if_false]
        · rw [if_neg h1]
      have hstepsafe : DiscardSafe w.tabs step.2 := by
        rw [hstep]
        by_cases h1 : !(tabs.map (fun t => t.id)).isEmpty
        · rw [if_pos h1]
          intro tid hmem
          simp at hmem
        · rw [if_neg h1]
          exact discardSafe_nil _
      have hdsafe : DiscardSafe w.tabs
          (if fm && !tabs.isEmpty then safeDiscardFromTabs tabs else []) := by
        by_cases h1 : fm && !tabs.isEmpty
        · rw [if_pos h1]
          exact safeDiscardFromTabs_safe w.tabs tabs
            (by rw [htabs]; exact tabsInGroup_subset w gid)
        · rw [if_neg h1]
          exact discardSafe_nil _
      obtain ⟨ihcore, ihsafe⟩ := ih step.1
      refine ⟨ihcore.trans hstepcore, ?_⟩
      refine discardSafe_append (discardSafe_append hdsafe hstepsafe) ?_
      exact discardSafe_transfer hstepcore ihsafe

theorem processBucket_core_safe (moveOk : Nat → Bool) (fm kc : Bool)
    (wid : Nat) (b : List Group) (w : World) :
    (processBucket moveOk fm kc wid b w).1.tabs.map tabCore
        = w.tabs.map tabCore
    ∧ DiscardSafe w.tabs (processBucket moveOk fm kc wid b w).2.1 := by
  obtain ⟨hcore, hsafe⟩ := mergeGroupSet_core_safe moveOk fm
    (selectBySize w b).1.id ((selectBySize w b).2.map (fun g => g.id)) w
  constructor
  · exact hcore
  · refine discardSafe_append (discardSafe_append ?_ hsafe) ?_
    · by_cases hfm : fm
      · rw [if_pos hfm]
        exact discardNonActiveTabsInGroup_safe w _
      · rw [if_neg hfm]
        exact discardSafe_nil _
    · intro tid hmem
      simp at hmem

theorem processBuckets_core_safe (moveOk : Nat → Bool) (fm kc : Bool)
    (wid : Nat) :
    ∀ (bs : List (Str × List Group)) (w : World),
      (processBuckets moveOk fm kc wid bs w).1.tabs.map tabCore
          = w.tabs.map tabCore
      ∧ DiscardSafe w.tabs (processBuckets moveOk fm kc wid bs w).2.1 := by
  intro bs
  induction bs with
  | nil => intro w; exact ⟨rfl, discardSafe_nil _⟩
  | cons kb rest ih =>
    intro w
    obtain ⟨k, b⟩ := kb
    by_cases hlen : b.length < 2
    · simp only [processBuckets, if_pos hlen]
      exact ih w
    · simp only [processBuckets, if_neg hlen]
      obtain ⟨hcore1, hsafe1⟩ := processBucket_core_safe moveOk fm kc wid b w
      obtain ⟨hcore2, hsafe2⟩ := ih (processBucket moveOk fm kc wid b w).1
      exact ⟨hcore2.trans hcore1,
        discardSafe_append hsafe1 (discardSafe_transfer hcore1 hsafe2)⟩

theorem runWindows_core_safe (moveOk : Nat → Bool) (cs iu fm kc : Bool) :
    ∀ (ws : List (Nat × List Group)) (w : World),
      (runWindows moveOk cs iu fm kc ws w).1.tabs.map tabCore
          = w.tabs.map tabCore
      ∧ DiscardSafe w.tabs (runWindows moveOk cs iu fm kc ws w).2.1 := by
  intro ws
  induction ws with
  | nil => intro w; exact ⟨rfl, discardSafe_nil _⟩
  | cons ww rest ih =>
    intro w
    obtain ⟨wid, wgs⟩ := ww
    simp only [runWindows]
    obtain ⟨hcore1, hsafe1⟩ := processBuckets_core_safe moveOk fm kc wid
      (bucketsOf cs iu wgs) w
    obtain ⟨hcore2, hsafe2⟩ := ih
      (processBuckets moveOk fm kc wid (bucketsOf cs iu wgs) w).1
    exact ⟨hcore2.trans hcore1,
      discardSafe_append hsafe1 (discardSafe_transfer hcore1 hsafe2)⟩

/-- Every discard issued by `mergeDuplicatesByName` names an initially
present, discard-eligible tab. -/
theorem mergeDuplicatesByName_discardSafe (moveOk : Nat → Bool)
    (scope : Option Nat) (cs iu fm kc : Bool) (w : World) :
    DiscardSafe w.tabs (mergeDuplicatesByName moveOk scope cs iu fm kc w).2.1 :=
  (runWindows_core_safe moveOk cs iu fm kc
    (partitionByWindow (listGroupsScope w scope)) w).2

theorem drainGroupToTarget_core_safe (moveOk : Nat → Bool) (fm : Bool)
    (target src : Nat) (w : World) :
    (drainGroupToTarget moveOk fm target src w).1.tabs.map tabCore
        = w.tabs.map tabCore
    ∧ DiscardSafe w.tabs (drainGroupToTarget moveOk fm target src w).2 := by
  unfold drainGroupToTarget
  by_cases hself : (target == src) = true
  · rw [if_pos hself]
    exact ⟨rfl, discardSafe_nil _⟩
  · rw [if_neg hself]
    by_cases hempty : (tabsInGroup w src).isEmpty
    · rw [if_pos hempty]
      exact ⟨rfl, discardSafe_nil _⟩
    · rw [if_neg hempty]
      constructor
      · by_cases hok : moveOk src
        · simp only [hok, if_true]
          exact moveTabs_core w _ target
        · simp only [hok, Bool.false_eq_true, if_false]
      · refine discardSafe_append ?_ ?_
        · by_cases hfm : fm
          · rw [if_pos hfm]
            exact safeDiscardFromTabs_safe w.tabs _ (tabsInGroup_subset w src)
          · rw [if_neg hfm]
            exact discardSafe_nil _
        · intro tid hmem
          simp at hmem

theorem drainList_core_safe (moveOk : Nat → Bool) (fm : Bool) (target : Nat) :
    ∀ (srcs : List Nat) (w : World),
      (drainList moveOk fm target srcs w).1.tabs.map tabCore
          = w.tabs.map tabCore
      ∧ DiscardSafe w.tabs (drainList moveOk fm target srcs w).2 := by
  intro srcs
  induction srcs with
  | nil => intro w; exact ⟨rfl, discardSafe_nil _⟩
  | cons src rest ih =>
    intro w
    simp only [drainList]
    obtain ⟨hcore1, hsafe1⟩ := drainGroupToTarget_core_safe moveOk fm target src w
    obtain ⟨hcore2, hsafe2⟩ := ih (drainGroupToTarget moveOk fm target src w).1
    exact ⟨hcore2.trans hcore1,
      discardSafe_append hsafe1 (discardSafe_transfer hcore1 hsafe2)⟩

theorem recomputeBuckets_core_safe (moveOk : Nat → Bool) (fm kc : Bool) :
    ∀ (bs : List (Str × List Group)) (w : World),
      (recomputeBuckets moveOk fm kc bs w).1.tabs.map tabCore
          = w.tabs.map tabCore
      ∧ DiscardSafe w.tabs (recomputeBuckets moveOk fm kc bs w).2.1 := by
  intro bs
  induction bs with
  | nil => intro w; exact ⟨rfl, discardSafe_nil _⟩
  | cons kb rest ih =>
    intro w
    obtain ⟨k, b⟩ := kb
    by_cases hlen : b.length < 2
    · simp only [recomputeBuckets, if_pos hlen]
      exact ih w
    · simp only [recomputeBuckets, if_neg hlen]
      set sorted := List.insertionSort (fun g h => g.id ≤ h.id) b with hsorted
      obtain ⟨hcore1, hsafe1⟩ := drainList_core_safe moveOk fm
        (sorted.headD dfltGroup).id (sorted.tail.map (fun g => g.id)) w
      set w1 := (drainList moveOk fm (sorted.headD dfltGroup).id
        (sorted.tail.map (fun g => g.id)) w).1 with hw1
      have hup : (updateGroup w1 (sorted.headD dfltGroup).id
          (sorted.headD dfltGroup).title kc).tabs = w1.tabs := rfl
      obtain ⟨hcore2, hsafe2⟩ := ih (updateGroup w1 (sorted.headD dfltGroup).id
        (sorted.headD dfltGroup).title kc)
      have hcore12 : (updateGroup w1 (sorted.headD dfltGroup).id
          (sorted.headD dfltGroup).title kc).tabs.map tabCore
          = w.tabs.map tabCore := by
        rw [hup]
        exact hcore1
      constructor
      · exact hcore2.trans hcore12
      · refine discardSafe_append (discardSafe_append hsafe1 ?_) ?_
        · intro tid hmem
          simp at hmem
        · exact discardSafe_transfer hcore12 hsafe2

/-- Every discard issued by `recomputeAndDrainDuplicates` names an
initially present, discard-eligible tab. -/
theorem recomputeAndDrainDuplicates_discardSafe (moveOk : Nat → Bool)
    (cs iu fm kc : Bool) (wid : Nat) (w : World) :
    DiscardSafe w.tabs (recomputeAndDrainDuplicates moveOk cs iu fm kc wid w).2.1 :=
  (recomputeBuckets_core_safe moveOk fm kc
    (bucketsOf cs iu (listGroupsScope w (some wid))) w).2

/-- Every discard issued by `mergeSelectedGroups` names an initially
present, discard-eligible tab. -/
theorem mergeSelectedGroups_discardSafe (moveOk : Nat → Bool) (kc fm : Bool)
    (tt : Option Str) (groupIds : List Nat) (w : World) :
    DiscardSafe w.tabs (mergeSelectedGroups moveOk kc fm tt groupIds w).2.1 := by
  unfold mergeSelectedGroups
  by_cases hlen : groupIds.length < 2
  · rw [if_pos hlen]
    exact discardSafe_nil _
  · rw [if_neg hlen]
    cases hall : allSome (groupIds.map (getGroup w)) with
    | none => exact discardSafe_nil _
    | some details =>
      by_cases hwin : 1 < (partitionByWindow details).length
      · simp only [if_pos hwin]
        exact discardSafe_nil _
      · simp only [if_neg hwin]
        set wg := (partitionByWindow details).headD (0, []) with hwg
        set target := (selectBySize w wg.2).1 with htgt
        set w1 := updateGroup w target.id
          (trimStr (tt.getD target.title)) kc with hw1
        have hw1tabs : w1.tabs = w.tabs := rfl
        obtain ⟨hcore, hsafe⟩ := mergeGroupSet_core_safe moveOk fm target.id
          ((selectBySize w wg.2).2.map (fun g => g.id)) w1
        refine discardSafe_append (discardSafe_append ?_ ?_) ?_
        · intro tid hmem
          simp at hmem
        · by_cases hfm : fm
          · rw [if_pos hfm]
            have h2 := discardNonActiveTabsInGroup_safe w1 target.id
            rw [hw1tabs] at h2
            exact h2
          · rw [if_neg hfm]
            exact discardSafe_nil _
        · have h2 := hsafe
          rw [hw1tabs] at h2
          exact h2

/-! ## State characterization of the explicit merge

The next sections characterize exactly which tabs move where and which
group records change over a full `mergeDuplicatesByName` run, assuming
session-unique tab ids and group ids (a host invariant). -/

theorem ids_of_map_preserved (tabs : List Tab) (φ : Tab → Tab)
    (h : ∀ t, (φ t).id = t.id) :
    (tabs.map φ).map Tab.id = tabs.map Tab.id := by
  rw [List.map_map]
  apply List.map_congr_left
  intro t _
  exact h t

theorem tab_eq_of_id {tabs : List Tab} (hnd : (tabs.map Tab.id).Nodup)
    {t t' : Tab} (ht : t ∈ tabs) (ht' : t' ∈ tabs) (hid : t.id = t'.id) :
    t = t' :=
  List.inj_on_of_nodup_map hnd ht ht' hid

theorem group_eq_of_id {gs : List Group} (hnd : (gs.map Group.id).Nodup)
    {g g' : Group} (hg : g ∈ gs) (hg' : g' ∈ gs) (hid : g.id = g'.id) :
    g = g' :=
  List.inj_on_of_nodup_map hnd hg hg' hid

theorem filter_map_eq_of_frame (tabs : List Tab) (φ : Tab → Tab) (gid : Nat)
    (h : ∀ t ∈ tabs, (t.groupId = gid → φ t = t)
        ∧ ((φ t).groupId = gid → t.groupId = gid)) :
    (tabs.map φ).filter (fun t => t.groupId == gid)
      = tabs.filter (fun t => t.groupId == gid) := by
  induction tabs with
  | nil => rfl
  | cons t ts ih =>
    have ht := h t (List.mem_cons_self _ _)
    have hrest : ∀ t' ∈ ts, (t'.groupId = gid → φ t' = t')
        ∧ ((φ t').groupId = gid → t'.groupId = gid) :=
      fun t' ht' => h t' (List.mem_cons_of_mem _ ht')
    by_cases hg : t.groupId = gid
    · have hfix : φ t = t := ht.1 hg
      simp only [List.map_cons, List.filter_cons, hfix]
      have hb : (t.groupId == gid) = true := by simp [hg]
      rw [hb]
      simp only [if_true]
      rw [ih hrest]
    · have hg2 : (φ t).groupId ≠ gid := fun hc => hg (ht.2 hc)
      have hb1 : ((φ t).groupId == gid) = false := by simp [hg2]
      have hb2 : (t.groupId == gid) = false := by simp [hg]
      simp only [List.map_cons, List.filter_cons, hb1, hb2, Bool.false_eq_true,
        if_false]
      exact ih hrest

/-- `tabsInGroup` is unchanged by a tab-map that neither removes tabs
from nor adds tabs to the group. -/
theorem tabsInGroup_map_frame (w : World) (gs : List Group) (φ : Tab → Tab)
    (gid : Nat)
    (h : ∀ t ∈ w.tabs, (t.groupId = gid → φ t = t)
        ∧ ((φ t).groupId = gid → t.groupId = gid)) :
    tabsInGroup ⟨gs, w.tabs.map φ⟩ gid = tabsInGroup w gid :=
  filter_map_eq_of_frame w.tabs φ gid h

/-- Moving exactly the tabs of group `gid` (identified by their ids,
which are session-unique) is the per-group relabeling map. -/
theorem moveTabs_eq_relabel (w : World) (gid target : Nat)
    (hids : (w.tabs.map Tab.id).Nodup) :
    (moveTabs w ((tabsInGroup w gid).map (fun t => t.id)) target).tabs
      = w.tabs.map (fun t => if t.groupId = gid
          then { t with groupId := target } else t) := by
  unfold moveTabs
  apply List.map_congr_left
  intro t ht
  by_cases hmem : ((tabsInGroup w gid).map (fun t => t.id)).contains t.id
  · have hg : t.groupId = gid := by
      have hmem2 : t.id ∈ (tabsInGroup w gid).map (fun t => t.id) := by
        simpa using hmem
      obtain ⟨t', ht', hid⟩ := List.mem_map.mp hmem2
      have ht'w : t' ∈ w.tabs := tabsInGroup_subset w gid t' ht'
      have :  t' = t := tab_eq_of_id hids ht'w ht hid
      rw [← this]
      exact (by simpa using (List.mem_filter.mp ht').2 : t'.groupId = gid)
    rw [if_pos hmem, if_pos hg]
  · have hg : t.groupId ≠ gid := by
      intro hc
      apply hmem
      have hin : t ∈ tabsInGroup w gid := List.mem_filter.mpr ⟨ht, by simp [hc]⟩
      have hmm : t.id ∈ (tabsInGroup w gid).map (fun t => t.id) :=
        List.mem_map.mpr ⟨t, hin, rfl⟩
      simpa using hmm
    have hmemf : (((tabsInGroup w gid).map (fun t => t.id)).contains t.id) = false := by
      simpa using hmem
    rw [hmemf]
    simp only [Bool.false_eq_true, if_false]
    rw [if_neg hg]

theorem safeDiscardFromTabs_all_discard (ts : List Tab) :
    ∀ req ∈ safeDiscardFromTabs ts, ∃ tid, req = Req.discard tid := by
  intro req hreq
  obtain ⟨t, _, hteq⟩ := List.mem_map.mp hreq
  exact ⟨t.id, hteq.symm⟩

theorem mergeGroupSet_spec (moveOk : Nat → Bool) (fm : Bool) (target : Nat) :
    ∀ (gids : List Nat) (w : World),
      (w.tabs.map Tab.id).Nodup → gids.Nodup → target ∉ gids →
      (mergeGroupSet moveOk fm target gids w).1.tabs
        = w.tabs.map (fun t => if t.groupId ∈ gids ∧ moveOk t.groupId = true
            then { t with groupId := target } else t)
      ∧ (mergeGroupSet moveOk fm target gids w).1.groups = w.groups
      ∧ ∀ req ∈ (mergeGroupSet moveOk fm target gids w).2,
          (∃ tid, req = Req.discard tid)
          ∨ (∃ tids, req = Req.move tids target
              ∧ ∀ tid ∈ tids, ∃ t ∈ w.tabs, t.id = tid ∧ t.groupId ∈ gids) := by
  intro gids
  induction gids with
  | nil =>
    intro w _ _ _
    refine ⟨?_, rfl, ?_⟩
    · symm
      have : ∀ t ∈ w.tabs, (if t.groupId ∈ ([] : List Nat)
          ∧ moveOk t.groupId = true then { t with groupId := target } else t) = t := by
        intro t _
        rw [if_neg]
        intro hc
        exact absurd hc.1 (List.not_mem_nil _)
      calc w.tabs.map _ = w.tabs.map id := List.map_congr_left this
        _ = w.tabs := List.map_id w.tabs
    · intro req h; cases h
  | cons gid rest ih =>
    intro w hT hnd hnt
    have hgidt : gid ≠ target := fun h => hnt (h ▸ List.mem_cons_self _ _)
    have hgt : (gid == target) = false := by simp [hgidt]
    have hndr : rest.Nodup := (List.nodup_cons.mp hnd).2
    have hgr : gid ∉ rest := (List.nodup_cons.mp hnd).1
    have hntr : target ∉ rest := fun h => hnt (List.mem_cons_of_mem _ h)
    simp only [mergeGroupSet, hgt, Bool.false_eq_true, if_false]
    by_cases hempty : (tabsInGroup w gid).isEmpty
    · have hnil : tabsInGroup w gid = [] := by
        cases h : tabsInGroup w gid with
        | nil => rfl
        | cons a l => rw [h] at hempty; simp [List.isEmpty] at hempty
      have hnotg : ∀ t ∈ w.tabs, t.groupId ≠ gid := by
        intro t ht hc
        have : t ∈ tabsInGroup w gid := List.mem_filter.mpr ⟨ht, by simp [hc]⟩
        rw [hnil] at this
        cases this
      simp only [hnil, List.map_nil, List.isEmpty_nil, Bool.not_true,
        Bool.and_false, Bool.false_eq_true, if_false, List.nil_append]
      obtain ⟨ihtabs, ihgroups, ihreqs⟩ := ih w hT hndr hntr
      refine ⟨?_, ihgroups, ?_⟩
      · rw [ihtabs]
        apply List.map_congr_left
        intro t ht
        have hne := hnotg t ht
        by_cases hc : t.groupId ∈ rest ∧ moveOk t.groupId = true
        · rw [if_pos hc, if_pos ⟨List.mem_cons_of_mem _ hc.1, hc.2⟩]
        · rw [if_neg hc, if_neg]
          intro hc2
          rcases List.mem_cons.mp hc2.1 with h1 | h1
          · exact hne h1
          · exact hc ⟨h1, hc2.2⟩
      · intro req hreq
        rcases ihreqs req hreq with hd | ⟨tids, heq, hspec⟩
        · exact Or.inl hd
        · refine Or.inr ⟨tids, heq, ?_⟩
          intro tid htid
          obtain ⟨t, ht, hid, hgrp⟩ := hspec tid htid
          exact ⟨t, ht, hid, List.mem_cons_of_mem _ hgrp⟩
    · have hmapne : ¬((tabsInGroup w gid).map (fun t => t.id)).isEmpty = true := by
        cases h : tabsInGroup w gid with
        | nil => rw [h] at hempty; simp at hempty
        | cons a l => simp [List.isEmpty]
      simp only [Bool.not_eq_true] at hmapne
      have hmapne2 : (!((tabsInGroup w gid).map (fun t => t.id)).isEmpty) = true := by
        simp [hmapne]
      simp only [hmapne2, if_true]
      by_cases hok : moveOk gid = true
      · -- accepted move
        simp only [hok, if_true]
        set w1 := moveTabs w ((tabsInGroup w gid).map (fun t => t.id)) target with hw1
        have hw1tabs : w1.tabs = w.tabs.map (fun t => if t.groupId = gid
            then { t with groupId := target } else t) := by
          rw [hw1]
          exact moveTabs_eq_relabel w gid target hT
        have hw1groups : w1.groups = w.groups := rfl
        have hT1 : (w1.tabs.map Tab.id).Nodup := by
          rw [hw1tabs, ids_of_map_preserved]
          · exact hT
          · intro t; split <;> rfl
        obtain ⟨ihtabs, ihgroups, ihreqs⟩ := ih w1 hT1 hndr hntr
        refine ⟨?_, by rw [ihgroups, hw1groups], ?_⟩
        · rw [ihtabs, hw1tabs, List.map_map]
          apply List.map_congr_left
          intro t _
          simp only [Function.comp_apply]
          by_cases hc : t.groupId = gid
          · rw [if_pos hc]
            rw [if_neg, if_pos ⟨by rw [hc]; exact List.mem_cons_self _ _, by rw [hc]; exact hok⟩]
            intro hc2
            exact hntr hc2.1
          · rw [if_neg hc]
            by_cases hc2 : t.groupId ∈ rest ∧ moveOk t.groupId = true
            · rw [if_pos hc2, if_pos ⟨List.mem_cons_of_mem _ hc2.1, hc2.2⟩]
            · rw [if_neg hc2, if_neg]
              intro hc3
              rcases List.mem_cons.mp hc3.1 with h1 | h1
              · exact hc h1
              · exact hc2 ⟨h1, hc3.2⟩
        · intro req hreq
          rcases List.mem_append.mp hreq with hin | hin
          · rcases List.mem_append.mp hin with hin2 | hin2
            · -- discards of the source group
              left
              by_cases hfm : (fm && !(tabsInGroup w gid).isEmpty) = true
              · rw [if_pos hfm] at hin2
                exact safeDiscardFromTabs_all_discard _ req hin2
              · rw [if_neg hfm] at hin2; cases hin2
            · -- the move request itself
              right
              have heq : req = Req.move ((tabsInGroup w gid).map (fun t => t.id)) target := by
                simpa using hin2
              refine ⟨_, heq, ?_⟩
              intro tid htid
              obtain ⟨t, ht, hid⟩ := List.mem_map.mp htid
              refine ⟨t, tabsInGroup_subset w gid t ht, hid, ?_⟩
              have : t.groupId = gid := by
                simpa using (List.mem_filter.mp ht).2
              rw [this]
              exact List.mem_cons_self _ _
          · -- requests of the remaining source groups
            rcases ihreqs req hin with hd | ⟨tids, heq, hspec⟩
            · exact Or.inl hd
            · refine Or.inr ⟨tids, heq, ?_⟩
              intro tid htid
              obtain ⟨t1, ht1, hid, hgrp⟩ := hspec tid htid
              rw [hw1tabs] at ht1
              obtain ⟨t0, ht0, ht0eq⟩ := List.mem_map.mp ht1
              by_cases hc : t0.groupId = gid
              · rw [← ht0eq] at hgrp
                rw [if_pos hc] at hgrp
                exact absurd hgrp hntr
              · refine ⟨t0, ht0, ?_, ?_⟩
                · rw [← ht0eq] at hid
                  rw [if_neg hc] at hid
                  exact hid
                · rw [← ht0eq] at hgrp
                  rw [if_neg hc] at hgrp
                  exact List.mem_cons_of_mem _ hgrp
      · -- rejected move
        have hokf : moveOk gid = false := by
          cases h : moveOk gid with
          | true => exact absurd h hok
          | false => rfl
        simp only [hokf, Bool.false_eq_true, if_false]
        obtain ⟨ihtabs, ihgroups, ihreqs⟩ := ih w hT hndr hntr
        refine ⟨?_, ihgroups, ?_⟩
        · rw [ihtabs]
          apply List.map_congr_left
          intro t _
          by_cases hc : t.groupId = gid
          · rw [if_neg, if_neg]
            · intro hc2
              rw [hc] at hc2
              rw [hokf] at hc2
              exact Bool.false_ne_true hc2.2
            · intro hc2
              exact hgr (hc ▸ hc2.1)
          · by_cases hc2 : t.groupId ∈ rest ∧ moveOk t.groupId = true
            · rw [if_pos hc2, if_pos ⟨List.mem_cons_of_mem _ hc2.1, hc2.2⟩]
            · rw [if_neg hc2, if_neg]
              intro hc3
              rcases List.mem_cons.mp hc3.1 with h1 | h1
              · exact hc h1
              · exact hc2 ⟨h1, hc3.2⟩
        · intro req hreq
          rcases List.mem_append.mp hreq with hin | hin
          · rcases List.mem_append.mp hin with hin2 | hin2
            · left
              by_cases hfm : (fm && !(tabsInGroup w gid).isEmpty) = true
              · rw [if_pos hfm] at hin2
                exact safeDiscardFromTabs_all_discard _ req hin2
              · rw [if_neg hfm] at hin2; cases hin2
            · right
              have heq : req = Req.move ((tabsInGroup w gid).map (fun t => t.id)) target := by
                simpa using hin2
              refine ⟨_, heq, ?_⟩
              intro tid htid
              obtain ⟨t, ht, hid⟩ := List.mem_map.mp htid
              refine ⟨t, tabsInGroup_subset w gid t ht, hid, ?_⟩
              have : t.groupId = gid := by
                simpa using (List.mem_filter.mp ht).2
              rw [this]
              exact List.mem_cons_self _ _
          · rcases ihreqs req hin with hd | ⟨tids, heq, hspec⟩
            · exact Or.inl hd
            · refine Or.inr ⟨tids, heq, ?_⟩
              intro tid htid
              obtain ⟨t, ht, hid, hgrp⟩ := hspec tid htid
              exact ⟨t, ht, hid, List.mem_cons_of_mem _ hgrp⟩

theorem selectBySize_perm (w : World) (b : List Group) (hb : b ≠ []) :
    b.Perm ((selectBySize w b).1 :: (selectBySize w b).2) := by
  classical
  set counts := b.map (fun g => (g, (tabsInGroup w g.id).length)) with hcounts
  have hcne : counts ≠ [] := by
    rw [hcounts]; intro he; exact hb (List.map_eq_nil_iff.mp he)
  have hperm : (List.insertionSort (fun x y => y.2 ≤ x.2) counts).Perm counts :=
    List.perm_insertionSort _ counts
  have hsne : List.insertionSort (fun x y => y.2 ≤ x.2) counts ≠ [] := by
    intro he
    rw [he] at hperm
    exact hcne (hperm.symm.eq_nil)
  obtain ⟨s0, st, hs⟩ : ∃ s0 st,
      List.insertionSort (fun x y => y.2 ≤ x.2) counts = s0 :: st := by
    cases h : List.insertionSort (fun x y => y.2 ≤ x.2) counts with
    | nil => exact absurd h hsne
    | cons s0 st => exact ⟨s0, st, rfl⟩
  have hsel : (selectBySize w b).1 = s0.1 ∧ (selectBySize w b).2 = st.map (fun x => x.1) := by
    constructor
    · simp only [selectBySize, ← hcounts, hs, List.headD_cons]
    · simp only [selectBySize, ← hcounts, hs, List.tail_cons]
  have hbmap : b = counts.map (fun p => p.1) := by
    rw [hcounts, List.map_map]
    exact (List.map_id b).symm
  rw [hsel.1, hsel.2, hbmap]
  have h2 : (counts.map (fun p => p.1)).Perm ((s0 :: st).map (fun p => p.1)) := by
    have h3 := hperm.symm.map (fun p : Group × Nat => p.1)
    rw [hs] at h3
    exact h3
  simpa using h2

theorem selectBySize_ids_perm (w : World) (b : List Group) (hb : b ≠ []) :
    (b.map (fun g => g.id)).Perm
      ((selectBySize w b).1.id :: (selectBySize w b).2.map (fun g => g.id)) := by
  have h := (selectBySize_perm w b hb).map (fun g => g.id)
  simpa using h

theorem selectBySize_ids_nodup (w : World) (b : List Group) (hb : b ≠ [])
    (hnd : (b.map (fun g => g.id)).Nodup) :
    (selectBySize w b).1.id ∉ (selectBySize w b).2.map (fun g => g.id)
    ∧ ((selectBySize w b).2.map (fun g => g.id)).Nodup := by
  have h := (selectBySize_ids_perm w b hb).nodup_iff.mp hnd
  exact ⟨(List.nodup_cons.mp h).1, (List.nodup_cons.mp h).2⟩

theorem selectBySize_mem_ids (w : World) (b : List Group) (hb : b ≠ []) (i : Nat) :
    i ∈ b.map (fun g => g.id)
      ↔ i = (selectBySize w b).1.id
        ∨ i ∈ (selectBySize w b).2.map (fun g => g.id) := by
  rw [(selectBySize_ids_perm w b hb).mem_iff]
  simp

theorem selectBySize_congr (w1 w : World) (b : List Group)
    (h : ∀ g ∈ b, tabsInGroup w1 g.id = tabsInGroup w g.id) :
    selectBySize w1 b = selectBySize w b := by
  unfold selectBySize
  have h2 : b.map (fun g => (g, (tabsInGroup w1 g.id).length))
      = b.map (fun g => (g, (tabsInGroup w g.id).length)) := by
    apply List.map_congr_left
    intro g hg
    rw [h g hg]
  rw [h2]

/-- Full characterization of one bucket's processing: the sources' tabs
whose moves are accepted end up in the target, the target's record gets
the merged title and collapse flag, and every request is a discard, a
move into the target of source tabs, or the final title update. -/
theorem processBucket_spec (moveOk : Nat → Bool) (fm kc : Bool) (wid : Nat)
    (b : List Group) (w : World)
    (hT : (w.tabs.map Tab.id).Nodup)
    (hnd : (b.map (fun g => g.id)).Nodup) (hb : b ≠ []) :
    (processBucket moveOk fm kc wid b w).1.tabs
      = w.tabs.map (fun t =>
          if t.groupId ∈ (selectBySize w b).2.map (fun g => g.id)
              ∧ moveOk t.groupId = true
          then { t with groupId := (selectBySize w b).1.id } else t)
    ∧ (processBucket moveOk fm kc wid b w).1.groups
      = w.groups.map (fun g => if g.id = (selectBySize w b).1.id
          then { g with title := mergedTitle b (selectBySize w b).1.title,
                        collapsed := kc }
          else g)
    ∧ ∀ req ∈ (processBucket moveOk fm kc wid b w).2.1,
        (∃ tid, req = Req.discard tid)
        ∨ (∃ tids, req = Req.move tids (selectBySize w b).1.id
            ∧ ∀ tid ∈ tids, ∃ t ∈ w.tabs, t.id = tid
                ∧ t.groupId ∈ (selectBySize w b).2.map (fun g => g.id))
        ∨ req = Req.update (selectBySize w b).1.id
            (mergedTitle b (selectBySize w b).1.title) kc := by
  obtain ⟨hnotin, hndo⟩ := selectBySize_ids_nodup w b hb hnd
  obtain ⟨htabs, hgroups, hreqs⟩ := mergeGroupSet_spec moveOk fm
    ((selectBySize w b).1.id) ((selectBySize w b).2.map (fun g => g.id)) w
    hT hndo hnotin
  refine ⟨htabs, ?_, ?_⟩
  · show (updateGroup (mergeGroupSet moveOk fm (selectBySize w b).1.id
        ((selectBySize w b).2.map (fun g => g.id)) w).1
        (selectBySize w b).1.id (mergedTitle b (selectBySize w b).1.title) kc).groups
      = _
    unfold updateGroup
    rw [hgroups]
    apply List.map_congr_left
    intro g _
    by_cases hc : g.id = (selectBySize w b).1.id
    · have hcb : (g.id == (selectBySize w b).1.id) = true := by simp [hc]
      rw [hcb]
      simp only [if_true, if_pos hc]
    · have hcb : (g.id == (selectBySize w b).1.id) = false := by simp [hc]
      rw [hcb]
      simp only [Bool.false_eq_true, if_false, if_neg hc]
  · intro req hreq
    rcases List.mem_append.mp hreq with hin | hin
    · rcases List.mem_append.mp hin with hin2 | hin2
      · left
        by_cases hfm : fm
        · rw [if_pos hfm] at hin2
          exact safeDiscardFromTabs_all_discard _ req hin2
        · rw [if_neg hfm] at hin2; cases hin2
      · rcases hreqs req hin2 with hd | ⟨tids, heq, hspec⟩
        · exact Or.inl hd
        · exact Or.inr (Or.inl ⟨tids, heq, hspec⟩)
    · right; right
      simpa using hin

/-- The cumulative effect of a bucket list on one tab: the first bucket
of two or more groups whose sources (computed in `w`) contain the tab's
group relabels it to that bucket's target, when the oracle accepts. -/
def moveFn (moveOk : Nat → Bool) (w : World) : List (Str × List Group) → Tab → Tab
  | [], t => t
  | (_, b) :: rest, t =>
    if 2 ≤ b.length ∧ t.groupId ∈ (selectBySize w b).2.map (fun g => g.id)
        ∧ moveOk t.groupId = true
    then { t with groupId := (selectBySize w b).1.id }
    else moveFn moveOk w rest t

/-- The cumulative effect of a bucket list on one group record: the
bucket of two or more groups whose target (computed in `w`) carries the
record's id gets the merged title and the collapse flag. -/
def retitleFn (kc : Bool) (w : World) : List (Str × List Group) → Group → Group
  | [], g => g
  | (_, b) :: rest, g =>
    if 2 ≤ b.length ∧ g.id = (selectBySize w b).1.id
    then { g with title := mergedTitle b (selectBySize w b).1.title, collapsed := kc }
    else retitleFn kc w rest g

/-- Every request of a bucket-list run is a discard, a move into some
processed bucket's target of that bucket's source tabs, or an update of
some processed bucket's target. -/
def ReqBound (w : World) (bs : List (Str × List Group)) : Req → Prop
  | Req.discard _ => True
  | Req.move tids gid =>
      ∃ p ∈ bs, 2 ≤ p.2.length ∧ gid = (selectBySize w p.2).1.id
        ∧ ∀ tid ∈ tids, ∃ t ∈ w.tabs, t.id = tid
            ∧ t.groupId ∈ (selectBySize w p.2).2.map (fun g => g.id)
  | Req.update gid _ _ =>
      ∃ p ∈ bs, 2 ≤ p.2.length ∧ gid = (selectBySize w p.2).1.id

/-- Pairwise id-disjointness of a bucket list. -/
def BucketsDisjoint (bs : List (Str × List Group)) : Prop :=
  List.Pairwise (fun e1 e2 => ∀ i ∈ e1.2.map (fun g : Group => g.id),
    i ∉ e2.2.map (fun g : Group => g.id)) bs

theorem selectBySize_target_mem (w : World) (b : List Group) (hb : b ≠ []) :
    (selectBySize w b).1 ∈ b :=
  (selectBySize_perm w b hb).symm.subset (List.mem_cons_self _ _)

theorem moveFn_id_of (moveOk : Nat → Bool) (w : World) :
    ∀ (bs : List (Str × List Group)) (t : Tab),
      (∀ p ∈ bs, ¬(2 ≤ p.2.length
        ∧ t.groupId ∈ (selectBySize w p.2).2.map (fun g => g.id)
        ∧ moveOk t.groupId = true)) →
      moveFn moveOk w bs t = t := by
  intro bs
  induction bs with
  | nil => intro t _; rfl
  | cons p rest ih =>
    intro t h
    obtain ⟨k, b⟩ := p
    simp only [moveFn]
    rw [if_neg (h (k, b) (List.mem_cons_self _ _))]
    exact ih t (fun p hp => h p (List.mem_cons_of_mem _ hp))

theorem moveFn_congr (moveOk : Nat → Bool) (w1 w : World) :
    ∀ (bs : List (Str × List Group)),
      (∀ p ∈ bs, selectBySize w1 p.2 = selectBySize w p.2) →
      ∀ t, moveFn moveOk w1 bs t = moveFn moveOk w bs t := by
  intro bs
  induction bs with
  | nil => intro _ t; rfl
  | cons p rest ih =>
    intro h t
    obtain ⟨k, b⟩ := p
    have hb := h (k, b) (List.mem_cons_self _ _)
    simp only [moveFn, hb]
    by_cases hc : 2 ≤ b.length ∧ t.groupId ∈ (selectBySize w b).2.map (fun g => g.id)
        ∧ moveOk t.groupId = true
    · rw [if_pos hc, if_pos hc]
    · rw [if_neg hc, if_neg hc]
      exact ih (fun p hp => h p (List.mem_cons_of_mem _ hp)) t

theorem moveFn_keeps_id (moveOk : Nat → Bool) (w : World) :
    ∀ (bs : List (Str × List Group)) (t : Tab), (moveFn moveOk w bs t).id = t.id := by
  intro bs
  induction bs with
  | nil => intro t; rfl
  | cons p rest ih =>
    intro t
    obtain ⟨k, b⟩ := p
    simp only [moveFn]
    split
    · rfl
    · exact ih t

theorem retitleFn_id_of (kc : Bool) (w : World) :
    ∀ (bs : List (Str × List Group)) (g : Group),
      (∀ p ∈ bs, ¬(2 ≤ p.2.length ∧ g.id = (selectBySize w p.2).1.id)) →
      retitleFn kc w bs g = g := by
  intro bs
  induction bs with
  | nil => intro g _; rfl
  | cons p rest ih =>
    intro g h
    obtain ⟨k, b⟩ := p
    simp only [retitleFn]
    rw [if_neg (h (k, b) (List.mem_cons_self _ _))]
    exact ih g (fun p hp => h p (List.mem_cons_of_mem _ hp))

theorem retitleFn_congr (kc : Bool) (w1 w : World) :
    ∀ (bs : List (Str × List Group)),
      (∀ p ∈ bs, selectBySize w1 p.2 = selectBySize w p.2) →
      ∀ g, retitleFn kc w1 bs g = retitleFn kc w bs g := by
  intro bs
  induction bs with
  | nil => intro _ g; rfl
  | cons p rest ih =>
    intro h g
    obtain ⟨k, b⟩ := p
    have hb := h (k, b) (List.mem_cons_self _ _)
    simp only [retitleFn, hb]
    by_cases hc : 2 ≤ b.length ∧ g.id = (selectBySize w b).1.id
    · rw [if_pos hc, if_pos hc]
    · rw [if_neg hc, if_neg hc]
      exact ih (fun p hp => h p (List.mem_cons_of_mem _ hp)) g

theorem retitleFn_keeps_id (kc : Bool) (w : World) :
    ∀ (bs : List (Str × List Group)) (g : Group),
      (retitleFn kc w bs g).id = g.id ∧ (retitleFn kc w bs g).windowId = g.windowId := by
  intro bs
  induction bs with
  | nil => intro g; exact ⟨rfl, rfl⟩
  | cons p rest ih =>
    intro g
    obtain ⟨k, b⟩ := p
    simp only [retitleFn]
    split
    · exact ⟨rfl, rfl⟩
    · exact ih g

/-- Master characterization of the bucket loop. -/
theorem processBuckets_spec (moveOk : Nat → Bool) (fm kc : Bool) (wid : Nat) :
    ∀ (bs : List (Str × List Group)) (w : World),
      (w.tabs.map Tab.id).Nodup →
      (∀ p ∈ bs, (p.2.map (fun g => g.id)).Nodup) →
      BucketsDisjoint bs →
      (processBuckets moveOk fm kc wid bs w).1.tabs
          = w.tabs.map (moveFn moveOk w bs)
      ∧ (processBuckets moveOk fm kc wid bs w).1.groups
          = w.groups.map (retitleFn kc w bs)
      ∧ ∀ req ∈ (processBuckets moveOk fm kc wid bs w).2.1, ReqBound w bs req := by
  intro bs
  induction bs with
  | nil =>
    intro w _ _ _
    refine ⟨?_, ?_, ?_⟩
    · symm
      calc w.tabs.map (moveFn moveOk w []) = w.tabs.map id :=
            List.map_congr_left (fun t _ => rfl)
        _ = w.tabs := List.map_id w.tabs
    · symm
      calc w.groups.map (retitleFn kc w []) = w.groups.map id :=
            List.map_congr_left (fun g _ => rfl)
        _ = w.groups := List.map_id w.groups
    · intro req h; cases h
  | cons p rest ih =>
    intro w hT hbs hdisj
    obtain ⟨k, b⟩ := p
    have hbsr : ∀ q ∈ rest, (q.2.map (fun g => g.id)).Nodup :=
      fun q hq => hbs q (List.mem_cons_of_mem _ hq)
    have hdisjr : BucketsDisjoint rest := (List.pairwise_cons.mp hdisj).2
    have hhead : ∀ q ∈ rest, ∀ i ∈ b.map (fun g : Group => g.id),
        i ∉ q.2.map (fun g : Group => g.id) :=
      fun q hq i hi => (List.pairwise_cons.mp hdisj).1 q hq i hi
    by_cases hlen : b.length < 2
    · have hlen2 : ¬ 2 ≤ b.length := by omega
      simp only [processBuckets, if_pos hlen]
      obtain ⟨ihtabs, ihgroups, ihreqs⟩ := ih w hT hbsr hdisjr
      refine ⟨?_, ?_, ?_⟩
      · rw [ihtabs]
        apply List.map_congr_left
        intro t _
        show moveFn moveOk w rest t = moveFn moveOk w ((k, b) :: rest) t
        simp only [moveFn]
        rw [if_neg (fun hc => hlen2 hc.1)]
      · rw [ihgroups]
        apply List.map_congr_left
        intro g _
        show retitleFn kc w rest g = retitleFn kc w ((k, b) :: rest) g
        simp only [retitleFn]
        rw [if_neg (fun hc => hlen2 hc.1)]
      · intro req hreq
        have h2 := ihreqs req hreq
        cases req with
        | discard tid => trivial
        | move tids gid =>
          obtain ⟨q, hq, hrest⟩ := h2
          exact ⟨q, List.mem_cons_of_mem _ hq, hrest⟩
        | update gid title c =>
          obtain ⟨q, hq, hrest⟩ := h2
          exact ⟨q, List.mem_cons_of_mem _ hq, hrest⟩
    · have hge : 2 ≤ b.length := by omega
      have hbne : b ≠ [] := by
        intro he; rw [he] at hge; simp at hge
      have hndb : (b.map (fun g => g.id)).Nodup := hbs (k, b) (List.mem_cons_self _ _)
      obtain ⟨pbtabs, pbgroups, pbreqs⟩ :=
        processBucket_spec moveOk fm kc wid b w hT hndb hbne
      simp only [processBuckets, if_neg hlen]
      set w1 := (processBucket moveOk fm kc wid b w).1 with hw1
      set phib : Tab → Tab := fun t =>
        if t.groupId ∈ (selectBySize w b).2.map (fun g => g.id)
            ∧ moveOk t.groupId = true
        then { t with groupId := (selectBySize w b).1.id } else t with hphib
      have hphib_id : ∀ t, (phib t).id = t.id := by
        intro t; rw [hphib]; dsimp only; split <;> rfl
      have hphib_keep : ∀ t, ¬(t.groupId ∈ (selectBySize w b).2.map (fun g => g.id)
          ∧ moveOk t.groupId = true) → phib t = t := by
        intro t hc; rw [hphib]; dsimp only; rw [if_neg hc]
      have hphib_move : ∀ t, (t.groupId ∈ (selectBySize w b).2.map (fun g => g.id)
          ∧ moveOk t.groupId = true) →
          phib t = { t with groupId := (selectBySize w b).1.id } := by
        intro t hc; rw [hphib]; dsimp only; rw [if_pos hc]
      have hothers_sub : ∀ i ∈ (selectBySize w b).2.map (fun g : Group => g.id),
          i ∈ b.map (fun g : Group => g.id) := by
        intro i hi
        exact (selectBySize_mem_ids w b hbne i).mpr (Or.inr hi)
      have htarget_mem : (selectBySize w b).1.id ∈ b.map (fun g : Group => g.id) :=
        (selectBySize_mem_ids w b hbne _).mpr (Or.inl rfl)
      have hframe : ∀ q ∈ rest, ∀ g ∈ q.2, tabsInGroup w1 g.id = tabsInGroup w g.id := by
        intro q hq g hg
        have hgid_not_b : g.id ∉ b.map (fun g : Group => g.id) := by
          intro hc
          exact hhead q hq g.id hc (List.mem_map.mpr ⟨g, hg, rfl⟩)
        show w1.tabs.filter (fun t => t.groupId == g.id) = _
        rw [pbtabs]
        apply filter_map_eq_of_frame
        intro t _
        constructor
        · intro hgrp
          apply hphib_keep
          intro hc
          exact hgid_not_b (hgrp ▸ hothers_sub _ hc.1)
        · intro hafter
          by_cases hc : t.groupId ∈ (selectBySize w b).2.map (fun g => g.id)
              ∧ moveOk t.groupId = true
          · rw [hphib_move t hc] at hafter
            exact absurd (hafter ▸ htarget_mem) hgid_not_b
          · rw [hphib_keep t hc] at hafter
            exact hafter
      have hsel_eq : ∀ q ∈ rest, selectBySize w1 q.2 = selectBySize w q.2 :=
        fun q hq => selectBySize_congr w1 w q.2 (hframe q hq)
      have hT1 : (w1.tabs.map Tab.id).Nodup := by
        rw [pbtabs, ids_of_map_preserved]
        · exact hT
        · exact hphib_id
      obtain ⟨ihtabs, ihgroups, ihreqs⟩ := ih w1 hT1 hbsr hdisjr
      refine ⟨?_, ?_, ?_⟩
      · rw [ihtabs, pbtabs, List.map_map]
        apply List.map_congr_left
        intro t _
        simp only [Function.comp_apply]
        rw [moveFn_congr moveOk w1 w rest hsel_eq]
        by_cases hc : t.groupId ∈ (selectBySize w b).2.map (fun g => g.id)
            ∧ moveOk t.groupId = true
        · rw [hphib_move t hc]
          have hmoved : moveFn moveOk w rest
              { t with groupId := (selectBySize w b).1.id }
              = { t with groupId := (selectBySize w b).1.id } := by
            apply moveFn_id_of
            intro q hq hcq
            have hqb2 : q.2 ≠ [] := by
              intro he
              rw [he] at hcq
              simp at hcq
            exact hhead q hq _ htarget_mem
              ((selectBySize_mem_ids w q.2 hqb2 _).mpr (Or.inr hcq.2.1))
          rw [hmoved]
          show _ = moveFn moveOk w ((k, b) :: rest) t
          simp only [moveFn]
          rw [if_pos ⟨hge, hc.1, hc.2⟩]
        · rw [hphib_keep t hc]
          show moveFn moveOk w rest t = moveFn moveOk w ((k, b) :: rest) t
          simp only [moveFn]
          rw [if_neg (fun hc2 => hc ⟨hc2.2.1, hc2.2.2⟩)]
      · rw [ihgroups, pbgroups, List.map_map]
        apply List.map_congr_left
        intro g _
        simp only [Function.comp_apply]
        rw [retitleFn_congr kc w1 w rest hsel_eq]
        by_cases hc : g.id = (selectBySize w b).1.id
        · rw [if_pos hc]
          have hkept : retitleFn kc w rest
              { g with title := mergedTitle b (selectBySize w b).1.title,
                       collapsed := kc }
              = { g with title := mergedTitle b (selectBySize w b).1.title,
                         collapsed := kc } := by
            apply retitleFn_id_of
            intro q hq hcq
            have hqb : q.2 ≠ [] := by
              intro he
              rw [he] at hcq
              simp at hcq
            have hmem2 : (selectBySize w q.2).1.id ∈ q.2.map (fun g : Group => g.id) :=
              List.mem_map.mpr ⟨_, selectBySize_target_mem w q.2 hqb, rfl⟩
            exact hhead q hq _ (hc ▸ htarget_mem) (hcq.2 ▸ hmem2)
          rw [hkept]
          show _ = retitleFn kc w ((k, b) :: rest) g
          simp only [retitleFn]
          rw [if_pos ⟨hge, hc⟩]
        · rw [if_neg hc]
          show retitleFn kc w rest g = retitleFn kc w ((k, b) :: rest) g
          simp only [retitleFn]
          rw [if_neg (fun hc2 => hc hc2.2)]
      · intro req hreq
        rcases List.mem_append.mp hreq with hin | hin
        · rcases pbreqs req hin with hd | hmv | hup
          · obtain ⟨tid, heq⟩ := hd
            rw [heq]; trivial
          · obtain ⟨tids, heq, hspec⟩ := hmv
            rw [heq]
            exact ⟨(k, b), List.mem_cons_self _ _, hge, rfl, hspec⟩
          · rw [hup]
            exact ⟨(k, b), List.mem_cons_self _ _, hge, rfl⟩
        · have h2 := ihreqs req hin
          cases req with
          | discard tid => trivial
          | move tids gid =>
            obtain ⟨q, hq, hqlen, hgid, hspec⟩ := h2
            rw [hsel_eq q hq] at hgid
            refine ⟨q, List.mem_cons_of_mem _ hq, hqlen, hgid, ?_⟩
            intro tid htid
            obtain ⟨t1, ht1, hid, hgrp⟩ := hspec tid htid
            rw [hsel_eq q hq] at hgrp
            rw [pbtabs] at ht1
            obtain ⟨t0, ht0, ht0eq⟩ := List.mem_map.mp ht1
            have hqb : q.2 ≠ [] := by
              intro he
              rw [he] at hqlen
              simp at hqlen
            by_cases hc : t0.groupId ∈ (selectBySize w b).2.map (fun g => g.id)
                ∧ moveOk t0.groupId = true
            · exfalso
              rw [← ht0eq, hphib_move t0 hc] at hgrp
              have hq2 : (selectBySize w b).1.id ∈ q.2.map (fun g : Group => g.id) :=
                (selectBySize_mem_ids w q.2 hqb _).mpr (Or.inr hgrp)
              exact hhead q hq _ htarget_mem hq2
            · rw [← ht0eq, hphib_keep t0 hc] at hgrp hid
              exact ⟨t0, ht0, hid, hgrp⟩
          | update gid title c =>
            obtain ⟨q, hq, hqlen, hgid⟩ := h2
            rw [hsel_eq q hq] at hgid
            exact ⟨q, List.mem_cons_of_mem _ hq, hqlen, hgid⟩

/-- `processBucket`'s world and trace do not depend on the window id
(which only labels the result entry). -/
theorem processBucket_wid_irrel (moveOk : Nat → Bool) (fm kc : Bool)
    (wid1 wid2 : Nat) (b : List Group) (w : World) :
    (processBucket moveOk fm kc wid1 b w).1 = (processBucket moveOk fm kc wid2 b w).1
    ∧ (processBucket moveOk fm kc wid1 b w).2.1
        = (processBucket moveOk fm kc wid2 b w).2.1 :=
  ⟨rfl, rfl⟩

theorem processBuckets_wid_irrel (moveOk : Nat → Bool) (fm kc : Bool)
    (wid1 wid2 : Nat) :
    ∀ (bs : List (Str × List Group)) (w : World),
      (processBuckets moveOk fm kc wid1 bs w).1
          = (processBuckets moveOk fm kc wid2 bs w).1
      ∧ (processBuckets moveOk fm kc wid1 bs w).2.1
          = (processBuckets moveOk fm kc wid2 bs w).2.1 := by
  intro bs
  induction bs with
  | nil => intro w; exact ⟨rfl, rfl⟩
  | cons p rest ih =>
    intro w
    obtain ⟨k, b⟩ := p
    by_cases hlen : b.length < 2
    · simp only [processBuckets, if_pos hlen]
      exact ih w
    · simp only [processBuckets, if_neg hlen]
      have h1 := processBucket_wid_irrel moveOk fm kc wid1 wid2 b w
      rw [h1.1, h1.2]
      obtain ⟨ih1, ih2⟩ := ih (processBucket moveOk fm kc wid2 b w).1
      rw [ih1, ih2]
      exact ⟨rfl, rfl⟩

theorem processBuckets_append (moveOk : Nat → Bool) (fm kc : Bool) (wid : Nat) :
    ∀ (bs1 bs2 : List (Str × List Group)) (w : World),
      (processBuckets moveOk fm kc wid (bs1 ++ bs2) w).1
        = (processBuckets moveOk fm kc wid bs2
            (processBuckets moveOk fm kc wid bs1 w).1).1
      ∧ (processBuckets moveOk fm kc wid (bs1 ++ bs2) w).2.1
        = (processBuckets moveOk fm kc wid bs1 w).2.1
          ++ (processBuckets moveOk fm kc wid bs2
              (processBuckets moveOk fm kc wid bs1 w).1).2.1 := by
  intro bs1
  induction bs1 with
  | nil => intro bs2 w; exact ⟨rfl, rfl⟩
  | cons p rest ih =>
    intro bs2 w
    obtain ⟨k, b⟩ := p
    by_cases hlen : b.length < 2
    · simp only [List.cons_append, processBuckets, if_pos hlen]
      exact ih bs2 w
    · simp only [List.cons_append, processBuckets, if_neg hlen, List.append_eq]
      obtain ⟨ih1, ih2⟩ := ih bs2 (processBucket moveOk fm kc wid b w).1
      rw [ih1, ih2, List.append_assoc]
      exact ⟨rfl, rfl⟩

/-- All buckets of all windows, in processing order. -/
def allBuckets (cs iu : Bool) (ws : List (Nat × List Group)) :
    List (Str × List Group) :=
  ws.flatMap (fun p => bucketsOf cs iu p.2)

/-- The window loop is the bucket loop over the concatenated buckets, as
far as the final world and the request trace are concerned. -/
theorem runWindows_eq_processBuckets (moveOk : Nat → Bool) (cs iu fm kc : Bool) :
    ∀ (ws : List (Nat × List Group)) (w : World),
      (runWindows moveOk cs iu fm kc ws w).1
        = (processBuckets moveOk fm kc 0 (allBuckets cs iu ws) w).1
      ∧ (runWindows moveOk cs iu fm kc ws w).2.1
        = (processBuckets moveOk fm kc 0 (allBuckets cs iu ws) w).2.1 := by
  intro ws
  induction ws with
  | nil => intro w; exact ⟨rfl, rfl⟩
  | cons p rest ih =>
    intro w
    obtain ⟨wid, wgs⟩ := p
    simp only [runWindows]
    have hwirr := processBuckets_wid_irrel moveOk fm kc wid 0 (bucketsOf cs iu wgs) w
    have happ := processBuckets_append moveOk fm kc 0 (bucketsOf cs iu wgs)
      (allBuckets cs iu rest) w
    have hall : allBuckets cs iu ((wid, wgs) :: rest)
        = bucketsOf cs iu wgs ++ allBuckets cs iu rest := by
      simp [allBuckets]
    obtain ⟨ih1, ih2⟩ := ih (processBuckets moveOk fm kc wid (bucketsOf cs iu wgs) w).1
    constructor
    · rw [ih1, hall, happ.1, hwirr.1]
    · rw [ih2, hall, happ.2, hwirr.1, hwirr.2]

/-! ## Side conditions for the master lemma -/

theorem pairwise_bind_of {α β : Type} (R : β → β → Prop) (l : List α)
    (f : α → List β)
    (h1 : ∀ a ∈ l, List.Pairwise R (f a))
    (h2 : List.Pairwise (fun a a' => ∀ b ∈ f a, ∀ b' ∈ f a', R b b') l) :
    List.Pairwise R (l.flatMap f) := by
  induction l with
  | nil => exact List.Pairwise.nil
  | cons a l ih =>
    rw [List.flatMap_cons]
    rw [List.pairwise_append]
    refine ⟨h1 a (List.mem_cons_self _ _),
      ih (fun a' ha' => h1 a' (List.mem_cons_of_mem _ ha'))
        (List.pairwise_cons.mp h2).2, ?_⟩
    intro x hx y hy
    obtain ⟨a', ha', hy2⟩ := List.mem_flatMap.mp hy
    exact (List.pairwise_cons.mp h2).1 a' ha' x hx y hy2

theorem bucketKeyOf_eq_some {cs iu : Bool} {g : Group} {k : Str}
    (h : bucketKeyOf cs iu g = some k) :
    normalizeTitle g.title cs = k ∧ (iu = false → k ≠ []) := by
  unfold bucketKeyOf at h
  by_cases hc : (!iu && normalizeTitle g.title cs == []) = true
  · rw [if_pos hc] at h; cases h
  · rw [if_neg hc] at h
    injection h with h1
    refine ⟨h1, ?_⟩
    intro hiu hk
    apply hc
    rw [hiu, h1, hk]
    simp

theorem mem_bucketsOf {cs iu : Bool} {gs : List Group} {k : Str}
    {b : List Group} (h : (k, b) ∈ bucketsOf cs iu gs) :
    b = gs.filter (fun g => bucketKeyOf cs iu g == some k) ∧ b ≠ [] :=
  mem_groupByKey_eq_filter (bucketKeyOf cs iu) gs k b h

theorem mem_of_mem_bucketsOf {cs iu : Bool} {gs : List Group} {k : Str}
    {b : List Group} (h : (k, b) ∈ bucketsOf cs iu gs) :
    ∀ g ∈ b, g ∈ gs ∧ bucketKeyOf cs iu g = some k := by
  intro g hg
  rw [(mem_bucketsOf h).1] at hg
  have h2 := List.mem_filter.mp hg
  exact ⟨h2.1, by simpa using h2.2⟩

theorem mem_partitionByWindow {gs : List Group} {wid : Nat}
    {wgrps : List Group} (h : (wid, wgrps) ∈ partitionByWindow gs) :
    wgrps = gs.filter (fun g => g.windowId == wid) ∧ wgrps ≠ [] := by
  have h2 : (wid, wgrps) ∈ groupByKey (fun g : Group => some g.windowId) gs := h
  have h3 := mem_groupByKey_eq_filter (fun g : Group => some g.windowId)
    gs wid wgrps h2
  refine ⟨?_, h3.2⟩
  rw [h3.1]
  apply List.filter_congr
  intro g _
  simp

theorem mem_of_mem_partitionByWindow {gs : List Group} {wid : Nat}
    {wgrps : List Group} (h : (wid, wgrps) ∈ partitionByWindow gs) :
    ∀ g ∈ wgrps, g ∈ gs ∧ g.windowId = wid := by
  intro g hg
  rw [(mem_partitionByWindow h).1] at hg
  have h2 := List.mem_filter.mp hg
  exact ⟨h2.1, by simpa using h2.2⟩

theorem listGroupsScope_sublist (w : World) (scope : Option Nat) :
    (listGroupsScope w scope).Sublist w.groups := by
  cases scope with
  | none => exact List.Sublist.refl _
  | some wid => exact List.filter_sublist _

theorem bucketsOf_nodup_ids (cs iu : Bool) (gs : List Group)
    (hG : (gs.map (fun g => g.id)).Nodup) :
    ∀ p ∈ bucketsOf cs iu gs, (p.2.map (fun g : Group => g.id)).Nodup := by
  intro p hp
  obtain ⟨k, b⟩ := p
  have hb := (mem_bucketsOf hp).1
  have hsub : b.Sublist gs := by
    rw [hb]; exact List.filter_sublist _
  exact (hsub.map (fun g : Group => g.id)).nodup hG

theorem bucketsOf_disjoint (cs iu : Bool) (gs : List Group)
    (hG : (gs.map (fun g => g.id)).Nodup) :
    BucketsDisjoint (bucketsOf cs iu gs) := by
  have hkeys := nodup_keys_groupByKey (bucketKeyOf cs iu) gs
  have hkeys2 : List.Pairwise (fun e1 e2 : Str × List Group => e1.1 ≠ e2.1)
      (bucketsOf cs iu gs) := by
    rw [List.Nodup, List.pairwise_map] at hkeys
    exact hkeys
  apply hkeys2.imp_of_mem
  intro e1 e2 h1 h2 hne i hi1 hi2
  obtain ⟨g1, hg1, hgid1⟩ := List.mem_map.mp hi1
  obtain ⟨g2, hg2, hgid2⟩ := List.mem_map.mp hi2
  obtain ⟨k1, b1⟩ := e1
  obtain ⟨k2, b2⟩ := e2
  have hf1 := mem_of_mem_bucketsOf h1 g1 hg1
  have hf2 := mem_of_mem_bucketsOf h2 g2 hg2
  have heq : g1 = g2 :=
    group_eq_of_id hG hf1.1 hf2.1 (hgid1.trans hgid2.symm)
  apply hne
  show k1 = k2
  have := hf1.2.symm.trans (heq ▸ hf2.2)
  injection this

theorem allBuckets_nodup_ids (cs iu : Bool) (L : List Group)
    (hG : (L.map (fun g => g.id)).Nodup) :
    ∀ p ∈ allBuckets cs iu (partitionByWindow L),
      (p.2.map (fun g : Group => g.id)).Nodup := by
  intro p hp
  obtain ⟨q, hq, hp2⟩ := List.mem_flatMap.mp hp
  obtain ⟨wid, wgrps⟩ := q
  have hsub : wgrps.Sublist L := by
    rw [(mem_partitionByWindow hq).1]
    exact List.filter_sublist _
  exact bucketsOf_nodup_ids cs iu wgrps
    ((hsub.map (fun g : Group => g.id)).nodup hG) p hp2

theorem allBuckets_disjoint (cs iu : Bool) (L : List Group)
    (hG : (L.map (fun g => g.id)).Nodup) :
    BucketsDisjoint (allBuckets cs iu (partitionByWindow L)) := by
  apply pairwise_bind_of
  · intro q hq
    obtain ⟨wid, wgrps⟩ := q
    have hsub : wgrps.Sublist L := by
      rw [(mem_partitionByWindow hq).1]
      exact List.filter_sublist _
    exact bucketsOf_disjoint cs iu wgrps
      ((hsub.map (fun g : Group => g.id)).nodup hG)
  · have hkeys := nodup_keys_groupByKey
      (fun g : Group => some g.windowId) L
    have hkeys2 : List.Pairwise (fun e1 e2 : Nat × List Group => e1.1 ≠ e2.1)
        (partitionByWindow L) := by
      rw [List.Nodup, List.pairwise_map] at hkeys
      exact hkeys
    apply hkeys2.imp_of_mem
    intro q1 q2 h1 h2 hne p1 hp1 p2 hp2 i hi1 hi2
    obtain ⟨g1, hg1, hgid1⟩ := List.mem_map.mp hi1
    obtain ⟨g2, hg2, hgid2⟩ := List.mem_map.mp hi2
    have hw1 := mem_of_mem_partitionByWindow h1 g1
      (mem_of_mem_bucketsOf hp1 g1 hg1).1
    have hw2 := mem_of_mem_partitionByWindow h2 g2
      (mem_of_mem_bucketsOf hp2 g2 hg2).1
    have heq : g1 = g2 :=
      group_eq_of_id hG hw1.1 hw2.1 (hgid1.trans hgid2.symm)
    exact hne (hw1.2.symm.trans (heq ▸ hw2.2))

/-- Full-run characterization of `mergeDuplicatesByName`. -/
theorem mergeDuplicatesByName_spec (moveOk : Nat → Bool) (scope : Option Nat)
    (cs iu fm kc : Bool) (w : World)
    (hT : (w.tabs.map Tab.id).Nodup)
    (hG : (w.groups.map (fun g : Group => g.id)).Nodup) :
    (mergeDuplicatesByName moveOk scope cs iu fm kc w).1.tabs
        = w.tabs.map (moveFn moveOk w
            (allBuckets cs iu (partitionByWindow (listGroupsScope w scope))))
    ∧ (mergeDuplicatesByName moveOk scope cs iu fm kc w).1.groups
        = w.groups.map (retitleFn kc w
            (allBuckets cs iu (partitionByWindow (listGroupsScope w scope))))
    ∧ ∀ req ∈ (mergeDuplicatesByName moveOk scope cs iu fm kc w).2.1,
        ReqBound w
          (allBuckets cs iu (partitionByWindow (listGroupsScope w scope))) req := by
  have hGL : ((listGroupsScope w scope).map (fun g : Group => g.id)).Nodup :=
    ((listGroupsScope_sublist w scope).map (fun g : Group => g.id)).nodup hG
  have hbridge := runWindows_eq_processBuckets moveOk cs iu fm kc
    (partitionByWindow (listGroupsScope w scope)) w
  have hmaster := processBuckets_spec moveOk fm kc 0
    (allBuckets cs iu (partitionByWindow (listGroupsScope w scope))) w hT
    (allBuckets_nodup_ids cs iu (listGroupsScope w scope) hGL)
    (allBuckets_disjoint cs iu (listGroupsScope w scope) hGL)
  unfold mergeDuplicatesByName
  refine ⟨?_, ?_, ?_⟩
  · rw [hbridge.1]; exact hmaster.1
  · rw [hbridge.1]; exact hmaster.2.1
  · rw [hbridge.2]; exact hmaster.2.2

/-! ## Pointwise consequences of the run characterization -/

theorem moveFn_eq_of_mem (moveOk : Nat → Bool) (w : World) :
    ∀ (bs : List (Str × List Group)) (p : Str × List Group), p ∈ bs →
      BucketsDisjoint bs → 2 ≤ p.2.length →
      ∀ t : Tab, t.groupId ∈ (selectBySize w p.2).2.map (fun g => g.id) →
        moveOk t.groupId = true →
        moveFn moveOk w bs t = { t with groupId := (selectBySize w p.2).1.id } := by
  intro bs
  induction bs with
  | nil => intro p hp; cases hp
  | cons q rest ih =>
    intro p hp hdisj hlen t ht hok
    obtain ⟨kq, bq⟩ := q
    rcases List.mem_cons.mp hp with hcase | hcase
    · subst hcase
      simp only [moveFn]
      rw [if_pos ⟨hlen, ht, hok⟩]
    · have hpne : p.2 ≠ [] := by
        intro he; rw [he] at hlen; simp at hlen
      have htid_p : t.groupId ∈ p.2.map (fun g : Group => g.id) :=
        (selectBySize_mem_ids w p.2 hpne _).mpr (Or.inr ht)
      have hdisj1 := (List.pairwise_cons.mp hdisj).1 p hcase
      simp only [moveFn]
      rw [if_neg]
      · exact ih p hcase (List.pairwise_cons.mp hdisj).2 hlen t ht hok
      · intro hc
        have hbqne : bq ≠ [] := by
          intro he; rw [he] at hc; simp at hc
        have : t.groupId ∈ bq.map (fun g : Group => g.id) :=
          (selectBySize_mem_ids w bq hbqne _).mpr (Or.inr hc.2.1)
        exact hdisj1 t.groupId this htid_p

theorem moveFn_keep_of_target (moveOk : Nat → Bool) (w : World) :
    ∀ (bs : List (Str × List Group)) (p : Str × List Group), p ∈ bs →
      BucketsDisjoint bs → (p.2.map (fun g : Group => g.id)).Nodup →
      2 ≤ p.2.length →
      ∀ t : Tab, t.groupId = (selectBySize w p.2).1.id →
        moveFn moveOk w bs t = t := by
  intro bs
  induction bs with
  | nil => intro p hp; cases hp
  | cons q rest ih =>
    intro p hp hdisj hnd hlen t ht
    obtain ⟨kq, bq⟩ := q
    have hpne : p.2 ≠ [] := by
      intro he; rw [he] at hlen; simp at hlen
    rcases List.mem_cons.mp hp with hcase | hcase
    · have hbq : bq = p.2 := by rw [hcase]
      simp only [moveFn]
      rw [if_neg]
      · apply moveFn_id_of
        intro q2 hq2 hc
        have hq2ne : q2.2 ≠ [] := by
          intro he; rw [he] at hc; simp at hc
        have htq2 : t.groupId ∈ q2.2.map (fun g : Group => g.id) :=
          (selectBySize_mem_ids w q2.2 hq2ne _).mpr (Or.inr hc.2.1)
        have htp : t.groupId ∈ p.2.map (fun g : Group => g.id) := by
          rw [ht]
          exact (selectBySize_mem_ids w p.2 hpne _).mpr (Or.inl rfl)
        have hdisj1 := (List.pairwise_cons.mp hdisj).1 q2 hq2
        rw [← hcase] at hdisj1
        exact hdisj1 t.groupId htp htq2
      · intro hc
        rw [hbq] at hc
        rw [ht] at hc
        exact (selectBySize_ids_nodup w p.2 hpne hnd).1 hc.2.1
    · simp only [moveFn]
      rw [if_neg]
      · exact ih p hcase (List.pairwise_cons.mp hdisj).2 hnd hlen t ht
      · intro hc
        have hbqne : bq ≠ [] := by
          intro he; rw [he] at hc; simp at hc
        have htq : t.groupId ∈ bq.map (fun g : Group => g.id) :=
          (selectBySize_mem_ids w bq hbqne _).mpr (Or.inr hc.2.1)
        have htp : t.groupId ∈ p.2.map (fun g : Group => g.id) := by
          rw [ht]
          exact (selectBySize_mem_ids w p.2 hpne _).mpr (Or.inl rfl)
        exact (List.pairwise_cons.mp hdisj).1 p hcase t.groupId htq htp

theorem moveFn_groupId (moveOk : Nat → Bool) (w : World) :
    ∀ (bs : List (Str × List Group)) (t : Tab),
      (moveFn moveOk w bs t).groupId = t.groupId
      ∨ ∃ p ∈ bs, 2 ≤ p.2.length
          ∧ (moveFn moveOk w bs t).groupId = (selectBySize w p.2).1.id
          ∧ t.groupId ∈ (selectBySize w p.2).2.map (fun g : Group => g.id) := by
  intro bs
  induction bs with
  | nil => intro t; exact Or.inl rfl
  | cons q rest ih =>
    intro t
    obtain ⟨kq, bq⟩ := q
    simp only [moveFn]
    by_cases hc : 2 ≤ bq.length ∧ t.groupId ∈ (selectBySize w bq).2.map (fun g => g.id)
        ∧ moveOk t.groupId = true
    · rw [if_pos hc]
      exact Or.inr ⟨(kq, bq), List.mem_cons_self _ _, hc.1, rfl, hc.2.1⟩
    · rw [if_neg hc]
      rcases ih t with h1 | ⟨p, hp, hrest⟩
      · exact Or.inl h1
      · exact Or.inr ⟨p, List.mem_cons_of_mem _ hp, hrest⟩

theorem retitleFn_eq_of_target (kc : Bool) (w : World) :
    ∀ (bs : List (Str × List Group)) (p : Str × List Group), p ∈ bs →
      BucketsDisjoint bs → 2 ≤ p.2.length →
      ∀ g : Group, g.id = (selectBySize w p.2).1.id →
        retitleFn kc w bs g
          = { g with title := mergedTitle p.2 (selectBySize w p.2).1.title,
                     collapsed := kc } := by
  intro bs
  induction bs with
  | nil => intro p hp; cases hp
  | cons q rest ih =>
    intro p hp hdisj hlen g hg
    obtain ⟨kq, bq⟩ := q
    have hpne : p.2 ≠ [] := by
      intro he; rw [he] at hlen; simp at hlen
    rcases List.mem_cons.mp hp with hcase | hcase
    · have hbq : bq = p.2 := by rw [hcase]
      subst hbq
      simp only [retitleFn]
      rw [if_pos ⟨hlen, hg⟩]
    · simp only [retitleFn]
      rw [if_neg]
      · exact ih p hcase (List.pairwise_cons.mp hdisj).2 hlen g hg
      · intro hc
        have hbqne : bq ≠ [] := by
          intro he; rw [he] at hc; simp at hc
        have hgq : g.id ∈ bq.map (fun h : Group => h.id) := by
          rw [hc.2]
          exact List.mem_map.mpr ⟨_, selectBySize_target_mem w bq hbqne, rfl⟩
        have hgp : g.id ∈ p.2.map (fun h : Group => h.id) := by
          rw [hg]
          exact List.mem_map.mpr ⟨_, selectBySize_target_mem w p.2 hpne, rfl⟩
        exact (List.pairwise_cons.mp hdisj).1 p hcase g.id hgq hgp

/-! ## Counting helpers -/

theorem countP_or_disjoint {α : Type} (p q : α → Bool) :
    ∀ l : List α, (∀ a ∈ l, ¬(p a = true ∧ q a = true)) →
      l.countP (fun a => p a || q a) = l.countP p + l.countP q := by
  intro l
  induction l with
  | nil => intro _; rfl
  | cons a l ih =>
    intro h
    have ha := h a (List.mem_cons_self _ _)
    rw [List.countP_cons, List.countP_cons, List.countP_cons,
      ih (fun a' ha' => h a' (List.mem_cons_of_mem _ ha'))]
    by_cases hp : p a = true
    · have hq : q a = false := by
        cases hqv : q a with
        | true => exact absurd ⟨hp, hqv⟩ ha
        | false => rfl
      simp [hp, hq]
      omega
    · have hp2 : p a = false := by
        cases hpv : p a with
        | true => exact absurd hpv hp
        | false => rfl
      simp [hp2]
      omega

theorem count_value_eq_one {α β : Type} [DecidableEq α] (f : α → β) :
    ∀ (l : List α) (v : α), v ∈ l → (l.map f).Nodup → l.count v = 1 := by
  intro l
  induction l with
  | nil => intro v hv; cases hv
  | cons a rest ih =>
    intro v hv hnd
    simp only [List.map_cons, List.nodup_cons] at hnd
    by_cases hva : v = a
    · subst hva
      have hnot : v ∉ rest := by
        intro hc
        exact hnd.1 (List.mem_map.mpr ⟨v, hc, rfl⟩)
      rw [List.count_cons_self, List.count_eq_zero.mpr hnot]
    · have hvrest : v ∈ rest := by
        rcases List.mem_cons.mp hv with h1 | h1
        · exact absurd h1 hva
        · exact h1
      rw [List.count_cons_of_ne hva, ih v hvrest hnd.2]

theorem filter_eq_singleton_of {α : Type} [DecidableEq α] (p : α → Bool) :
    ∀ (l : List α) (v : α), (∀ a ∈ l, p a = true ↔ a = v) → l.count v = 1 →
      l.filter p = [v] := by
  intro l
  induction l with
  | nil => intro v _ hc; simp at hc
  | cons a rest ih =>
    intro v hiff hc
    by_cases hva : a = v
    · subst hva
      rw [List.count_cons_self] at hc
      have hc0 : rest.count a = 0 := by omega
      have hnot : a ∉ rest := List.count_eq_zero.mp hc0
      have hpa : p a = true := (hiff a (List.mem_cons_self _ _)).mpr rfl
      rw [List.filter_cons, if_pos hpa]
      have hrest : rest.filter p = [] := by
        rw [List.filter_eq_nil_iff]
        intro b hb
        intro hpb
        have := (hiff b (List.mem_cons_of_mem _ hb)).mp hpb
        rw [this] at hb
        exact hnot hb
      rw [hrest]
    · have hpa : p a = false := by
        cases hp : p a with
        | true => exact absurd ((hiff a (List.mem_cons_self _ _)).mp hp) hva
        | false => rfl
      rw [List.filter_cons, hpa]
      simp only [Bool.false_eq_true, if_false]
      apply ih
      · intro b hb
        exact hiff b (List.mem_cons_of_mem _ hb)
      · rw [List.count_cons_of_ne (fun h => hva h.symm)] at hc
        exact hc

/-! ## Key preservation of the retitle step -/

/-- The merged title normalizes to the bucket's key. -/
theorem mergedTitle_key (cs : Bool) (b : List Group) (k : Str)
    (hco : ∀ h ∈ b, normalizeTitle h.title cs = k)
    (fallback : Str) (hfb : normalizeTitle fallback cs = k) :
    normalizeTitle (mergedTitle b fallback) cs = k := by
  by_cases hbt : bucketTitles b = []
  · rw [mergedTitle_of_empty b fallback hbt]
    exact hfb
  · obtain ⟨g, hg, hgeq⟩ := mergedTitle_mem b fallback hbt
    rw [hgeq, normalizeTitle_trimStr]
    exact hco g hg

/-- A full bucket-list retitle pass preserves every group's normalized
title key (the merged title of a bucket normalizes to the bucket key,
which is also the key of the group being retitled). -/
theorem retitleFn_key_of (cs kc : Bool) (w : World)
    (hG : (w.groups.map (fun g : Group => g.id)).Nodup) :
    ∀ (bs : List (Str × List Group)),
      (∀ p ∈ bs, ∀ h ∈ p.2, normalizeTitle h.title cs = p.1 ∧ h ∈ w.groups) →
      ∀ g ∈ w.groups,
        normalizeTitle (retitleFn kc w bs g).title cs
          = normalizeTitle g.title cs := by
  intro bs
  induction bs with
  | nil => intro _ g _; rfl
  | cons q rest ih =>
    intro hco g hg
    obtain ⟨kq, bq⟩ := q
    simp only [retitleFn]
    by_cases hc : 2 ≤ bq.length ∧ g.id = (selectBySize w bq).1.id
    · rw [if_pos hc]
      have hbqne : bq ≠ [] := by
        intro he; rw [he] at hc; simp at hc
      have htmem : (selectBySize w bq).1 ∈ bq := selectBySize_target_mem w bq hbqne
      have hco1 := hco (kq, bq) (List.mem_cons_self _ _)
      have hgt : g = (selectBySize w bq).1 :=
        group_eq_of_id hG hg (hco1 _ htmem).2 hc.2
      show normalizeTitle (mergedTitle bq (selectBySize w bq).1.title) cs = _
      rw [mergedTitle_key cs bq kq (fun h hh => (hco1 h hh).1)
        (selectBySize w bq).1.title (hco1 _ htmem).1]
      rw [hgt]
      exact ((hco1 _ htmem).1).symm
    · rw [if_neg hc]
      exact ih (fun p hp => hco p (List.mem_cons_of_mem _ hp)) g hg

/-! ## Commutation of grouping with a key-preserving map -/

theorem insertByKey_map {κ α : Type} [BEq κ] (f : α → α) :
    ∀ (acc : List (κ × List α)) (k : κ) (x : α),
      insertByKey (acc.map (fun e => (e.1, e.2.map f))) k (f x)
        = (insertByKey acc k x).map (fun e => (e.1, e.2.map f)) := by
  intro acc
  induction acc with
  | nil => intro k x; simp [insertByKey]
  | cons e rest ih =>
    intro k x
    obtain ⟨k0, b0⟩ := e
    by_cases h : (k0 == k) = true
    · simp [insertByKey, h]
    · have h2 : (k0 == k) = false := by
        cases hv : (k0 == k) with
        | true => exact absurd hv h
        | false => rfl
      simp only [List.map_cons, insertByKey, h2, Bool.false_eq_true, if_false]
      rw [ih]

theorem groupByKeyAux_map {κ α : Type} [BEq κ] (keyOf : α → Option κ)
    (f : α → α) :
    ∀ (l : List α) (acc : List (κ × List α)),
      (∀ x ∈ l, keyOf (f x) = keyOf x) →
      groupByKeyAux keyOf (l.map f) (acc.map (fun e => (e.1, e.2.map f)))
        = (groupByKeyAux keyOf l acc).map (fun e => (e.1, e.2.map f)) := by
  intro l
  induction l with
  | nil => intro acc _; rfl
  | cons x xs ih =>
    intro acc h
    have hx := h x (List.mem_cons_self _ _)
    simp only [List.map_cons, groupByKeyAux, hx]
    cases hkx : keyOf x with
    | none => exact ih acc (fun y hy => h y (List.mem_cons_of_mem _ hy))
    | some k =>
      show groupByKeyAux keyOf (xs.map f)
          (insertByKey (acc.map (fun e => (e.1, e.2.map f))) k (f x))
        = (groupByKeyAux keyOf xs (insertByKey acc k x)).map
            (fun e => (e.1, e.2.map f))
      rw [insertByKey_map]
      exact ih _ (fun y hy => h y (List.mem_cons_of_mem _ hy))

theorem groupByKey_map {κ α : Type} [BEq κ] (keyOf : α → Option κ)
    (f : α → α) (l : List α) (h : ∀ x ∈ l, keyOf (f x) = keyOf x) :
    groupByKey keyOf (l.map f)
      = (groupByKey keyOf l).map (fun e => (e.1, e.2.map f)) := by
  unfold groupByKey
  have := groupByKeyAux_map keyOf f l [] h
  simpa using this

theorem filter_map_comm {α : Type} (f : α → α) (p : α → Bool) :
    ∀ l : List α, (∀ x ∈ l, p (f x) = p x) →
      (l.map f).filter p = (l.filter p).map f := by
  intro l
  induction l with
  | nil => intro _; rfl
  | cons x xs ih =>
    intro h
    have hx := h x (List.mem_cons_self _ _)
    simp only [List.map_cons, List.filter_cons, hx]
    by_cases hp : p x = true
    · rw [hp]
      simp only [if_true, List.map_cons]
      rw [ih (fun y hy => h y (List.mem_cons_of_mem _ hy))]
    · have hp2 : p x = false := by
        cases hv : p x with
        | true => exact absurd hv hp
        | false => rfl
      rw [hp2]
      simp only [Bool.false_eq_true, if_false]
      exact ih (fun y hy => h y (List.mem_cons_of_mem _ hy))

/-! ## Runs that have nothing to move -/

theorem mergeGroupSet_no_tabs (moveOk : Nat → Bool) (fm : Bool) (target : Nat) :
    ∀ (gids : List Nat) (w : World),
      (∀ gid ∈ gids, tabsInGroup w gid = []) →
      mergeGroupSet moveOk fm target gids w = (w, []) := by
  intro gids
  induction gids with
  | nil => intro w _; rfl
  | cons gid rest ih =>
    intro w h
    by_cases hskip : (gid == target) = true
    · simp only [mergeGroupSet, hskip, if_true]
      exact ih w (fun g hg => h g (List.mem_cons_of_mem _ hg))
    · have hnil := h gid (List.mem_cons_self _ _)
      simp only [mergeGroupSet, hskip, Bool.false_eq_true, if_false, hnil,
        List.map_nil, List.isEmpty_nil, Bool.not_true, Bool.and_false,
        Bool.false_eq_true, if_false, List.nil_append]
      rw [ih w (fun g hg => h g (List.mem_cons_of_mem _ hg))]

theorem tabsInGroup_congr (w1 w : World) (h : w1.tabs = w.tabs) (gid : Nat) :
    tabsInGroup w1 gid = tabsInGroup w gid := by
  unfold tabsInGroup
  rw [h]

theorem selectBySize_congr_tabs (w1 w : World) (h : w1.tabs = w.tabs)
    (b : List Group) : selectBySize w1 b = selectBySize w b :=
  selectBySize_congr w1 w b (fun g _ => tabsInGroup_congr w1 w h g.id)

/-- When every source of every processed bucket is empty, the bucket
loop issues no move request and leaves the tabs untouched. -/
theorem processBuckets_no_moves (moveOk : Nat → Bool) (fm kc : Bool) (wid : Nat) :
    ∀ (bs : List (Str × List Group)) (w : World),
      (∀ p ∈ bs, 2 ≤ p.2.length →
        ∀ i ∈ (selectBySize w p.2).2.map (fun g : Group => g.id),
          tabsInGroup w i = []) →
      (processBuckets moveOk fm kc wid bs w).1.tabs = w.tabs
      ∧ ∀ req ∈ (processBuckets moveOk fm kc wid bs w).2.1, req.isMove = false := by
  intro bs
  induction bs with
  | nil => intro w _; exact ⟨rfl, by intro req h; cases h⟩
  | cons q rest ih =>
    intro w h
    obtain ⟨kq, bq⟩ := q
    by_cases hlen : bq.length < 2
    · simp only [processBuckets, if_pos hlen]
      exact ih w (fun p hp => h p (List.mem_cons_of_mem _ hp))
    · have hge : 2 ≤ bq.length := by omega
      have hq := h (kq, bq) (List.mem_cons_self _ _) hge
      have hmgs : mergeGroupSet moveOk fm (selectBySize w bq).1.id
          ((selectBySize w bq).2.map (fun g => g.id)) w = (w, []) :=
        mergeGroupSet_no_tabs moveOk fm _ _ w hq
      simp only [processBuckets, if_neg hlen]
      have hpb : (processBucket moveOk fm kc wid bq w).1
            = updateGroup w (selectBySize w bq).1.id
                (mergedTitle bq (selectBySize w bq).1.title) kc
          ∧ (processBucket moveOk fm kc wid bq w).2.1
            = (if fm then discardNonActiveTabsInGroup w (selectBySize w bq).1.id
               else [])
              ++ [] ++ [Req.update (selectBySize w bq).1.id
                  (mergedTitle bq (selectBySize w bq).1.title) kc] := by
        constructor
        · show (updateGroup (mergeGroupSet moveOk fm (selectBySize w bq).1.id
              ((selectBySize w bq).2.map (fun g => g.id)) w).1 _ _ kc) = _
          rw [hmgs]
        · show (if fm then discardNonActiveTabsInGroup w (selectBySize w bq).1.id
              else [])
            ++ (mergeGroupSet moveOk fm (selectBySize w bq).1.id
              ((selectBySize w bq).2.map (fun g => g.id)) w).2 ++ _ = _
          rw [hmgs]
      have hw1tabs : (processBucket moveOk fm kc wid bq w).1.tabs = w.tabs := by
        rw [hpb.1]
        rfl
      obtain ⟨ih1, ih2⟩ := ih (processBucket moveOk fm kc wid bq w).1
        (by
          intro p hp hplen i hi
          rw [selectBySize_congr_tabs _ w hw1tabs p.2] at hi
          rw [tabsInGroup_congr _ w hw1tabs i]
          exact h p (List.mem_cons_of_mem _ hp) hplen i hi)
      refine ⟨by rw [ih1, hw1tabs], ?_⟩
      intro req hreq
      rcases List.mem_append.mp hreq with hin | hin
      · rw [hpb.2] at hin
        rcases List.mem_append.mp hin with hin2 | hin2
        · rcases List.mem_append.mp hin2 with hin3 | hin3
          · by_cases hfm : fm
            · rw [if_pos hfm] at hin3
              obtain ⟨tid, heq⟩ := safeDiscardFromTabs_all_discard _ req hin3
              rw [heq]; rfl
            · rw [if_neg hfm] at hin3; cases hin3
          · cases hin3
        · have heq : req = Req.update (selectBySize w bq).1.id
              (mergedTitle bq (selectBySize w bq).1.title) kc := by
            simpa using hin2
          rw [heq]; rfl
      · exact ih2 req hin

/-! ## Bucket geometry helpers for the claim theorems -/

theorem buckets_same_or_disjoint (bs : List (Str × List Group))
    (hdisj : BucketsDisjoint bs) (p q : Str × List Group)
    (hp : p ∈ bs) (hq : q ∈ bs) :
    p = q ∨ ∀ i ∈ p.2.map (fun g : Group => g.id),
      i ∉ q.2.map (fun g : Group => g.id) := by
  by_cases hpq : p = q
  · exact Or.inl hpq
  · refine Or.inr ?_
    have hsym : Symmetric (fun e1 e2 : Str × List Group =>
        ∀ i ∈ e1.2.map (fun g : Group => g.id),
          i ∉ e2.2.map (fun g : Group => g.id)) := by
      intro a b hab i hib hia
      exact hab i hia hib
    exact hdisj.forall hsym hp hq hpq

theorem countP_mem_ids (w : World) :
    ∀ B : List Group, (B.map (fun g : Group => g.id)).Nodup →
      w.tabs.countP (fun t => decide (t.groupId ∈ B.map (fun g : Group => g.id)))
        = (B.map (fun h => (tabsInGroup w h.id).length)).sum := by
  intro B
  induction B with
  | nil =>
    intro _
    simp
  | cons g B ih =>
    intro hnd
    simp only [List.map_cons, List.nodup_cons] at hnd
    have hcong : w.tabs.countP
        (fun t => decide (t.groupId ∈ (g :: B).map (fun g : Group => g.id)))
        = w.tabs.countP (fun t => (t.groupId == g.id)
            || decide (t.groupId ∈ B.map (fun g : Group => g.id))) := by
      apply List.countP_congr
      intro t _
      simp [List.mem_cons]
    have hdis2 : ∀ t ∈ w.tabs, ¬((t.groupId == g.id) = true
        ∧ decide (t.groupId ∈ B.map (fun g : Group => g.id)) = true) := by
      intro t _ hc
      apply hnd.1
      have h1 : t.groupId = g.id := by simpa using hc.1
      have h2 : t.groupId ∈ B.map (fun g : Group => g.id) := by simpa using hc.2
      rw [← h1]
      exact h2
    have hsplit := countP_or_disjoint (fun t : Tab => (t.groupId == g.id))
      (fun t : Tab => decide (t.groupId ∈ B.map (fun g : Group => g.id)))
      w.tabs hdis2
    have hfirst : w.tabs.countP (fun t => t.groupId == g.id)
        = (tabsInGroup w g.id).length := by
      rw [List.countP_eq_length_filter]
      rfl
    rw [hcong, hsplit, hfirst, ih hnd.2]
    simp

theorem group_ids_map_preserved (gs : List Group) (ρ : Group → Group)
    (h : ∀ g ∈ gs, (ρ g).id = g.id) :
    (gs.map ρ).map (fun g : Group => g.id) = gs.map (fun g : Group => g.id) := by
  rw [List.map_map]
  apply List.map_congr_left
  intro g hg
  exact h g hg

theorem flatMap_map_eq {α β γ : Type} (l : List α) (f : α → β) (g : β → List γ) :
    (l.map f).flatMap g = l.flatMap (fun a => g (f a)) := by
  induction l with
  | nil => rfl
  | cons x xs ih => simp only [List.map_cons, List.flatMap_cons, ih]

theorem map_flatMap_eq {α β γ : Type} (l : List α) (f : α → List β) (g : β → γ) :
    (l.flatMap f).map g = l.flatMap (fun a => (f a).map g) := by
  induction l with
  | nil => rfl
  | cons x xs ih => simp only [List.flatMap_cons, List.map_append, ih]

theorem flatMap_congr_mem {α β : Type} (l : List α) (f g : α → List β)
    (h : ∀ a ∈ l, f a = g a) : l.flatMap f = l.flatMap g := by
  induction l with
  | nil => rfl
  | cons x xs ih =>
    simp only [List.flatMap_cons]
    rw [h x (List.mem_cons_self _ _),
      ih (fun a ha => h a (List.mem_cons_of_mem _ ha))]

theorem bucketKeyOf_congr (cs iu : Bool) (g g' : Group)
    (h : normalizeTitle g'.title cs = normalizeTitle g.title cs) :
    bucketKeyOf cs iu g' = bucketKeyOf cs iu g := by
  unfold bucketKeyOf
  rw [h]

/-- Every member of every bucket of a full-run bucket list carries the
bucket's key as its normalized title and is a group of the world. -/
theorem allBuckets_coherent (cs iu : Bool) (w : World) (scope : Option Nat) :
    ∀ p ∈ allBuckets cs iu (partitionByWindow (listGroupsScope w scope)),
      ∀ h ∈ p.2, normalizeTitle h.title cs = p.1 ∧ h ∈ w.groups := by
  intro p hp h hh
  obtain ⟨q, hq, hp2⟩ := List.mem_flatMap.mp hp
  obtain ⟨k, b⟩ := p
  obtain ⟨wid, wgs⟩ := q
  have h1 := mem_of_mem_bucketsOf hp2 h hh
  refine ⟨(bucketKeyOf_eq_some h1.2).1, ?_⟩
  have h2 := (mem_of_mem_partitionByWindow hq h h1.1).1
  exact (listGroupsScope_sublist w scope).subset h2

/-- A bucket of the full run is the filter of one window's groups by its
key. -/
theorem allBuckets_bucket_eq (cs iu : Bool) (L : List Group) (k : Str)
    (b : List Group) (h : (k, b) ∈ allBuckets cs iu (partitionByWindow L)) :
    b ≠ [] ∧ ∃ wid, b = (L.filter (fun g => g.windowId == wid)).filter
        (fun g => bucketKeyOf cs iu g == some k) := by
  obtain ⟨q, hq, hb⟩ := List.mem_flatMap.mp h
  obtain ⟨wid, wgs⟩ := q
  have h1 := mem_bucketsOf hb
  have h2 := mem_partitionByWindow hq
  refine ⟨h1.2, wid, ?_⟩
  rw [h1.1, h2.1]

theorem listGroupsScope_map (w w1 : World) (ρ : Group → Group)
    (scope : Option Nat) (h : w1.groups = w.groups.map ρ)
    (hwin : ∀ g ∈ w.groups, (ρ g).windowId = g.windowId) :
    listGroupsScope w1 scope = (listGroupsScope w scope).map ρ := by
  cases scope with
  | none => exact h
  | some wid =>
    show w1.groups.filter (fun g => g.windowId == wid) = _
    rw [h]
    refine filter_map_comm ρ (fun g => g.windowId == wid) w.groups ?_
    intro g hg
    show ((ρ g).windowId == wid) = (g.windowId == wid)
    rw [hwin g hg]

/-- Bucketing commutes with a window- and key-preserving map of the
group listing. -/
theorem allBuckets_map (cs iu : Bool) (L : List Group) (ρ : Group → Group)
    (hwin : ∀ g ∈ L, (ρ g).windowId = g.windowId)
    (hkey : ∀ g ∈ L, bucketKeyOf cs iu (ρ g) = bucketKeyOf cs iu g) :
    allBuckets cs iu (partitionByWindow (L.map ρ))
      = (allBuckets cs iu (partitionByWindow L)).map
          (fun e => (e.1, e.2.map ρ)) := by
  have hpart : partitionByWindow (L.map ρ)
      = (partitionByWindow L).map (fun e => (e.1, e.2.map ρ)) := by
    unfold partitionByWindow
    apply groupByKey_map
    intro g hg
    show some (ρ g).windowId = some g.windowId
    rw [hwin g hg]
  unfold allBuckets
  rw [hpart, flatMap_map_eq, map_flatMap_eq]
  apply flatMap_congr_mem
  intro q hq
  obtain ⟨wid, wgs⟩ := q
  show bucketsOf cs iu (wgs.map ρ)
    = (bucketsOf cs iu wgs).map (fun e => (e.1, e.2.map ρ))
  unfold bucketsOf
  apply groupByKey_map
  intro g hg
  exact hkey g (mem_of_mem_partitionByWindow hq g hg).1

/-- After an explicit merge whose moves are all accepted, every
non-target member of every processed bucket holds no tabs any more. -/
theorem allOk_sources_empty (moveOk : Nat → Bool) (scope : Option Nat)
    (cs iu fm kc : Bool) (w : World)
    (hall : ∀ n, moveOk n = true)
    (hT : (w.tabs.map Tab.id).Nodup)
    (hG : (w.groups.map (fun g : Group => g.id)).Nodup) :
    ∀ p ∈ allBuckets cs iu (partitionByWindow (listGroupsScope w scope)),
      2 ≤ p.2.length →
      ∀ i ∈ (selectBySize w p.2).2.map (fun g : Group => g.id),
        tabsInGroup (mergeDuplicatesByName moveOk scope cs iu fm kc w).1 i = [] := by
  set AB := allBuckets cs iu (partitionByWindow (listGroupsScope w scope)) with hAB
  intro p hp hlen i hi
  have hGL : ((listGroupsScope w scope).map (fun g : Group => g.id)).Nodup :=
    ((listGroupsScope_sublist w scope).map (fun g : Group => g.id)).nodup hG
  have hnd := allBuckets_nodup_ids cs iu (listGroupsScope w scope) hGL
  have hdisj := allBuckets_disjoint cs iu (listGroupsScope w scope) hGL
  have hspec := mergeDuplicatesByName_spec moveOk scope cs iu fm kc w hT hG
  have hpne : p.2 ≠ [] := by
    intro he; rw [he] at hlen; simp at hlen
  have hiB : i ∈ p.2.map (fun g : Group => g.id) :=
    (selectBySize_mem_ids w p.2 hpne i).mpr (Or.inr hi)
  have hiT : i ≠ (selectBySize w p.2).1.id := by
    intro he
    exact (selectBySize_ids_nodup w p.2 hpne (hnd p hp)).1 (he ▸ hi)
  show ((mergeDuplicatesByName moveOk scope cs iu fm kc w).1.tabs.filter
    (fun t => t.groupId == i)) = []
  rw [hspec.1, List.filter_eq_nil_iff]
  intro x hx hc
  obtain ⟨t, ht, hxt⟩ := List.mem_map.mp hx
  have hgi : (moveFn moveOk w AB t).groupId = i := by
    rw [hxt]
    simpa using hc
  by_cases hcase : t.groupId ∈ (selectBySize w p.2).2.map (fun g : Group => g.id)
  · have hmv := moveFn_eq_of_mem moveOk w AB p hp hdisj hlen t hcase
      (hall t.groupId)
    rw [hmv] at hgi
    exact hiT hgi.symm
  · rcases moveFn_groupId moveOk w AB t with hsame | ⟨q, hq, hqlen, hqeq, hqmem⟩
    · have hti : t.groupId = i := hsame.symm.trans hgi
      rw [hti] at hcase
      exact hcase hi
    · have htq : (selectBySize w q.2).1.id = i := hqeq.symm.trans hgi
      have hqne : q.2 ≠ [] := by
        intro he; rw [he] at hqlen; simp at hqlen
      have hiq : i ∈ q.2.map (fun g : Group => g.id) := by
        rw [← htq]
        exact (selectBySize_mem_ids w q.2 hqne _).mpr (Or.inl rfl)
      rcases buckets_same_or_disjoint AB hdisj q p hq hp with heq | hdis2
      · rw [heq] at htq
        exact hiT htq.symm
      · exact hdis2 i hiq hiB

/-- With `includeUnnamed = false` a group whose normalized title is
empty appears in no bucket of the full run. -/
theorem unnamed_not_in_buckets (cs : Bool) (scope : Option Nat) (w : World)
    (hG : (w.groups.map (fun g : Group => g.id)).Nodup)
    (g : Group) (hg : g ∈ w.groups) (hkey : normalizeTitle g.title cs = []) :
    ∀ p ∈ allBuckets cs false (partitionByWindow (listGroupsScope w scope)),
      g.id ∉ p.2.map (fun h : Group => h.id) := by
  intro p hp hc
  obtain ⟨h0, hh0, hid⟩ := List.mem_map.mp hc
  obtain ⟨q, hq, hp2⟩ := List.mem_flatMap.mp hp
  obtain ⟨k, b⟩ := p
  obtain ⟨wid, wgs⟩ := q
  have h1 := mem_of_mem_bucketsOf hp2 h0 hh0
  have h2 := (mem_of_mem_partitionByWindow hq h0 h1.1).1
  have h3 : h0 ∈ w.groups := (listGroupsScope_sublist w scope).subset h2
  have heq : h0 = g := group_eq_of_id hG h3 hg hid
  have h4 := bucketKeyOf_eq_some h1.2
  apply h4.2 rfl
  rw [← h4.1, heq]
  exact hkey

/-- With `includeUnnamed = false` a group whose normalized title is
empty appears in no bucket of one window's incremental recompute. -/
theorem unnamed_not_in_bucketsOf (cs : Bool) (wid : Nat) (w : World)
    (hG : (w.groups.map (fun g : Group => g.id)).Nodup)
    (g : Group) (hg : g ∈ w.groups) (hkey : normalizeTitle g.title cs = []) :
    ∀ p ∈ bucketsOf cs false (listGroupsScope w (some wid)),
      g.id ∉ p.2.map (fun h : Group => h.id) := by
  intro p hp hc
  obtain ⟨h0, hh0, hid⟩ := List.mem_map.mp hc
  obtain ⟨k, b⟩ := p
  have h1 := mem_of_mem_bucketsOf hp h0 hh0
  have h3 : h0 ∈ w.groups := (listGroupsScope_sublist w (some wid)).subset h1.1
  have heq : h0 = g := group_eq_of_id hG h3 hg hid
  have h4 := bucketKeyOf_eq_some h1.2
  apply h4.2 rfl
  rw [← h4.1, heq]
  exact hkey

theorem mem_updateGroup_of_ne (w : World) (gid : Nat) (title : Str) (c : Bool)
    (g : Group) (hg : g ∈ w.groups) (hne : g.id ≠ gid) :
    g ∈ (updateGroup w gid title c).groups := by
  show g ∈ w.groups.map (fun h =>
    if h.id == gid then { h with title := title, collapsed := c } else h)
  refine List.mem_map.mpr ⟨g, hg, ?_⟩
  have hb : (g.id == gid) = false := by simp [hne]
  rw [hb]
  simp

/-- `drainGroupToTarget` between groups other than `gid` keeps the
group records, the tab-id roster and every tab of group `gid`, and
issues no request that names `gid` or takes one of its tabs. -/
theorem drainGroupToTarget_frame (moveOk : Nat → Bool) (fm : Bool)
    (target src gid : Nat) (w : World)
    (hT : (w.tabs.map Tab.id).Nodup) (htar : target ≠ gid) (hsrc : src ≠ gid) :
    (drainGroupToTarget moveOk fm target src w).1.groups = w.groups
    ∧ (drainGroupToTarget moveOk fm target src w).1.tabs.map Tab.id
        = w.tabs.map Tab.id
    ∧ (∀ t ∈ w.tabs, t.groupId = gid →
        t ∈ (drainGroupToTarget moveOk fm target src w).1.tabs)
    ∧ ∀ req ∈ (drainGroupToTarget moveOk fm target src w).2,
        (∀ title c, req ≠ Req.update gid title c)
        ∧ ∀ tids gid2, req = Req.move tids gid2 →
            gid2 ≠ gid ∧ ∀ s ∈ w.tabs, s.groupId = gid → s.id ∉ tids := by
  unfold drainGroupToTarget
  by_cases hself : (target == src) = true
  · rw [if_pos hself]
    exact ⟨rfl, rfl, fun t ht _ => ht, fun req hreq => by cases hreq⟩
  · rw [if_neg hself]
    by_cases hempty : (tabsInGroup w src).isEmpty
    · rw [if_pos hempty]
      exact ⟨rfl, rfl, fun t ht _ => ht, fun req hreq => by cases hreq⟩
    · rw [if_neg hempty]
      have hnotin : ∀ s ∈ w.tabs, s.groupId = gid →
          s.id ∉ (tabsInGroup w src).map (fun t => t.id) := by
        intro s hs hsg hmem
        obtain ⟨t', ht', hid⟩ := List.mem_map.mp hmem
        have ht'w : t' ∈ w.tabs := tabsInGroup_subset w src t' ht'
        have ht'g : t'.groupId = src := by
          simpa using (List.mem_filter.mp ht').2
        have hts : t' = s := tab_eq_of_id hT ht'w hs hid
        rw [hts, hsg] at ht'g
        exact hsrc ht'g.symm
      have hreqcond : ∀ req ∈ (if fm then safeDiscardFromTabs (tabsInGroup w src)
            else [])
            ++ [Req.move ((tabsInGroup w src).map (fun t => t.id)) target],
          (∀ title c, req ≠ Req.update gid title c)
          ∧ ∀ tids gid2, req = Req.move tids gid2 →
              gid2 ≠ gid ∧ ∀ s ∈ w.tabs, s.groupId = gid → s.id ∉ tids := by
        intro req hreq
        rcases List.mem_append.mp hreq with hin | hin
        · have hd : ∃ tid, req = Req.discard tid := by
            by_cases hfm : fm
            · rw [if_pos hfm] at hin
              exact safeDiscardFromTabs_all_discard _ req hin
            · rw [if_neg hfm] at hin
              cases hin
          obtain ⟨tid, htid⟩ := hd
          subst htid
          exact ⟨fun title c hcon => Req.noConfusion hcon,
            fun tids gid2 hcon => Req.noConfusion hcon⟩
        · have heq : req = Req.move ((tabsInGroup w src).map (fun t => t.id))
              target := by simpa using hin
          subst heq
          refine ⟨fun title c hcon => Req.noConfusion hcon, ?_⟩
          intro tids gid2 hcon
          injection hcon with h1 h2
          subst h1
          subst h2
          exact ⟨fun hc => htar hc, hnotin⟩
      have hkeep : ∀ t ∈ w.tabs, t.groupId = gid →
          t ∈ (moveTabs w ((tabsInGroup w src).map (fun t => t.id)) target).tabs := by
        intro t ht htg
        show t ∈ w.tabs.map (fun t =>
          if (((tabsInGroup w src).map (fun t => t.id)).contains t.id)
          then { t with groupId := target } else t)
        refine List.mem_map.mpr ⟨t, ht, ?_⟩
        have hnc : (((tabsInGroup w src).map (fun t => t.id)).contains t.id)
            = false := by
          simpa using hnotin t ht htg
        rw [hnc]
        simp
      by_cases hok : moveOk src
      · simp only [hok, if_true]
        refine ⟨rfl, ?_, hkeep, hreqcond⟩
        show (w.tabs.map (fun t =>
          if (((tabsInGroup w src).map (fun t => t.id)).contains t.id)
          then { t with groupId := target } else t)).map Tab.id = w.tabs.map Tab.id
        apply ids_of_map_preserved
        intro t
        dsimp only
        split
        · rfl
        · rfl
      · simp only [hok, Bool.false_eq_true, if_false]
        exact ⟨trivial, trivial, fun t ht _ => ht, hreqcond⟩

/-- The drain loop inherits the per-group frame of
`drainGroupToTarget`. -/
theorem drainList_frame (moveOk : Nat → Bool) (fm : Bool) (target gid : Nat) :
    ∀ (srcs : List Nat) (w : World),
      (w.tabs.map Tab.id).Nodup → target ≠ gid → (∀ s ∈ srcs, s ≠ gid) →
      (drainList moveOk fm target srcs w).1.groups = w.groups
      ∧ (drainList moveOk fm target srcs w).1.tabs.map Tab.id = w.tabs.map Tab.id
      ∧ (∀ t ∈ w.tabs, t.groupId = gid →
          t ∈ (drainList moveOk fm target srcs w).1.tabs)
      ∧ ∀ req ∈ (drainList moveOk fm target srcs w).2,
          (∀ title c, req ≠ Req.update gid title c)
          ∧ ∀ tids gid2, req = Req.move tids gid2 →
              gid2 ≠ gid ∧ ∀ s ∈ w.tabs, s.groupId = gid → s.id ∉ tids := by
  intro srcs
  induction srcs with
  | nil =>
    intro w hT htar _
    exact ⟨rfl, rfl, fun t ht _ => ht, fun req hreq => by cases hreq⟩
  | cons src rest ih =>
    intro w hT htar hsrcs
    have hsrc : src ≠ gid := hsrcs src (List.mem_cons_self _ _)
    obtain ⟨hg1, hi1, hm1, hr1⟩ :=
      drainGroupToTarget_frame moveOk fm target src gid w hT htar hsrc
    have hT1 : ((drainGroupToTarget moveOk fm target src w).1.tabs.map
        Tab.id).Nodup := by
      rw [hi1]
      exact hT
    obtain ⟨hg2, hi2, hm2, hr2⟩ := ih (drainGroupToTarget moveOk fm target src w).1
      hT1 htar (fun s hs => hsrcs s (List.mem_cons_of_mem _ hs))
    refine ⟨?_, ?_, ?_, ?_⟩
    · show (drainList moveOk fm target rest
        (drainGroupToTarget moveOk fm target src w).1).1.groups = w.groups
      rw [hg2, hg1]
    · show (drainList moveOk fm target rest
        (drainGroupToTarget moveOk fm target src w).1).1.tabs.map Tab.id
        = w.tabs.map Tab.id
      rw [hi2, hi1]
    · intro t ht htg
      exact hm2 t (hm1 t ht htg) htg
    · intro req hreq
      have hreq2 : req ∈ (drainGroupToTarget moveOk fm target src w).2
          ++ (drainList moveOk fm target rest
              (drainGroupToTarget moveOk fm target src w).1).2 := hreq
      rcases List.mem_append.mp hreq2 with hin | hin
      · exact hr1 req hin
      · obtain ⟨hu, hm⟩ := hr2 req hin
        refine ⟨hu, ?_⟩
        intro tids gid2 heq
        obtain ⟨hne, hs⟩ := hm tids gid2 heq
        exact ⟨hne, fun s hsw hsg => hs s (hm1 s hsw hsg) hsg⟩

/-- The recompute loop never touches a group outside every bucket: its
record and tabs survive, and no request names it or takes its tabs. -/
theorem recomputeBuckets_frame (moveOk : Nat → Bool) (fm kc : Bool) (gid : Nat) :
    ∀ (bs : List (Str × List Group)) (w : World),
      (w.tabs.map Tab.id).Nodup →
      (∀ p ∈ bs, gid ∉ p.2.map (fun h : Group => h.id)) →
      (∀ g ∈ w.groups, g.id = gid →
          g ∈ (recomputeBuckets moveOk fm kc bs w).1.groups)
      ∧ (recomputeBuckets moveOk fm kc bs w).1.tabs.map Tab.id
          = w.tabs.map Tab.id
      ∧ (∀ t ∈ w.tabs, t.groupId = gid →
          t ∈ (recomputeBuckets moveOk fm kc bs w).1.tabs)
      ∧ ∀ req ∈ (recomputeBuckets moveOk fm kc bs w).2.1,
          (∀ title c, req ≠ Req.update gid title c)
          ∧ ∀ tids gid2, req = Req.move tids gid2 →
              gid2 ≠ gid ∧ ∀ s ∈ w.tabs, s.groupId = gid → s.id ∉ tids := by
  intro bs
  induction bs with
  | nil =>
    intro w hT _
    exact ⟨fun g hg _ => hg, rfl, fun t ht _ => ht, fun req hreq => by cases hreq⟩
  | cons kb rest ih =>
    intro w hT hnotin
    obtain ⟨k, b⟩ := kb
    by_cases hlen : b.length < 2
    · simp only [recomputeBuckets, if_pos hlen]
      exact ih w hT (fun p hp => hnotin p (List.mem_cons_of_mem _ hp))
    · have hbne : b ≠ [] := by
        intro he
        rw [he] at hlen
        exact hlen (by simp)
      have hperm : (List.insertionSort (fun g h => g.id ≤ h.id) b).Perm b :=
        List.perm_insertionSort _ b
      have hsne : List.insertionSort (fun g h => g.id ≤ h.id) b ≠ [] :=
        insertionSort_ne_nil _ b hbne
      obtain ⟨s0, st, hs⟩ : ∃ s0 st,
          List.insertionSort (fun g h => g.id ≤ h.id) b = s0 :: st := by
        cases hcase : List.insertionSort (fun g h => g.id ≤ h.id) b with
        | nil => exact absurd hcase hsne
        | cons s0 st => exact ⟨s0, st, rfl⟩
      have hhead : (List.insertionSort (fun g h => g.id ≤ h.id) b).headD dfltGroup
          = s0 := by
        rw [hs]
        rfl
      have htail : (List.insertionSort (fun g h => g.id ≤ h.id) b).tail = st := by
        rw [hs]
        rfl
      have hs0b : s0 ∈ b :=
        hperm.subset (by rw [hs]; exact List.mem_cons_self _ _)
      have hstb : ∀ x ∈ st, x ∈ b := by
        intro x hx
        exact hperm.subset (by rw [hs]; exact List.mem_cons_of_mem _ hx)
      have hnot0 := hnotin (k, b) (List.mem_cons_self _ _)
      have htar : s0.id ≠ gid := by
        intro hc
        exact hnot0 (List.mem_map.mpr ⟨s0, hs0b, hc⟩)
      have hsrcs : ∀ s ∈ st.map (fun g : Group => g.id), s ≠ gid := by
        intro s hsmem hc
        obtain ⟨x, hx, hxid⟩ := List.mem_map.mp hsmem
        exact hnot0 (List.mem_map.mpr ⟨x, hstb x hx, hxid.trans hc⟩)
      obtain ⟨hg1, hi1, hm1, hr1⟩ := drainList_frame moveOk fm s0.id gid
        (st.map (fun g : Group => g.id)) w hT htar hsrcs
      have hT2 : ((updateGroup
          (drainList moveOk fm s0.id (st.map (fun g : Group => g.id)) w).1
          s0.id s0.title kc).tabs.map Tab.id).Nodup := by
        show ((drainList moveOk fm s0.id (st.map (fun g : Group => g.id))
          w).1.tabs.map Tab.id).Nodup
        rw [hi1]
        exact hT
      obtain ⟨hg2, hi2, hm2, hr2⟩ := ih (updateGroup
          (drainList moveOk fm s0.id (st.map (fun g : Group => g.id)) w).1
          s0.id s0.title kc)
        hT2 (fun p hp => hnotin p (List.mem_cons_of_mem _ hp))
      simp only [recomputeBuckets, if_neg hlen, hhead, htail]
      refine ⟨?_, ?_, ?_, ?_⟩
      · intro g hg hgid
        apply hg2 g ?_ hgid
        apply mem_updateGroup_of_ne
        · rw [hg1]
          exact hg
        · intro hc
          exact htar (hc.symm.trans hgid)
      · rw [hi2]
        show (drainList moveOk fm s0.id (st.map (fun g : Group => g.id))
          w).1.tabs.map Tab.id = w.tabs.map Tab.id
        exact hi1
      · intro t ht htg
        apply hm2 t ?_ htg
        show t ∈ (drainList moveOk fm s0.id (st.map (fun g : Group => g.id))
          w).1.tabs
        exact hm1 t ht htg
      · intro req hreq
        rcases List.mem_append.mp hreq with hin | hin
        · rcases List.mem_append.mp hin with hin2 | hin2
          · exact hr1 req hin2
          · have heq : req = Req.update s0.id s0.title kc := by simpa using hin2
            subst heq
            refine ⟨?_, ?_⟩
            · intro title c hcon
              injection hcon with h1 h2 h3
              exact htar h1
            · intro tids gid2 hcon
              cases hcon
        · obtain ⟨hu, hm⟩ := hr2 req hin
          refine ⟨hu, ?_⟩
          intro tids gid2 heq
          obtain ⟨hne, hsfun⟩ := hm tids gid2 heq
          refine ⟨hne, ?_⟩
          intro s hsw hsg
          apply hsfun s ?_ hsg
          show s ∈ (drainList moveOk fm s0.id (st.map (fun g : Group => g.id))
            w).1.tabs
          exact hm1 s hsw hsg

/-! ## Claim theorems -/

/-- C3: a tab that is active, or has no committed URL (empty or
`about:blank` after trimming, or a pending navigation), is never the
subject of a discard request issued by any merge entry point, fastMerge
included. -/
theorem merge_discard_safety (moveOk : Nat → Bool) (scope : Option Nat)
    (cs iu fm kc : Bool) (tt : Option Str) (groupIds : List Nat) (wid : Nat)
    (w : World) (t : Tab)
    (hT : (w.tabs.map Tab.id).Nodup)
    (ht : t ∈ w.tabs)
    (h : t.active = true ∨ trimStr t.url = []
        ∨ trimStr t.url = "about:blank".toList ∨ t.pendingUrl ≠ []) :
    Req.discard t.id ∉ (mergeDuplicatesByName moveOk scope cs iu fm kc w).2.1
    ∧ Req.discard t.id ∉ (recomputeAndDrainDuplicates moveOk cs iu fm kc wid w).2.1
    ∧ Req.discard t.id ∉ (mergeSelectedGroups moveOk kc fm tt groupIds w).2.1 := by
  have havoid : shouldAvoidDiscard t = true := by
    unfold shouldAvoidDiscard
    rcases h with h1 | h1 | h1 | h1 <;> simp [h1]
  have key : ∀ reqs, DiscardSafe w.tabs reqs → Req.discard t.id ∉ reqs := by
    intro reqs hsafe hmem
    obtain ⟨t', ht', hid, hfalse⟩ := hsafe t.id hmem
    have heq : t' = t := tab_eq_of_id hT ht' ht hid
    rw [heq, havoid] at hfalse
    cases hfalse
  exact ⟨key _ (mergeDuplicatesByName_discardSafe moveOk scope cs iu fm kc w),
    key _ (recomputeAndDrainDuplicates_discardSafe moveOk cs iu fm kc wid w),
    key _ (mergeSelectedGroups_discardSafe moveOk kc fm tt groupIds w)⟩

/-- C4: the merge target of a bucket of two or more groups (the group
recorded as `mergedInto`) is a group of maximal tab count, and every
group placed before it in the bucket has strictly smaller count, so ties
go to the first occurrence in the original bucket order. -/
theorem selectBySize_first_max (moveOk : Nat → Bool) (fm kc : Bool) (wid : Nat)
    (w : World) (b : List Group) (hb : 2 ≤ b.length) :
    (processBucket moveOk fm kc wid b w).2.2.mergedInto = (selectBySize w b).1.id
    ∧ ∃ pre post, b = pre ++ (selectBySize w b).1 :: post
      ∧ (∀ g ∈ b, (tabsInGroup w g.id).length
          ≤ (tabsInGroup w (selectBySize w b).1.id).length)
      ∧ ∀ g ∈ pre, (tabsInGroup w g.id).length
          < (tabsInGroup w (selectBySize w b).1.id).length := by
  have hbne : b ≠ [] := by intro he; rw [he] at hb; simp at hb
  exact ⟨rfl, selectBySize_spec w b hbne⟩

/-- C5: the title set on the target by the bucket's final update request
is one of the bucket's non-empty trimmed titles, of maximal frequency
among them, and every title occurring before it in the title list has
strictly smaller frequency, so frequency ties go to the first
occurrence. -/
theorem mergedTitle_most_frequent (moveOk : Nat → Bool) (fm kc : Bool)
    (wid : Nat) (w : World) (b : List Group) (hbt : bucketTitles b ≠ []) :
    (∃ rs, (processBucket moveOk fm kc wid b w).2.1
        = rs ++ [Req.update (selectBySize w b).1.id
            (mergedTitle b (selectBySize w b).1.title) kc])
    ∧ mergedTitle b (selectBySize w b).1.title ∈ bucketTitles b
    ∧ ∃ pre post,
        bucketTitles b = pre ++ mergedTitle b (selectBySize w b).1.title :: post
        ∧ (∀ s ∈ bucketTitles b, (bucketTitles b).count s
            ≤ (bucketTitles b).count (mergedTitle b (selectBySize w b).1.title))
        ∧ ∀ s ∈ pre, (bucketTitles b).count s
            < (bucketTitles b).count (mergedTitle b (selectBySize w b).1.title) := by
  obtain ⟨pre, post, heq, hall, hpre⟩ :=
    mergedTitle_spec b (selectBySize w b).1.title hbt
  refine ⟨⟨_, rfl⟩, ?_, pre, post, heq, hall, hpre⟩
  rw [heq]
  exact List.mem_append.mpr (Or.inr (List.mem_cons_self _ _))

/-- C6: `mergeSelectedGroups` with fewer than two ids, or with resolved
groups spanning two windows, returns a structured error, leaves the
world unchanged and issues no request at all. -/
theorem mergeSelected_invalid_no_action (moveOk : Nat → Bool) (kc fm : Bool)
    (tt : Option Str) (groupIds : List Nat) (w : World)
    (h : groupIds.length < 2
      ∨ ((∀ i ∈ groupIds, ∃ g, getGroup w i = some g)
         ∧ ∃ i1 ∈ groupIds, ∃ i2 ∈ groupIds, ∃ g1 g2,
             getGroup w i1 = some g1 ∧ getGroup w i2 = some g2
             ∧ g1.windowId ≠ g2.windowId)) :
    ∃ msg, mergeSelectedGroups moveOk kc fm tt groupIds w
        = (w, [], SelResult.err msg) :=
  mergeSelectedGroups_invalid moveOk kc fm tt groupIds w h

/-- C7: on the incremental path the target of every bucket of two or
more groups is its smallest-id member (both in the rebuilt index of
`recomputeAndDrainDuplicates` and in `findDuplicateTargetGroup`), and
`findDuplicateTargetGroup` returns no target for a bucket of fewer than
two members. -/
theorem incremental_target_smallest_id (moveOk : Nat → Bool)
    (cs iu fm kc : Bool) (wid : Nat) (title : Str) (w : World) :
    (∀ tid, findDuplicateTargetGroup cs iu wid title w = some tid →
      2 ≤ ((listGroupsScope w (some wid)).filter
            (fun g => normalizeTitle g.title cs == normalizeTitle title cs)).length
      ∧ ∃ g ∈ (listGroupsScope w (some wid)).filter
            (fun g => normalizeTitle g.title cs == normalizeTitle title cs),
          g.id = tid
          ∧ ∀ g' ∈ (listGroupsScope w (some wid)).filter
              (fun g => normalizeTitle g.title cs == normalizeTitle title cs),
            g.id ≤ g'.id)
    ∧ (((listGroupsScope w (some wid)).filter
          (fun g => normalizeTitle g.title cs == normalizeTitle title cs)).length
            < 2 →
        findDuplicateTargetGroup cs iu wid title w = none)
    ∧ (∀ e ∈ (recomputeAndDrainDuplicates moveOk cs iu fm kc wid w).2.2,
        ∃ b, (e.key, b) ∈ bucketsOf cs iu (listGroupsScope w (some wid))
          ∧ 2 ≤ b.length ∧ ∃ g ∈ b, g.id = e.target ∧ ∀ g' ∈ b, g.id ≤ g'.id)
    ∧ ∀ k b, (k, b) ∈ bucketsOf cs iu (listGroupsScope w (some wid)) →
        2 ≤ b.length →
        ∃ e ∈ (recomputeAndDrainDuplicates moveOk cs iu fm kc wid w).2.2,
          e.key = k ∧ ∃ g ∈ b, g.id = e.target ∧ ∀ g' ∈ b, g.id ≤ g'.id := by
  have hidx := recomputeBuckets_index moveOk fm kc
    (bucketsOf cs iu (listGroupsScope w (some wid))) w
  exact ⟨fun tid h => findDuplicateTargetGroup_eq_some cs iu wid title w tid h,
    fun h => findDuplicateTargetGroup_small cs iu wid title w h,
    hidx.1, hidx.2⟩

/-- C8: a `debounceByWindow` call leaves exactly one pending timer for
its window and every other window's pending count unchanged, and a burst
of calls for one window (each arriving before the pending timer fires)
collapses to exactly one execution, at the last call's time plus its
delay. -/
theorem debounce_single_pending (st : DebounceState) (now wid delay wid' : Nat)
    (wid2 t d : Nat) (events : List (Nat × Nat × Nat))
    (h : burstOK wid2 (t + d) events) :
    ((debounceByWindow st now wid delay).timers.countP (fun e => e.1 == wid')
        = if wid' = wid then 1 else st.timers.countP (fun e => e.1 == wid'))
    ∧ runScript ((t, wid2, d) :: events) ⟨[]⟩
        = [(wid2, match events.getLast? with
                  | none => t + d
                  | some e => e.1 + e.2.2)] := by
  refine ⟨debounceByWindow_slot st now wid delay wid', ?_⟩
  rw [runScript_burst wid2 t d events h, foldl_last_fire]

/-- C10: `mergeSelectedGroups` on a list of `n ≥ 2` copies of one valid
group id passes validation and succeeds, the result counts the `n - 1`
non-target list entries rather than groups actually drained, and the
self-merge skip means no move request is issued at all. -/
theorem mergeSelected_duplicate_ids (moveOk : Nat → Bool) (kc fm : Bool)
    (tt : Option Str) (gid : Nat) (g : Group) (n : Nat) (w : World)
    (hn : 2 ≤ n) (hg : getGroup w gid = some g) :
    (mergeSelectedGroups moveOk kc fm tt (List.replicate n gid) w).2.2
        = SelResult.ok g.id (trimStr (tt.getD g.title)) (n - 1)
    ∧ ∀ req ∈ (mergeSelectedGroups moveOk kc fm tt (List.replicate n gid) w).2.1,
        req.isMove = false :=
  mergeSelectedGroups_dup_ids moveOk kc fm tt gid g n w hn hg

/-- C9: with `includeUnnamed = false` a group whose normalized title
key is empty is excluded from bucketing entirely, on the explicit path
(`mergeDuplicatesByName`) and on the incremental path
(`recomputeAndDrainDuplicates`) alike: its record survives each run
unchanged, its tabs stay where they are, and no update request names it
and no move request targets it or takes any of its tabs. -/
theorem unnamed_groups_untouched (moveOk : Nat → Bool) (scope : Option Nat)
    (cs fm kc : Bool) (wid : Nat) (w : World) (g : Group)
    (hT : (w.tabs.map Tab.id).Nodup)
    (hG : (w.groups.map (fun g : Group => g.id)).Nodup)
    (hg : g ∈ w.groups)
    (hkey : normalizeTitle g.title cs = []) :
    g ∈ (mergeDuplicatesByName moveOk scope cs false fm kc w).1.groups
    ∧ (∀ t ∈ w.tabs, t.groupId = g.id →
        t ∈ (mergeDuplicatesByName moveOk scope cs false fm kc w).1.tabs)
    ∧ (∀ req ∈ (mergeDuplicatesByName moveOk scope cs false fm kc w).2.1,
        (∀ title c, req ≠ Req.update g.id title c)
        ∧ ∀ tids gid2, req = Req.move tids gid2 →
            gid2 ≠ g.id ∧ ∀ s ∈ w.tabs, s.groupId = g.id → s.id ∉ tids)
    ∧ g ∈ (recomputeAndDrainDuplicates moveOk cs false fm kc wid w).1.groups
    ∧ (∀ t ∈ w.tabs, t.groupId = g.id →
        t ∈ (recomputeAndDrainDuplicates moveOk cs false fm kc wid w).1.tabs)
    ∧ ∀ req ∈ (recomputeAndDrainDuplicates moveOk cs false fm kc wid w).2.1,
        (∀ title c, req ≠ Req.update g.id title c)
        ∧ ∀ tids gid2, req = Req.move tids gid2 →
            gid2 ≠ g.id ∧ ∀ s ∈ w.tabs, s.groupId = g.id → s.id ∉ tids := by
  obtain ⟨hrg, hri, hrm, hrr⟩ := recomputeBuckets_frame moveOk fm kc g.id
    (bucketsOf cs false (listGroupsScope w (some wid))) w hT
    (unnamed_not_in_bucketsOf cs wid w hG g hg hkey)
  set AB := allBuckets cs false (partitionByWindow (listGroupsScope w scope))
    with hAB
  have hspec := mergeDuplicatesByName_spec moveOk scope cs false fm kc w hT hG
  have hnotin := unnamed_not_in_buckets cs scope w hG g hg hkey
  have htgt : ∀ p ∈ AB, 2 ≤ p.2.length →
      (selectBySize w p.2).1.id ∈ p.2.map (fun h : Group => h.id) := by
    intro p hp hlen
    have hpne : p.2 ≠ [] := by intro he; rw [he] at hlen; simp at hlen
    exact (selectBySize_mem_ids w p.2 hpne _).mpr (Or.inl rfl)
  have hoth : ∀ p ∈ AB, 2 ≤ p.2.length →
      ∀ i ∈ (selectBySize w p.2).2.map (fun h : Group => h.id),
        i ∈ p.2.map (fun h : Group => h.id) := by
    intro p hp hlen i hi
    have hpne : p.2 ≠ [] := by intro he; rw [he] at hlen; simp at hlen
    exact (selectBySize_mem_ids w p.2 hpne _).mpr (Or.inr hi)
  refine ⟨?_, ?_, ?_, hrg g hg rfl, hrm, hrr⟩
  · rw [hspec.2.1]
    have hρ : retitleFn kc w AB g = g := by
      apply retitleFn_id_of
      intro p hp hc
      apply hnotin p hp
      rw [hc.2]
      exact htgt p hp hc.1
    exact List.mem_map.mpr ⟨g, hg, hρ⟩
  · intro t ht htg
    rw [hspec.1]
    have hφ : moveFn moveOk w AB t = t := by
      apply moveFn_id_of
      intro p hp hc
      apply hnotin p hp
      rw [← htg]
      exact hoth p hp hc.1 t.groupId hc.2.1
    exact List.mem_map.mpr ⟨t, ht, hφ⟩
  · intro req hreq
    have hb := hspec.2.2 req hreq
    constructor
    · intro title c heq
      rw [heq] at hb
      have hb2 : ∃ p ∈ AB, 2 ≤ p.2.length
          ∧ g.id = (selectBySize w p.2).1.id := hb
      obtain ⟨p, hp, hlen, htid⟩ := hb2
      apply hnotin p hp
      rw [htid]
      exact htgt p hp hlen
    · intro tids gid2 heq
      rw [heq] at hb
      have hb2 : ∃ p ∈ AB, 2 ≤ p.2.length
          ∧ gid2 = (selectBySize w p.2).1.id
          ∧ ∀ tid ∈ tids, ∃ t ∈ w.tabs, t.id = tid
              ∧ t.groupId ∈ (selectBySize w p.2).2.map (fun g => g.id) := hb
      obtain ⟨p, hp, hlen, hgid, htids⟩ := hb2
      constructor
      · intro hge
        have hgt : g.id = (selectBySize w p.2).1.id := hge.symm.trans hgid
        apply hnotin p hp
        rw [hgt]
        exact htgt p hp hlen
      · intro s hs hsg hmem
        obtain ⟨t', ht', htid, htg⟩ := htids s.id hmem
        have hts : t' = s := tab_eq_of_id hT ht' hs htid
        apply hnotin p hp
        rw [← hsg, ← hts]
        exact hoth p hp hlen t'.groupId htg

/-- C1: tabs are never dropped by a merge run (the tab-id roster is
preserved, and a tab whose move the host rejects keeps its original
group); and when every move is accepted, a bucket of two or more groups
of one window with a common normalized key collapses so that exactly
one group of that window still holds tabs under that key, with tab
count the sum of the bucket's original counts. -/
theorem mergeDuplicates_bucket_collapse (moveOk : Nat → Bool)
    (scope : Option Nat) (cs iu fm kc : Bool) (w : World) (wid : Nat)
    (K : Str) (B : List Group)
    (hT : (w.tabs.map Tab.id).Nodup)
    (hG : (w.groups.map (fun g : Group => g.id)).Nodup)
    (hKB : (K, B) ∈ allBuckets cs iu (partitionByWindow (listGroupsScope w scope)))
    (hwid : ∀ g ∈ B, g.windowId = wid)
    (hlen : 2 ≤ B.length)
    (hne : ∃ g ∈ B, tabsInGroup w g.id ≠ []) :
    ((mergeDuplicatesByName moveOk scope cs iu fm kc w).1.tabs.map Tab.id
        = w.tabs.map Tab.id
      ∧ ∀ t ∈ w.tabs, moveOk t.groupId = false →
          ∃ t' ∈ (mergeDuplicatesByName moveOk scope cs iu fm kc w).1.tabs,
            t'.id = t.id ∧ t'.groupId = t.groupId)
    ∧ ((∀ n, moveOk n = true) →
        ∃ g', ((mergeDuplicatesByName moveOk scope cs iu fm kc w).1.groups.filter
            (fun h => h.windowId == wid && (normalizeTitle h.title cs == K)
              && !(tabsInGroup (mergeDuplicatesByName moveOk scope cs iu fm kc w).1
                    h.id).isEmpty)) = [g']
          ∧ (tabsInGroup (mergeDuplicatesByName moveOk scope cs iu fm kc w).1
              g'.id).length
            = (B.map (fun h => (tabsInGroup w h.id).length)).sum) := by
  classical
  set AB := allBuckets cs iu (partitionByWindow (listGroupsScope w scope))
    with hAB
  have hGL : ((listGroupsScope w scope).map (fun g : Group => g.id)).Nodup :=
    ((listGroupsScope_sublist w scope).map (fun g : Group => g.id)).nodup hG
  have hndall := allBuckets_nodup_ids cs iu (listGroupsScope w scope) hGL
  have hdisj := allBuckets_disjoint cs iu (listGroupsScope w scope) hGL
  have hspec := mergeDuplicatesByName_spec moveOk scope cs iu fm kc w hT hG
  have hBne : B ≠ [] := by intro he; rw [he] at hlen; simp at hlen
  have hndB : (B.map (fun g : Group => g.id)).Nodup := hndall (K, B) hKB
  constructor
  · constructor
    · rw [hspec.1]
      exact ids_of_map_preserved w.tabs _ (moveFn_keeps_id moveOk w AB)
    · intro t ht hok
      refine ⟨t, ?_, rfl, rfl⟩
      rw [hspec.1]
      have hid : moveFn moveOk w AB t = t := by
        apply moveFn_id_of
        intro p hp hc
        rw [hok] at hc
        exact Bool.false_ne_true hc.2.2
      exact List.mem_map.mpr ⟨t, ht, hid⟩
  · intro hall
    -- every non-target member of the bucket ends up with no tabs
    have hothers_empty : ∀ i ∈ B.map (fun g : Group => g.id),
        i ≠ (selectBySize w B).1.id →
        tabsInGroup (mergeDuplicatesByName moveOk scope cs iu fm kc w).1 i = [] := by
      intro i hiB hiT
      have hi : i ∈ (selectBySize w B).2.map (fun g : Group => g.id) := by
        rcases (selectBySize_mem_ids w B hBne i).mp hiB with h1 | h1
        · exact absurd h1 hiT
        · exact h1
      exact allOk_sources_empty moveOk scope cs iu fm kc w hall hT hG
        (K, B) hKB hlen i hi
    -- which tabs end up in the target
    have hiff2 : ∀ t ∈ w.tabs,
        ((moveFn moveOk w AB t).groupId = (selectBySize w B).1.id
          ↔ t.groupId ∈ B.map (fun g : Group => g.id)) := by
      intro t ht
      constructor
      · intro hgi
        rcases moveFn_groupId moveOk w AB t with hsame | ⟨q, hq, hqlen, hqeq, hqmem⟩
        · rw [hsame] at hgi
          rw [hgi]
          exact (selectBySize_mem_ids w B hBne _).mpr (Or.inl rfl)
        · have htq : (selectBySize w q.2).1.id = (selectBySize w B).1.id :=
            hqeq.symm.trans hgi
          have hqne : q.2 ≠ [] := by
            intro he; rw [he] at hqlen; simp at hqlen
          rcases buckets_same_or_disjoint AB hdisj q (K, B) hq hKB with heq | hdis
          · have hmem2 : t.groupId ∈ (selectBySize w B).2.map (fun g : Group => g.id) := by
              rw [heq] at hqmem
              exact hqmem
            exact (selectBySize_mem_ids w B hBne _).mpr (Or.inr hmem2)
          · exfalso
            have hTq : (selectBySize w B).1.id ∈ q.2.map (fun g : Group => g.id) := by
              rw [← htq]
              exact (selectBySize_mem_ids w q.2 hqne _).mpr (Or.inl rfl)
            have hTB : (selectBySize w B).1.id ∈ B.map (fun g : Group => g.id) :=
              (selectBySize_mem_ids w B hBne _).mpr (Or.inl rfl)
            exact hdis _ hTq hTB
      · intro hmem
        rcases (selectBySize_mem_ids w B hBne _).mp hmem with h1 | h1
        · rw [moveFn_keep_of_target moveOk w AB (K, B) hKB hdisj hndB hlen t h1]
          exact h1
        · rw [moveFn_eq_of_mem moveOk w AB (K, B) hKB hdisj hlen t h1
            (hall t.groupId)]
    -- tab count of the target after the run
    have hcount : (tabsInGroup (mergeDuplicatesByName moveOk scope cs iu fm kc w).1
        (selectBySize w B).1.id).length
        = (B.map (fun h => (tabsInGroup w h.id).length)).sum := by
      show ((mergeDuplicatesByName moveOk scope cs iu fm kc w).1.tabs.filter
        (fun t => t.groupId == (selectBySize w B).1.id)).length = _
      rw [hspec.1, ← List.countP_eq_length_filter, List.countP_map]
      have hc2 : w.tabs.countP
          ((fun t => t.groupId == (selectBySize w B).1.id) ∘ (moveFn moveOk w AB))
          = w.tabs.countP
              (fun t => decide (t.groupId ∈ B.map (fun g : Group => g.id))) := by
        apply List.countP_congr
        intro t ht
        constructor
        · intro hc
          have h1 : (moveFn moveOk w AB t).groupId = (selectBySize w B).1.id := by
            simpa using hc
          simpa using (hiff2 t ht).mp h1
        · intro hc
          have h1 : t.groupId ∈ B.map (fun g : Group => g.id) := by simpa using hc
          simpa using (hiff2 t ht).mpr h1
      rw [hc2, countP_mem_ids w B hndB]
    have hpos : 1 ≤ (B.map (fun h => (tabsInGroup w h.id).length)).sum := by
      obtain ⟨g0, hg0, hg0ne⟩ := hne
      have hmem : (tabsInGroup w g0.id).length
          ∈ B.map (fun h => (tabsInGroup w h.id).length) :=
        List.mem_map.mpr ⟨g0, hg0, rfl⟩
      have hle := List.single_le_sum (fun x _ => Nat.zero_le x) _ hmem
      have h1 : 0 < (tabsInGroup w g0.id).length := List.length_pos.mpr hg0ne
      omega
    -- the bucket as a filter of the listing
    obtain ⟨hBne2, wid0, hBfilter⟩ :=
      allBuckets_bucket_eq cs iu (listGroupsScope w scope) K B hKB
    have hwid0 : wid0 = wid := by
      obtain ⟨g0, hg0⟩ := List.exists_mem_of_ne_nil B hBne
      have hg0' := hg0
      rw [hBfilter] at hg0
      have h1 := (List.mem_filter.mp hg0).1
      have h2 : g0.windowId = wid0 := by simpa using (List.mem_filter.mp h1).2
      rw [← h2]
      exact hwid g0 hg0'
    have hmemB : ∀ g0 ∈ B, g0 ∈ listGroupsScope w scope ∧ g0.windowId = wid
        ∧ bucketKeyOf cs iu g0 = some K := by
      intro g0 hg0
      rw [hBfilter] at hg0
      obtain ⟨h1, h2⟩ := List.mem_filter.mp hg0
      obtain ⟨h3, h4⟩ := List.mem_filter.mp h1
      refine ⟨h3, ?_, by simpa using h2⟩
      rw [← hwid0]
      simpa using h4
    have hKne : iu = false → K ≠ [] := by
      intro hiu
      obtain ⟨g0, hg0⟩ := List.exists_mem_of_ne_nil B hBne
      exact (bucketKeyOf_eq_some (hmemB g0 hg0).2.2).2 hiu
    -- full membership characterization of the bucket
    have hginB : ∀ g ∈ w.groups, g.windowId = wid →
        normalizeTitle g.title cs = K → g ∈ B := by
      intro g hgw hgwid hgkey
      have hkeysome : bucketKeyOf cs iu g = some K := by
        show (if !iu && (normalizeTitle g.title cs == []) then none
              else some (normalizeTitle g.title cs)) = some K
        rw [hgkey]
        cases hiu : iu with
        | true => simp
        | false =>
          have hk : (K == ([] : Str)) = false := by
            simpa using hKne hiu
          simp [hk]
      have hgL : g ∈ listGroupsScope w scope := by
        cases scope with
        | none => exact hgw
        | some swid =>
          obtain ⟨g0, hg0⟩ := List.exists_mem_of_ne_nil B hBne
          have h1 : g0 ∈ w.groups.filter (fun g => g.windowId == swid) :=
            (hmemB g0 hg0).1
          have h2 : g0.windowId = swid := by
            simpa using (List.mem_filter.mp h1).2
          have h3 : swid = wid := by
            rw [← h2]
            exact (hmemB g0 hg0).2.1
          show g ∈ w.groups.filter (fun g => g.windowId == swid)
          rw [List.mem_filter]
          exact ⟨hgw, by simp [hgwid, h3]⟩
      rw [hBfilter, hwid0, List.mem_filter]
      refine ⟨?_, by simp [hkeysome]⟩
      rw [List.mem_filter]
      exact ⟨hgL, by simp [hgwid]⟩
    -- facts about the target's final record
    have hTmem : (selectBySize w B).1 ∈ B := selectBySize_target_mem w B hBne
    have hTw : (selectBySize w B).1 ∈ w.groups :=
      (listGroupsScope_sublist w scope).subset (hmemB _ hTmem).1
    have hco := allBuckets_coherent cs iu w scope
    have hkeyρ : ∀ g ∈ w.groups,
        normalizeTitle (retitleFn kc w AB g).title cs
          = normalizeTitle g.title cs :=
      retitleFn_key_of cs kc w hG AB hco
    have hvmem : retitleFn kc w AB (selectBySize w B).1
        ∈ (mergeDuplicatesByName moveOk scope cs iu fm kc w).1.groups := by
      rw [hspec.2.1]
      exact List.mem_map.mpr ⟨(selectBySize w B).1, hTw, rfl⟩
    have hvid : (retitleFn kc w AB (selectBySize w B).1).id
        = (selectBySize w B).1.id :=
      (retitleFn_keeps_id kc w AB _).1
    have hTkey : normalizeTitle (selectBySize w B).1.title cs = K :=
      (bucketKeyOf_eq_some (hmemB _ hTmem).2.2).1
    have hvkey : normalizeTitle (retitleFn kc w AB (selectBySize w B).1).title cs
        = K := (hkeyρ _ hTw).trans hTkey
    have hvwin : (retitleFn kc w AB (selectBySize w B).1).windowId = wid := by
      rw [(retitleFn_keeps_id kc w AB _).2]
      exact hwid _ hTmem
    have hTcount : (tabsInGroup (mergeDuplicatesByName moveOk scope cs iu fm kc w).1
        (retitleFn kc w AB (selectBySize w B).1).id).length
        = (B.map (fun h => (tabsInGroup w h.id).length)).sum := by
      rw [hvid]
      exact hcount
    have hvpred : ((retitleFn kc w AB (selectBySize w B).1).windowId == wid
        && (normalizeTitle (retitleFn kc w AB (selectBySize w B).1).title cs == K)
        && !(tabsInGroup (mergeDuplicatesByName moveOk scope cs iu fm kc w).1
              (retitleFn kc w AB (selectBySize w B).1).id).isEmpty) = true := by
      have hnonnil : tabsInGroup (mergeDuplicatesByName moveOk scope cs iu fm kc w).1
          (retitleFn kc w AB (selectBySize w B).1).id ≠ [] := by
        intro hnil
        rw [hnil] at hTcount
        simp at hTcount
        omega
      rw [hvwin, hvkey]
      simp [List.isEmpty_iff, hnonnil]
    have hids2 : ((mergeDuplicatesByName moveOk scope cs iu fm kc w).1.groups.map
        (fun g : Group => g.id)) = w.groups.map (fun g : Group => g.id) := by
      rw [hspec.2.1]
      exact group_ids_map_preserved w.groups _
        (fun g _ => (retitleFn_keeps_id kc w AB g).1)
    have hcount1 : (mergeDuplicatesByName moveOk scope cs iu fm kc w).1.groups.count
        (retitleFn kc w AB (selectBySize w B).1) = 1 :=
      count_value_eq_one (fun g : Group => g.id) _ _ hvmem
        (by rw [hids2]; exact hG)
    have hsingle : (mergeDuplicatesByName moveOk scope cs iu fm kc w).1.groups.filter
        (fun h => h.windowId == wid && (normalizeTitle h.title cs == K)
          && !(tabsInGroup (mergeDuplicatesByName moveOk scope cs iu fm kc w).1
                h.id).isEmpty)
        = [retitleFn kc w AB (selectBySize w B).1] := by
      refine filter_eq_singleton_of _ _ _ ?_ hcount1
      intro a ha
      constructor
      · intro hpa
        rw [hspec.2.1] at ha
        obtain ⟨g, hgw, hga⟩ := List.mem_map.mp ha
        rw [← hga] at hpa
        simp only [Bool.and_eq_true, beq_iff_eq, Bool.not_eq_true',
          List.isEmpty_eq_false] at hpa
        obtain ⟨⟨hwin, hkey2⟩, hne2⟩ := hpa
        have hgwid2 : g.windowId = wid := by
          rw [← (retitleFn_keeps_id kc w AB g).2]
          exact hwin
        have hgkey2 : normalizeTitle g.title cs = K := by
          rw [← hkeyρ g hgw]
          exact hkey2
        have hgB : g ∈ B := hginB g hgw hgwid2 hgkey2
        rcases List.mem_cons.mp ((selectBySize_perm w B hBne).subset hgB)
          with hgT | hgO
        · rw [← hga, hgT]
        · exfalso
          have hgid : g.id ∈ (selectBySize w B).2.map (fun h : Group => h.id) :=
            List.mem_map.mpr ⟨g, hgO, rfl⟩
          have hgBid : g.id ∈ B.map (fun h : Group => h.id) :=
            List.mem_map.mpr ⟨g, hgB, rfl⟩
          have hgne : g.id ≠ (selectBySize w B).1.id := by
            intro he
            exact (selectBySize_ids_nodup w B hBne hndB).1 (he ▸ hgid)
          have hempty := hothers_empty g.id hgBid hgne
          apply hne2
          rw [(retitleFn_keeps_id kc w AB g).1]
          exact hempty
      · intro hav
        rw [hav]
        exact hvpred
    refine ⟨retitleFn kc w AB (selectBySize w B).1, hsingle, ?_⟩
    exact hTcount

/-- C2: running `mergeDuplicatesByName` a second time immediately after
a first run whose moves were all accepted, with no intervening mutation,
issues zero tab-move requests: the retitle pass preserves windows and
normalized keys, so the second run sees the same buckets with all
non-target members already empty. -/
theorem mergeDuplicates_idempotent (moveOk2 : Nat → Bool) (scope : Option Nat)
    (cs iu fm kc : Bool) (w : World)
    (hT : (w.tabs.map Tab.id).Nodup)
    (hG : (w.groups.map (fun g : Group => g.id)).Nodup) :
    ∀ req ∈ (mergeDuplicatesByName moveOk2 scope cs iu fm kc
        (mergeDuplicatesByName (fun _ => true) scope cs iu fm kc w).1).2.1,
      req.isMove = false := by
  classical
  set AB := allBuckets cs iu (partitionByWindow (listGroupsScope w scope))
    with hAB
  set w1 := (mergeDuplicatesByName (fun _ => true) scope cs iu fm kc w).1
    with hw1
  have hspec := mergeDuplicatesByName_spec (fun _ => true) scope cs iu fm kc w hT hG
  have hGL : ((listGroupsScope w scope).map (fun g : Group => g.id)).Nodup :=
    ((listGroupsScope_sublist w scope).map (fun g : Group => g.id)).nodup hG
  have hndall := allBuckets_nodup_ids cs iu (listGroupsScope w scope) hGL
  have hco := allBuckets_coherent cs iu w scope
  have hkeyρ : ∀ g ∈ w.groups,
      normalizeTitle (retitleFn kc w AB g).title cs = normalizeTitle g.title cs :=
    retitleFn_key_of cs kc w hG AB hco
  have hL2 : listGroupsScope w1 scope
      = (listGroupsScope w scope).map (retitleFn kc w AB) :=
    listGroupsScope_map w w1 (retitleFn kc w AB) scope hspec.2.1
      (fun g _ => (retitleFn_keeps_id kc w AB g).2)
  have hAB2 : allBuckets cs iu (partitionByWindow (listGroupsScope w1 scope))
      = AB.map (fun e => (e.1, e.2.map (retitleFn kc w AB))) := by
    rw [hL2, hAB]
    apply allBuckets_map
    · intro g hg
      exact (retitleFn_keeps_id kc w AB g).2
    · intro g hg
      apply bucketKeyOf_congr
      exact hkeyρ g ((listGroupsScope_sublist w scope).subset hg)
  have hbridge := runWindows_eq_processBuckets moveOk2 cs iu fm kc
    (partitionByWindow (listGroupsScope w1 scope)) w1
  intro req hreq
  have hreq1 : req ∈ (runWindows moveOk2 cs iu fm kc
      (partitionByWindow (listGroupsScope w1 scope)) w1).2.1 := hreq
  rw [hbridge.2] at hreq1
  have hsrc : ∀ p ∈ allBuckets cs iu (partitionByWindow (listGroupsScope w1 scope)),
      2 ≤ p.2.length →
      ∀ i ∈ (selectBySize w1 p.2).2.map (fun g : Group => g.id),
        tabsInGroup w1 i = [] := by
    intro p hp hplen i hi
    rw [hAB2] at hp
    obtain ⟨q, hq, hpq⟩ := List.mem_map.mp hp
    obtain ⟨K, B⟩ := q
    rw [← hpq] at hplen hi
    have hKB : (K, B) ∈ AB := hq
    have hndB : (B.map (fun g : Group => g.id)).Nodup := hndall (K, B) hKB
    have hBlen : 2 ≤ B.length := by simpa using hplen
    have hBne : B ≠ [] := by intro he; rw [he] at hBlen; simp at hBlen
    have hρBne : B.map (retitleFn kc w AB) ≠ [] := by
      intro he
      exact hBne (List.map_eq_nil_iff.mp he)
    have hρids : (B.map (retitleFn kc w AB)).map (fun g : Group => g.id)
        = B.map (fun g : Group => g.id) :=
      group_ids_map_preserved B (retitleFn kc w AB)
        (fun g _ => (retitleFn_keeps_id kc w AB g).1)
    have hρnd : ((B.map (retitleFn kc w AB)).map (fun g : Group => g.id)).Nodup := by
      rw [hρids]
      exact hndB
    have hempty : ∀ j ∈ B.map (fun g : Group => g.id),
        j ≠ (selectBySize w B).1.id → tabsInGroup w1 j = [] := by
      intro j hj hjne
      have hjo : j ∈ (selectBySize w B).2.map (fun g : Group => g.id) := by
        rcases (selectBySize_mem_ids w B hBne j).mp hj with h1 | h1
        · exact absurd h1 hjne
        · exact h1
      exact allOk_sources_empty (fun _ => true) scope cs iu fm kc w
        (fun _ => rfl) hT hG (K, B) hKB hBlen j hjo
    have hi2 : i ∈ (selectBySize w1 (B.map (retitleFn kc w AB))).2.map
        (fun g : Group => g.id) := hi
    have hiB : i ∈ B.map (fun g : Group => g.id) := by
      have h1 : i ∈ (B.map (retitleFn kc w AB)).map (fun g : Group => g.id) :=
        (selectBySize_mem_ids w1 (B.map (retitleFn kc w AB)) hρBne i).mpr
          (Or.inr hi2)
      rw [hρids] at h1
      exact h1
    by_cases hiT : i = (selectBySize w B).1.id
    · have htgt2 := selectBySize_target_mem w1 (B.map (retitleFn kc w AB)) hρBne
      have htid : (selectBySize w1 (B.map (retitleFn kc w AB))).1.id
          ∈ B.map (fun g : Group => g.id) := by
        have h1 : (selectBySize w1 (B.map (retitleFn kc w AB))).1.id
            ∈ (B.map (retitleFn kc w AB)).map (fun g : Group => g.id) :=
          List.mem_map.mpr ⟨_, htgt2, rfl⟩
        rw [hρids] at h1
        exact h1
      have htne : (selectBySize w1 (B.map (retitleFn kc w AB))).1.id
          ≠ (selectBySize w B).1.id := by
        intro he
        have hnotin :=
          (selectBySize_ids_nodup w1 (B.map (retitleFn kc w AB)) hρBne hρnd).1
        rw [he, ← hiT] at hnotin
        exact hnotin hi2
      have htempty : tabsInGroup w1
          (selectBySize w1 (B.map (retitleFn kc w AB))).1.id = [] :=
        hempty _ htid htne
      have hTmem : (selectBySize w B).1 ∈ B := selectBySize_target_mem w B hBne
      have hρTmem : retitleFn kc w AB (selectBySize w B).1
          ∈ B.map (retitleFn kc w AB) := List.mem_map.mpr ⟨_, hTmem, rfl⟩
      obtain ⟨pre, post, hdecomp, hmax, hpre⟩ :=
        selectBySize_spec w1 (B.map (retitleFn kc w AB)) hρBne
      have hle := hmax _ hρTmem
      rw [htempty] at hle
      simp only [List.length_nil, Nat.le_zero] at hle
      have hρTid : (retitleFn kc w AB (selectBySize w B).1).id
          = (selectBySize w B).1.id := (retitleFn_keeps_id kc w AB _).1
      rw [hρTid, ← hiT] at hle
      exact List.length_eq_zero.mp hle
    · exact hempty i hiB hiT
  exact (processBuckets_no_moves moveOk2 fm kc 0
    (allBuckets cs iu (partitionByWindow (listGroupsScope w1 scope))) w1 hsrc).2
    req hreq1

/-! ## Concrete witnesses -/

def bC1 : List Group := [⟨1, ['a'], 9, false⟩, ⟨2, ['a'], 9, false⟩]

def wC1 : World :=
  ⟨bC1, [⟨10, 1, 9, false, ['u'], []⟩, ⟨11, 2, 9, false, ['u'], []⟩]⟩

/-- C1 at a concrete input: two groups titled "a" in window 9, one tab
each, collapse to a single group holding both tabs. -/
theorem mergeDuplicates_bucket_collapse_witness :
    (wC1.tabs.map Tab.id).Nodup
    ∧ (wC1.groups.map (fun g : Group => g.id)).Nodup
    ∧ (['a'], bC1)
        ∈ allBuckets true true (partitionByWindow (listGroupsScope wC1 none))
    ∧ (∀ g ∈ bC1, g.windowId = 9)
    ∧ 2 ≤ bC1.length
    ∧ (∃ g ∈ bC1, tabsInGroup wC1 g.id ≠ [])
    ∧ (((mergeDuplicatesByName (fun _ => true) none true true false false wC1).1.tabs.map
          Tab.id = wC1.tabs.map Tab.id
        ∧ ∀ t ∈ wC1.tabs, (fun _ : Nat => true) t.groupId = false →
            ∃ t' ∈ (mergeDuplicatesByName (fun _ => true) none true true false false
                wC1).1.tabs,
              t'.id = t.id ∧ t'.groupId = t.groupId)
      ∧ ((∀ n, (fun _ : Nat => true) n = true) →
          ∃ g', ((mergeDuplicatesByName (fun _ => true) none true true false false
                wC1).1.groups.filter
              (fun h => h.windowId == 9 && (normalizeTitle h.title true == ['a'])
                && !(tabsInGroup (mergeDuplicatesByName (fun _ => true) none true true
                      false false wC1).1 h.id).isEmpty)) = [g']
            ∧ (tabsInGroup (mergeDuplicatesByName (fun _ => true) none true true
                  false false wC1).1 g'.id).length
              = (bC1.map (fun h => (tabsInGroup wC1 h.id).length)).sum)) :=
  ⟨by decide, by decide, by decide, by decide, by decide, by decide,
   mergeDuplicates_bucket_collapse (fun _ => true) none true true false false wC1
     9 ['a'] bC1 (by decide) (by decide) (by decide) (by decide) (by decide)
     (by decide)⟩

def wC2 : World :=
  ⟨[⟨1, ['a'], 9, false⟩, ⟨2, ['a'], 9, false⟩],
   [⟨10, 1, 9, false, ['u'], []⟩, ⟨11, 2, 9, false, ['u'], []⟩]⟩

/-- C2 at a concrete input: after one collapsing run, the second run's
trace holds the title update but its only requests are non-moves. -/
theorem mergeDuplicates_idempotent_witness :
    (wC2.tabs.map Tab.id).Nodup
    ∧ (wC2.groups.map (fun g : Group => g.id)).Nodup
    ∧ Req.update 1 ['a'] false
        ∈ (mergeDuplicatesByName (fun _ => true) none true true false false
            (mergeDuplicatesByName (fun _ => true) none true true false false wC2).1).2.1
    ∧ (Req.update 1 ['a'] false).isMove = false :=
  ⟨by decide, by decide, by decide,
   mergeDuplicates_idempotent (fun _ => true) none true true false false wC2
     (by decide) (by decide) (Req.update 1 ['a'] false) (by decide)⟩

def wC3 : World := ⟨[⟨1, ['a'], 9, false⟩], [⟨10, 1, 9, true, ['u'], []⟩]⟩

def tC3 : Tab := ⟨10, 1, 9, true, ['u'], []⟩

/-- C3 at a concrete input: the active tab is never named by a discard
request of any entry point, with fastMerge on. -/
theorem merge_discard_safety_witness :
    (wC3.tabs.map Tab.id).Nodup
    ∧ tC3 ∈ wC3.tabs
    ∧ (tC3.active = true ∨ trimStr tC3.url = []
        ∨ trimStr tC3.url = "about:blank".toList ∨ tC3.pendingUrl ≠ [])
    ∧ (Req.discard tC3.id
          ∉ (mergeDuplicatesByName (fun _ => true) none true true true false wC3).2.1
      ∧ Req.discard tC3.id
          ∉ (recomputeAndDrainDuplicates (fun _ => true) true true true false 9 wC3).2.1
      ∧ Req.discard tC3.id
          ∉ (mergeSelectedGroups (fun _ => true) false true none [] wC3).2.1) :=
  ⟨by decide, by decide, by decide,
   merge_discard_safety (fun _ => true) none true true true false none [] 9 wC3 tC3
     (by decide) (by decide) (by decide)⟩

def bC4 : List Group :=
  [⟨1, ['t'], 9, false⟩, ⟨2, ['t'], 9, false⟩, ⟨3, ['t'], 9, false⟩]

def wC4 : World :=
  ⟨bC4,
   [⟨100, 1, 9, false, ['u'], []⟩, ⟨101, 1, 9, false, ['u'], []⟩,
    ⟨102, 1, 9, false, ['u'], []⟩, ⟨103, 2, 9, false, ['u'], []⟩,
    ⟨104, 3, 9, false, ['u'], []⟩, ⟨105, 3, 9, false, ['u'], []⟩,
    ⟨106, 3, 9, false, ['u'], []⟩, ⟨107, 3, 9, false, ['u'], []⟩,
    ⟨108, 3, 9, false, ['u'], []⟩]⟩

/-- C4 at a concrete input: tab counts [3, 1, 5] select the third group
as merge target. -/
theorem selectBySize_first_max_witness :
    2 ≤ bC4.length
    ∧ ((processBucket (fun _ => true) false false 9 bC4 wC4).2.2.mergedInto
          = (selectBySize wC4 bC4).1.id
      ∧ ∃ pre post, bC4 = pre ++ (selectBySize wC4 bC4).1 :: post
        ∧ (∀ g ∈ bC4, (tabsInGroup wC4 g.id).length
            ≤ (tabsInGroup wC4 (selectBySize wC4 bC4).1.id).length)
        ∧ ∀ g ∈ pre, (tabsInGroup wC4 g.id).length
            < (tabsInGroup wC4 (selectBySize wC4 bC4).1.id).length) :=
  ⟨by decide,
   selectBySize_first_max (fun _ => true) false false 9 wC4 bC4 (by decide)⟩

def bC5 : List Group :=
  [⟨1, ['W', 'o', 'r', 'k'], 9, false⟩, ⟨2, ['w', 'o', 'r', 'k'], 9, false⟩,
   ⟨3, ['W', 'o', 'r', 'k'], 9, false⟩]

def wC5 : World := ⟨bC5, []⟩

/-- C5 at a concrete input: titles ["Work", "work", "Work"] select the
most frequent trimmed title as the applied merged title. -/
theorem mergedTitle_most_frequent_witness :
    bucketTitles bC5 ≠ []
    ∧ ((∃ rs, (processBucket (fun _ => true) false false 9 bC5 wC5).2.1
          = rs ++ [Req.update (selectBySize wC5 bC5).1.id
              (mergedTitle bC5 (selectBySize wC5 bC5).1.title) false])
      ∧ mergedTitle bC5 (selectBySize wC5 bC5).1.title ∈ bucketTitles bC5
      ∧ ∃ pre post,
          bucketTitles bC5
            = pre ++ mergedTitle bC5 (selectBySize wC5 bC5).1.title :: post
          ∧ (∀ s ∈ bucketTitles bC5, (bucketTitles bC5).count s
              ≤ (bucketTitles bC5).count
                  (mergedTitle bC5 (selectBySize wC5 bC5).1.title))
          ∧ ∀ s ∈ pre, (bucketTitles bC5).count s
              < (bucketTitles bC5).count
                  (mergedTitle bC5 (selectBySize wC5 bC5).1.title)) :=
  ⟨by decide,
   mergedTitle_most_frequent (fun _ => true) false false 9 wC5 bC5 (by decide)⟩

/-- C6 at a concrete input: a single selected id fails validation with
no action. -/
theorem mergeSelected_invalid_no_action_witness :
    (([1] : List Nat).length < 2
      ∨ ((∀ i ∈ ([1] : List Nat), ∃ g, getGroup (⟨[], []⟩ : World) i = some g)
         ∧ ∃ i1 ∈ ([1] : List Nat), ∃ i2 ∈ ([1] : List Nat), ∃ g1 g2,
             getGroup (⟨[], []⟩ : World) i1 = some g1
             ∧ getGroup (⟨[], []⟩ : World) i2 = some g2
             ∧ g1.windowId ≠ g2.windowId))
    ∧ ∃ msg, mergeSelectedGroups (fun _ => true) false false none [1]
        (⟨[], []⟩ : World) = ((⟨[], []⟩ : World), [], SelResult.err msg) :=
  ⟨Or.inl (by decide),
   mergeSelected_invalid_no_action (fun _ => true) false false none [1] ⟨[], []⟩
     (Or.inl (by decide))⟩

/-- C8 at a concrete input: three calls for window 1 at times 0, 4 and 8
with delay 10 collapse to one execution at time 18, and an unrelated
re-arm keeps one pending timer for its window. -/
theorem debounce_single_pending_witness :
    burstOK 1 (0 + 10) [(4, 1, 10), (8, 1, 10)]
    ∧ (((debounceByWindow ⟨[(5, 100)]⟩ 0 7 3).timers.countP (fun e => e.1 == 7)
          = if 7 = 7 then 1
            else (⟨[(5, 100)]⟩ : DebounceState).timers.countP (fun e => e.1 == 7))
      ∧ runScript ((0, 1, 10) :: [(4, 1, 10), (8, 1, 10)]) ⟨[]⟩
          = [(1, match ([(4, 1, 10), (8, 1, 10)]
                    : List (Nat × Nat × Nat)).getLast? with
                 | none => 0 + 10
                 | some e => e.1 + e.2.2)]) := by
  have hb : burstOK 1 (0 + 10) [(4, 1, 10), (8, 1, 10)] :=
    ⟨rfl, by decide, rfl, by decide, trivial⟩
  exact ⟨hb, debounce_single_pending ⟨[(5, 100)]⟩ 0 7 3 7 1 0 10
    [(4, 1, 10), (8, 1, 10)] hb⟩

def wC9 : World :=
  ⟨[⟨1, [], 9, false⟩, ⟨2, [], 9, false⟩, ⟨3, [], 9, false⟩],
   [⟨10, 1, 9, false, ['u'], []⟩]⟩

def gC9 : Group := ⟨1, [], 9, false⟩

/-- C9 at a concrete input: three unnamed groups stay untouched by both
the explicit and the incremental path when includeUnnamed is false. -/
theorem unnamed_groups_untouched_witness :
    (wC9.tabs.map Tab.id).Nodup
    ∧ (wC9.groups.map (fun g : Group => g.id)).Nodup
    ∧ gC9 ∈ wC9.groups
    ∧ normalizeTitle gC9.title true = []
    ∧ (gC9 ∈ (mergeDuplicatesByName (fun _ => true) none true false false false
          wC9).1.groups
      ∧ (∀ t ∈ wC9.tabs, t.groupId = gC9.id →
          t ∈ (mergeDuplicatesByName (fun _ => true) none true false false false
              wC9).1.tabs)
      ∧ (∀ req ∈ (mergeDuplicatesByName (fun _ => true) none true false false
            false wC9).2.1,
          (∀ title c, req ≠ Req.update gC9.id title c)
          ∧ ∀ tids gid2, req = Req.move tids gid2 →
              gid2 ≠ gC9.id ∧ ∀ s ∈ wC9.tabs, s.groupId = gC9.id → s.id ∉ tids)
      ∧ gC9 ∈ (recomputeAndDrainDuplicates (fun _ => true) true false false false
            9 wC9).1.groups
      ∧ (∀ t ∈ wC9.tabs, t.groupId = gC9.id →
          t ∈ (recomputeAndDrainDuplicates (fun _ => true) true false false false
              9 wC9).1.tabs)
      ∧ ∀ req ∈ (recomputeAndDrainDuplicates (fun _ => true) true false false
            false 9 wC9).2.1,
          (∀ title c, req ≠ Req.update gC9.id title c)
          ∧ ∀ tids gid2, req = Req.move tids gid2 →
              gid2 ≠ gC9.id ∧ ∀ s ∈ wC9.tabs, s.groupId = gC9.id → s.id ∉ tids) :=
  ⟨by decide, by decide, by decide, by decide,
   unnamed_groups_untouched (fun _ => true) none true false false 9 wC9 gC9
     (by decide) (by decide) (by decide) (by decide)⟩

def wC10 : World := ⟨[⟨5, ['a'], 9, false⟩], []⟩

def gC10 : Group := ⟨5, ['a'], 9, false⟩

/-- C10 at a concrete input: three copies of one id succeed with
mergedCount 2 and no move request. -/
theorem mergeSelected_duplicate_ids_witness :
    2 ≤ 3
    ∧ getGroup wC10 5 = some gC10
    ∧ ((mergeSelectedGroups (fun _ => true) false false none
          (List.replicate 3 5) wC10).2.2
          = SelResult.ok gC10.id (trimStr ((none : Option Str).getD gC10.title))
              (3 - 1)
      ∧ ∀ req ∈ (mergeSelectedGroups (fun _ => true) false false none
            (List.replicate 3 5) wC10).2.1,
          req.isMove = false) :=
  ⟨by decide, by decide,
   mergeSelected_duplicate_ids (fun _ => true) false false none 5 gC10 3 wC10
     (by decide) (by decide)⟩

end MTG
